import Mathlib

/-!
Verification development for the OnsenUI element lifecycle / DOM-compilation
core (ons-list-item, ons-tab, ons-tabbar, ons-list-title, ons-list-header,
the contentReady coordinator and the modifier rewriter).

The DOM fragment owned by a component instance is modelled as a tree of
nodes.  Element nodes carry an `id : Nat` which stands for JavaScript object
identity (the compilation code compares nodes with `!==` and keeps references
to canonical wrappers across mutation steps, so structural equality is not
enough).  Tags are stored uppercase, matching `Node.nodeName`.  `classes`
models `classList`, `attrs` models the element attributes that the compiled
components read back (the `icon` attribute of an `ons-icon` child, the
`type` attribute of the generated radio input).

Fresh nodes created by a compilation step receive ids from a counter
`nextId` threaded through the state; well-formedness (`WfForest`) says all
ids in the tree are distinct and below the counter, which is exactly the
guarantee JavaScript object identity gives.
-/

inductive DNode : Type where
  | elem (id : Nat) (tag : String) (classes : List String) (attrs : List (String × String)) (children : List DNode) : DNode
  | text (s : String) : DNode

/-- Identity of a node: element nodes have one, text nodes do not. -/
def DNode.idOf : DNode → Option Nat
  | .elem i _ _ _ _ => some i
  | .text _ => none

/-- Tag of a node, uppercase as in `Node.nodeName` (text nodes report `#text`). -/
def DNode.tagOf : DNode → String
  | .elem _ t _ _ _ => t
  | .text _ => "#text"

/-- Truth value of `node.classList?.contains(c)` (text nodes have no classList,
so the optional chain yields a falsy value). -/
def DNode.hasClass (c : String) : DNode → Bool
  | .elem _ _ classes _ _ => classes.contains c
  | .text _ => false

/-- Selector `div.c` restricted to one node: a DIV element carrying class `c`. -/
def isDivClass (c : String) (n : DNode) : Bool :=
  n.tagOf == "DIV" && n.hasClass c

/-- Behaviour of the guarded `classList.add` calls in the compilers:
append the class if it is not present yet. -/
def DNode.addClass (c : String) : DNode → DNode
  | .elem i t classes a ch =>
      if classes.contains c then .elem i t classes a ch else .elem i t (classes ++ [c]) a ch
  | .text s => .text s

/-- Children of a node (text nodes have none). -/
def DNode.childrenOf : DNode → List DNode
  | .elem _ _ _ _ ch => ch
  | .text _ => []

/-- Attribute lookup on an element (`getAttribute`); absent attribute is `none`. -/
def DNode.getAttr (a : String) : DNode → Option String
  | .elem _ _ _ attrs _ => (attrs.find? (fun p => p.fst == a)).map Prod.snd
  | .text _ => none

mutual
/-- Preorder list of the element ids in a node's subtree. -/
def DNode.ids : DNode → List Nat
  | .elem i _ _ _ ch => i :: idsForest ch
  | .text _ => []
/-- Preorder list of the element ids of a forest. -/
def idsForest : List DNode → List Nat
  | [] => []
  | n :: ns => n.ids ++ idsForest ns
end

mutual
/-- Concatenated text content of a node (`Node.textContent`). -/
def DNode.textContent : DNode → String
  | .elem _ _ _ _ ch => textForest ch
  | .text s => s
/-- Concatenated text content of a forest of nodes. -/
def textForest : List DNode → String
  | [] => ""
  | n :: ns => n.textContent ++ textForest ns
end

/-- Apply the guarded `classList.add` to the element with identity `i`
(the compilers hold a reference to a canonical node and mutate it in
place; all canonical wrappers live at the top level of the list being
compiled). -/
def tagClass (i : Nat) (c : String) (cs : List DNode) : List DNode :=
  cs.map (fun n => if n.idOf == some i then n.addClass c else n)

/-- Append `extra` to the child list of the element with identity `tid`,
leaving every other node unchanged. -/
def appendInto (tid : Nat) (extra : List DNode) : DNode → DNode
  | .elem i t c a ch => if i == tid then .elem i t c a (ch ++ extra) else .elem i t c a ch
  | .text s => .text s

/-- Shared shape of the relocation steps in the compilers:
`Array.from(parent.childNodes).filter(movable).forEach(n => target.appendChild(n))`.
Nodes failing `keep` are removed from the list and appended, in their
original order, to the children of the kept node with identity `tid`. -/
def movePhase (keep : DNode → Bool) (tid : Nat) (cs : List DNode) : List DNode :=
  (cs.filter keep).map (appendInto tid (cs.filter (fun n => !keep n)))

/-- Apply a rewrite to the child list of the element with identity `bid`,
leaving every other node unchanged (mutations performed through a held
reference such as `button` or the top wrapper). -/
def mapChildListOf (bid : Nat) (f : List DNode → List DNode) (cs : List DNode) : List DNode :=
  cs.map (fun n =>
    match n with
    | .elem i t c a ch => if i == bid then .elem i t c a (f ch) else .elem i t c a ch
    | .text str => .text str)

/-- Child list of the element with identity `bid` in a forest (used both
for `button` in the tab compiler and for the top wrapper of a list item). -/
def childListOf (bid : Nat) (cs : List DNode) : List DNode :=
  ((cs.find? (fun n => n.idOf == some bid)).map DNode.childrenOf).getD []

/-- Removal of a node held by reference (`node.remove()`): drop the unique
top-level node with identity `i`. -/
def removeById (i : Nat) (cs : List DNode) : List DNode :=
  cs.filter (fun n => !(n.idOf == some i))

/-- Well-formedness of a forest relative to an id counter: all element ids
are distinct and below the counter (so freshly allocated ids are really
fresh). This is the invariant JavaScript object identity provides. -/
def WfForest (cs : List DNode) (k : Nat) : Prop :=
  (idsForest cs).Nodup ∧ ∀ i ∈ idsForest cs, i < k

/-!
Embedding of `ListItemElement._compile` (src/esm/ons/content-ready.js).

The method reads the `expandable` attribute, normalizes the optional
`div.top` and `div.expandable-content` wrappers when expandable, relocates
stray children into the top wrapper, and then, inside the content root
(`topContent`: the top wrapper when expandable, the element itself
otherwise), normalizes `div.left` / `div.right` / `div.center` and
relocates everything else into the center wrapper.

The trailing `util.updateRipple(this)` call is not part of this model:
`util.js` is not among the sources, and per the specification the ripple
pass only adds or removes an `ons-ripple` child according to the `ripple`
attribute, so for elements whose ripple configuration is untouched it is
the identity.  All theorems below are about the structural normalization
that precedes it.
-/

/-- Shared shape of the four duplicate-wrapper switches in
`ListItemElement._compile` (`div.top`, `div.expandable-content`,
`div.right`, `div.center`): query the direct children matching the role
selector `p`; on zero matches insert the freshly created node `mk` (when
the role creates one in this configuration) before the first child; on one
match adopt it; on two or more matches remove the first and adopt the
second.  Returns the new child list, the canonical node, and whether a
node was created. -/
def dedupFront (p : DNode → Bool) (mk : Option DNode) (cs : List DNode) :
    List DNode × Option DNode × Bool :=
  match cs.filter p with
  | [] =>
      match mk with
      | some m => (m :: cs, some m, true)
      | none => (cs, none, false)
  | [x] => (cs, some x, false)
  | _ :: x :: _ => (cs.eraseP p, some x, false)

structure ListItemState : Type where
  expandable : Bool
  children : List DNode
  nextId : Nat

/-- Result of the left/right/center phase of `ListItemElement._compile`,
together with the canonical wrapper references the method computes
(`left`, `right`, `center` local variables). -/
structure LrcOut : Type where
  children : List DNode
  leftId : Option Nat
  rightId : Option Nat
  centerId : Nat
  nextId : Nat

/-- Combination of a duplicate-wrapper switch and the guarded
`classList.add` that follows it, shared by the `top`, `expandable-content`
and `center` roles (each of which always ends up with a canonical node):
run `dedupFront`, then add the role's `list-item__...` class to the
canonical node.  `kNext` is the value of the fresh-id counter in case a
node was created. -/
def roleStep (p : DNode → Bool) (mk : Option DNode) (tag : String) (kNext : Nat)
    (cs : List DNode) (k : Nat) : List DNode × Nat × Nat :=
  let st := dedupFront p mk cs
  let cid := (st.2.1.bind DNode.idOf).getD 0
  (tagClass cid tag st.1, cid, if st.2.2 then kNext else k)

/-- Embedding of the `div.left` handling of `ListItemElement._compile`:
`querySelector` takes the first match, which receives `list-item__left`. -/
def lrcLeftStep (cs0 : List DNode) : List DNode × Option Nat :=
  match (cs0.find? (isDivClass "left")).bind DNode.idOf with
  | some l => (tagClass l "list-item__left" cs0, some l)
  | none => (cs0, none)

/-- Embedding of the `div.right` handling of `ListItemElement._compile`:
the duplicate switch (creating, only in expandable mode, a fresh
`div.right` holding a chevron span, inserted before the first child),
followed by the guarded `list-item__right` class add. -/
def lrcRightStep (exp : Bool) (cs : List DNode) (k : Nat) : List DNode × Option Nat × Nat :=
  let rightMk : Option DNode :=
    if exp then
      some (DNode.elem (k + 1) "DIV" ["right"] [] [DNode.elem k "SPAN" ["list-item__expand-chevron"] [] []])
    else none
  let st := dedupFront (isDivClass "right") rightMk cs
  let rightId := st.2.1.bind DNode.idOf
  let k1 := if st.2.2 then k + 2 else k
  (match rightId with
   | some r => tagClass r "list-item__right" st.1
   | none => st.1, rightId, k1)

/-- Predicate selecting the children the final relocation of
`ListItemElement._compile` leaves in place: the canonical left, right and
center wrappers (compared by identity) and ONS-RIPPLE elements. -/
def lrcKeep (leftId rightId : Option Nat) (centerId : Nat) : DNode → Bool := fun n =>
  n.idOf == some centerId
    || (match leftId with | some l => n.idOf == some l | none => false)
    || (match rightId with | some r => n.idOf == some r | none => false)
    || n.tagOf == "ONS-RIPPLE"

/-- Embedding of the second half of `ListItemElement._compile`: the
`div.left` / `div.right` / `div.center` normalization and the relocation
of the remaining children into the center wrapper, operating on the child
list of `topContent`.  `exp` is `this.expandable`; `k0` is the fresh-id
counter. -/
def lrc (exp : Bool) (cs0 : List DNode) (k0 : Nat) : LrcOut :=
  let L := lrcLeftStep cs0
  let R := lrcRightStep exp L.1 k0
  let C := roleStep (isDivClass "center") (some (DNode.elem R.2.2 "DIV" ["center"] [] []))
    "list-item__center" (R.2.2 + 1) R.1 R.2.2
  ⟨movePhase (lrcKeep L.2 R.2.1 C.2.1) C.2.1 C.1, L.2, R.2.1, C.2.1, C.2.2⟩

/-- State of an expandable list item after the `div.top` and
`div.expandable-content` switches and the relocation of stray children
into the top wrapper (the first half of `ListItemElement._compile`). -/
structure LiMid : Type where
  children : List DNode
  topId : Nat
  ecId : Nat
  nextId : Nat

/-- Embedding of the first half of `ListItemElement._compile` in
expandable mode: normalize `div.top` (adding `list-item__top`), normalize
`div.expandable-content` (adding `list-item__expandable-content`), then
relocate every child that is not the top wrapper itself, does not carry
the `expandable-content` class, and is not an ONS-RIPPLE element into the
top wrapper. -/
def liPrefix (s : ListItemState) : LiMid :=
  let T := roleStep (isDivClass "top") (some (DNode.elem s.nextId "DIV" ["top"] [] []))
    "list-item__top" (s.nextId + 1) s.children s.nextId
  let E := roleStep (isDivClass "expandable-content")
    (some (DNode.elem T.2.2 "DIV" ["expandable-content"] [] []))
    "list-item__expandable-content" (T.2.2 + 1) T.1 T.2.2
  let keepTop : DNode → Bool := fun n =>
    n.idOf == some T.2.1 || n.hasClass "expandable-content" || n.tagOf == "ONS-RIPPLE"
  ⟨movePhase keepTop T.2.1 E.1, T.2.1, E.2.1, E.2.2⟩

/-- Result of a full `ListItemElement._compile` run, with the canonical
wrapper references the method computes (`this._topElement`,
`this._expandableContentElement`, and the `left` / `right` / `center`
locals of the final phase). -/
structure LiOut : Type where
  children : List DNode
  topId : Option Nat
  ecId : Option Nat
  leftId : Option Nat
  rightId : Option Nat
  centerId : Nat
  nextId : Nat

/-- Embedding of `ListItemElement._compile` (minus the trailing
`util.updateRipple`, see the module comment above). -/
def listItemCompileFull (s : ListItemState) : LiOut :=
  if s.expandable then
    let m := liPrefix s
    -- topContent = top: run the left/right/center phase on its children
    let out := lrc true (childListOf m.topId m.children) m.nextId
    ⟨mapChildListOf m.topId (fun _ => out.children) m.children,
      some m.topId, some m.ecId, out.leftId, out.rightId, out.centerId, out.nextId⟩
  else
    let out := lrc false s.children s.nextId
    ⟨out.children, none, none, out.leftId, out.rightId, out.centerId, out.nextId⟩

/-- State-to-state view of `ListItemElement._compile`. -/
def listItemCompile (s : ListItemState) : ListItemState :=
  ⟨s.expandable, (listItemCompileFull s).children, (listItemCompileFull s).nextId⟩

/-!
Embedding of `TabElement._compile` (src/esm/elements/ons-tab.js).

The method normalizes, in order: the `.tabbar__button` wrapper (a
user-added button wins over the automatically added one, which is then
removed), the radio `input` (first one wins, later ones are removed), a
relocation of all remaining children into the button, and then the
`.tabbar__icon` / `.tabbar__label` / `.tabbar__badge` / `ons-ripple`
sections inside the button.

Attribute writes performed by the rehydration branches (`this.icon = ...`,
`this.label = ...`, `this.badge = ...`, `this.ripple = true`) go through
the property setters, so in the browser they synchronously fire
`attributeChangedCallback`, which sets the corresponding `touched` flag and
re-enters `_compile`.  The re-entrant run only repeats the later sections
on their own output (all its branch conditions are then stable), so the net
effect on the state is the attribute update together with the touched-flag
update; that net effect is what the model records.
-/

structure TabState : Type where
  children : List DNode
  icon : Option String
  activeIcon : Option String
  label : Option String
  badge : Option String
  ripple : Bool
  iconTouched : Bool
  labelTouched : Bool
  badgeTouched : Bool
  rippleTouched : Bool
  autoButton : Option Nat
  nextId : Nat

/-- Truthiness of a JavaScript attribute read: `getAttribute` yields `null`
for an absent attribute, and both `null` and the empty string are falsy. -/
def truthy : Option String → Bool
  | none => false
  | some s => !(s == "")

/-- Removal of a batch of nodes held by reference (the
`furtherXs.forEach(node => node.remove())` calls). -/
def removeIds (ids : List Nat) (cs : List DNode) : List DNode :=
  cs.filter (fun n =>
    match n.idOf with
    | some i => !ids.contains i
    | none => true)

/-- Result of the BUTTON section of `TabElement._compile`. -/
structure TabButtonOut : Type where
  children : List DNode
  buttonId : Nat
  autoButton : Option Nat
  nextId : Nat

/-- Embedding of the BUTTON section: a user-added `.tabbar__button` child
wins (and the automatically added button, if any, is removed); otherwise
the automatically added button is reused; otherwise a fresh button is
appended and recorded in `_automaticallyAddedButton`. -/
def tabButtonPhase (s : TabState) : TabButtonOut :=
  let allButtons := s.children.filter (DNode.hasClass "tabbar__button")
  match allButtons.find? (fun n => !(n.idOf == s.autoButton)) with
  | some b =>
      match s.autoButton with
      | some a => ⟨removeById a s.children, b.idOf.getD 0, none, s.nextId⟩
      | none => ⟨s.children, b.idOf.getD 0, none, s.nextId⟩
  | none =>
      match s.autoButton with
      | some a => ⟨s.children, a, some a, s.nextId⟩
      | none =>
          let button := DNode.elem s.nextId "BUTTON" ["tabbar__button"] [] []
          ⟨s.children ++ [button], s.nextId, some s.nextId, s.nextId + 1⟩

/-- Result of the INPUT section of `TabElement._compile`. -/
structure TabInputOut : Type where
  children : List DNode
  inputId : Nat
  nextId : Nat

/-- Embedding of the INPUT section: the first direct `input` child is
adopted (a fresh hidden radio input is appended when there is none) and
all later input duplicates are removed. -/
def tabInputPhase (cs : List DNode) (k : Nat) : TabInputOut :=
  let inputs := cs.filter (fun n => n.tagOf == "INPUT")
  match inputs.head? with
  | none =>
      let inp := DNode.elem k "INPUT" [] [("type", "radio")] []
      ⟨cs ++ [inp], k, k + 1⟩
  | some i0 =>
      ⟨removeIds ((inputs.drop 1).filterMap DNode.idOf) cs, i0.idOf.getD 0, k⟩

/-- State of a tab after the BUTTON and INPUT sections and the relocation
of all other children into the button. -/
structure TabMid : Type where
  children : List DNode
  buttonId : Nat
  inputId : Nat
  autoButton : Option Nat
  nextId : Nat

/-- Embedding of the first half of `TabElement._compile`: BUTTON section,
INPUT section, and the relocation of every other child into the button. -/
def tabPrefix (s : TabState) : TabMid :=
  let p1 := tabButtonPhase s
  let p2 := tabInputPhase p1.children p1.nextId
  let keep : DNode → Bool := fun n => n.idOf == some p1.buttonId || n.idOf == some p2.inputId
  ⟨movePhase keep p1.buttonId p2.children, p1.buttonId, p2.inputId, p1.autoButton, p2.nextId⟩

/-- Result of the ICON / LABEL / BADGE sections (children, possibly
rehydrated attribute, touched flag, fresh-id counter). -/
structure TabSecOut : Type where
  children : List DNode
  attr : Option String
  touched : Bool
  nextId : Nat

/-- Value assigned by the icon rehydration
`this.icon = iconWrapper.querySelector(':scope > ons-icon')?.icon`:
the `icon` attribute of the wrapper's direct `ons-icon` child, with the
JavaScript coercions `undefined` (no such child) and `null` (child without
the attribute) applied by `setAttribute`. -/
def rehydratedIcon (w : DNode) : String :=
  match w.childrenOf.find? (fun c => c.tagOf == "ONS-ICON") with
  | none => "undefined"
  | some ic => (ic.getAttr "icon").getD "null"

/-- Embedding of the ICON section of `TabElement._compile`. -/
def tabIconPhase (cs : List DNode) (bid : Nat) (icon activeIcon : Option String)
    (touched : Bool) (k : Nat) : TabSecOut :=
  let iconWs := (childListOf bid cs).filter (DNode.hasClass "tabbar__icon")
  let step : List DNode × Option String × Bool × Nat :=
    match iconWs.head? with
    | none =>
        if truthy icon || truthy activeIcon then
          let wrapper := DNode.elem k "DIV" ["tabbar__icon"] [] [DNode.elem (k + 1) "ONS-ICON" [] [] []]
          (mapChildListOf bid (fun ch => ch ++ [wrapper]) cs, icon, touched, k + 2)
        else
          (cs, icon, touched, k)
    | some w =>
        if truthy icon || truthy activeIcon then
          (cs, icon, touched, k)
        else if touched then
          (mapChildListOf bid (removeById (w.idOf.getD 0)) cs, icon, touched, k)
        else
          (cs, some (rehydratedIcon w), true, k)
  ⟨mapChildListOf bid (removeIds ((iconWs.drop 1).filterMap DNode.idOf)) step.1,
    step.2.1, step.2.2.1, step.2.2.2⟩

/-- Embedding of the LABEL section of `TabElement._compile`. -/
def tabLabelPhase (cs : List DNode) (bid : Nat) (label : Option String)
    (touched : Bool) (k : Nat) : TabSecOut :=
  let labels := (childListOf bid cs).filter (DNode.hasClass "tabbar__label")
  let step : List DNode × Option String × Bool × Nat :=
    match labels.head? with
    | none =>
        if truthy label then
          (mapChildListOf bid (fun ch => ch ++ [DNode.elem k "DIV" ["tabbar__label"] [] []]) cs,
            label, touched, k + 1)
        else
          (cs, label, touched, k)
    | some l =>
        if truthy label then
          (cs, label, touched, k)
        else if touched then
          (mapChildListOf bid (removeById (l.idOf.getD 0)) cs, label, touched, k)
        else
          (cs, some l.textContent, true, k)
  ⟨mapChildListOf bid (removeIds ((labels.drop 1).filterMap DNode.idOf)) step.1,
    step.2.1, step.2.2.1, step.2.2.2⟩

/-- Embedding of the BADGE section of `TabElement._compile`. -/
def tabBadgePhase (cs : List DNode) (bid : Nat) (badge : Option String)
    (touched : Bool) (k : Nat) : TabSecOut :=
  let badges := (childListOf bid cs).filter (DNode.hasClass "tabbar__badge")
  let step : List DNode × Option String × Bool × Nat :=
    match badges.head? with
    | none =>
        if truthy badge then
          (mapChildListOf bid (fun ch => ch ++ [DNode.elem k "DIV" ["tabbar__badge", "notification"] [] []]) cs,
            badge, touched, k + 1)
        else
          (cs, badge, touched, k)
    | some b =>
        if truthy badge then
          (cs, badge, touched, k)
        else if touched then
          (mapChildListOf bid (removeById (b.idOf.getD 0)) cs, badge, touched, k)
        else
          (cs, some b.textContent, true, k)
  ⟨mapChildListOf bid (removeIds ((badges.drop 1).filterMap DNode.idOf)) step.1,
    step.2.1, step.2.2.1, step.2.2.2⟩

/-- Result of the RIPPLE section (children, ripple flag, touched flag,
fresh-id counter). -/
structure TabRippleOut : Type where
  children : List DNode
  ripple : Bool
  touched : Bool
  nextId : Nat

/-- Embedding of the RIPPLE section of `TabElement._compile`. -/
def tabRipplePhase (cs : List DNode) (bid : Nat) (ripple : Bool)
    (touched : Bool) (k : Nat) : TabRippleOut :=
  let ripples := (childListOf bid cs).filter (fun n => n.tagOf == "ONS-RIPPLE")
  let step : List DNode × Bool × Bool × Nat :=
    match ripples.head? with
    | none =>
        if ripple then
          (mapChildListOf bid (fun ch => DNode.elem k "ONS-RIPPLE" [] [] [] :: ch) cs, ripple, touched, k + 1)
        else
          (cs, ripple, touched, k)
    | some r =>
        if ripple then
          (cs, ripple, touched, k)
        else if touched then
          (mapChildListOf bid (removeById (r.idOf.getD 0)) cs, ripple, touched, k)
        else
          (cs, true, true, k)
  ⟨mapChildListOf bid (removeIds ((ripples.drop 1).filterMap DNode.idOf)) step.1,
    step.2.1, step.2.2.1, step.2.2.2⟩

/-- Embedding of a full `TabElement._compile` run (see the module comment
for the treatment of the re-entrant rehydration writes). -/
def tabCompile (s : TabState) : TabState :=
  let m := tabPrefix s
  let si := tabIconPhase m.children m.buttonId s.icon s.activeIcon s.iconTouched m.nextId
  let sl := tabLabelPhase si.children m.buttonId s.label s.labelTouched si.nextId
  let sb := tabBadgePhase sl.children m.buttonId s.badge s.badgeTouched sl.nextId
  let sr := tabRipplePhase sb.children m.buttonId s.ripple s.rippleTouched sb.nextId
  ⟨sr.children, si.attr, s.activeIcon, sl.attr, sb.attr, sr.ripple,
    si.touched, sl.touched, sb.touched, sr.touched, m.autoButton, sr.nextId⟩

/-!
Embedding of the contentReady coordinator (src/esm/ons/content-ready.js,
`queueMap` / `readyMap` / `consumeQueue` / `setContentReady` /
`contentReady`).

Per element the state is the pending callback queue and the ready mark.
`register fn` is a `contentReady(element, fn)` call: the callback is pushed
and, if the element is already marked ready, the queue is consumed at once.
`fire` is `setContentReady(element)` (reached through the `setImmediate`
fallback or the `readystatechange` listener; it can run several times, once
per registration that scheduled it): it marks the element ready and
consumes the queue.  Callbacks are identified by numbers; the `ran` trace
records every executed callback in execution order.
-/

inductive CREvent : Type where
  | register (fn : Nat) : CREvent
  | fire : CREvent

structure CRState : Type where
  queue : List Nat
  ready : Bool
  ran : List Nat

/-- Initial per-element state: no queue entry in `queueMap`, no mark in
`readyMap`, nothing run. -/
def crInit : CRState := ⟨[], false, []⟩

/-- One event of the coordinator (see the module comment). -/
def crStep (s : CRState) : CREvent → CRState
  | .register fn =>
      if s.ready then
        ⟨[], s.ready, s.ran ++ (s.queue ++ [fn])⟩
      else
        ⟨s.queue ++ [fn], s.ready, s.ran⟩
  | .fire => ⟨[], true, s.ran ++ s.queue⟩

/-- Run a sequence of coordinator events from the initial state. -/
def crRun (events : List CREvent) : CRState :=
  events.foldl crStep crInit

/-- Callbacks registered by a sequence of events, in registration order. -/
def crRegs : List CREvent → List Nat
  | [] => []
  | .register fn :: es => fn :: crRegs es
  | .fire :: es => crRegs es

/-!
Model of `ModifierUtil.onModifierChanged`, used by
`ListItemElement.attributeChangedCallback` for the `modifier` attribute.

Modelled from the spec: `ons/internal/modifier-util.js` is not among the
sources; section 4.4 of the specification defines the operation as the
symmetric difference of the tokenized old/new modifier strings, removing
the derived class of every token only in the old value and adding the
derived class of every token only in the new value, where a scheme entry
maps a token to a class through a template with one substitution point
(here the list item's own entry `list-item--*`).  Class mutations go
through `classList`, so an add of a class already present is a no-op and a
remove drops every occurrence.
-/

/-- Splitting of a character stream into space-separated tokens, dropping
empty fragments; `acc` holds the characters of the current token in
reverse. -/
def tokenizeChars : List Char → List Char → List String
  | [], acc => if acc.isEmpty then [] else [String.mk acc.reverse]
  | c :: rest, acc =>
      if c = ' ' then
        (if acc.isEmpty then [] else [String.mk acc.reverse]) ++ tokenizeChars rest []
      else tokenizeChars rest (c :: acc)

/-- Tokenization of a modifier attribute value: split on spaces and drop
empty fragments (the repository test uses a leading space: " foo bar"). -/
def tokensOf (v : Option String) : List String :=
  tokenizeChars (v.getD "").toList []

/-- Derived class of a modifier token under a scheme template with one
substitution point, given as the template text before and after the
substitution point (the list item root entry is `list-item--` / empty). -/
def derivedClass (pre post token : String) : String :=
  pre ++ token ++ post

/-- Semantics of `classList.add` on a class string list. -/
def addClassStr (c : String) (classes : List String) : List String :=
  if classes.contains c then classes else classes ++ [c]

/-- Semantics of `classList.remove` on a class string list. -/
def removeClassStr (c : String) (classes : List String) : List String :=
  classes.filter (fun x => !(x == c))

/-- Modelled from the spec: `ModifierUtil.onModifierChanged(last, current,
element, scheme)` restricted to one scheme entry with template
`pre`/`post` applying to the element itself. -/
def onModifierChanged (pre post : String) (last current : Option String) (classes : List String) : List String :=
  let oldTokens := tokensOf last
  let newTokens := tokensOf current
  let removed := oldTokens.filter (fun t => !(newTokens.contains t))
  let added := newTokens.filter (fun t => !(oldTokens.contains t))
  let afterRemove := removed.foldl (fun cls t => removeClassStr (derivedClass pre post t) cls) classes
  added.foldl (fun cls t => addClassStr (derivedClass pre post t) cls) afterRemove

/-!
Embedding of `ListItemElement._animateExpansion`
(src/esm/ons/content-ready.js).  The observable effects are the
re-entrancy flag `this._expanding`, the `expansion` event dispatch, the
animator invocation, and the completion callback that clears the flag and
synchronizes the `list-item--expanded` class.
-/

structure ExpansionState : Type where
  expandable : Bool
  expanded : Bool
  classes : List String
  expanding : Bool
  expansionEvents : Nat
  animatorRuns : Nat

/-- Embedding of `_animateExpansion` up to the point where the animator is
started: the guard returns early when the item is not expandable, when an
animation is in flight, or when the item starts out already expanded with
its class in place; otherwise the flag is set, the `expansion` event is
dispatched and the animator is invoked. -/
def animateExpansion (s : ExpansionState) : ExpansionState :=
  let expandedAtStartup := s.expanded && s.classes.contains "list-item--expanded"
  if !s.expandable || s.expanding || expandedAtStartup then s
  else
    { s with
        expanding := true,
        expansionEvents := s.expansionEvents + 1,
        animatorRuns := s.animatorRuns + 1 }

/-- Embedding of the completion callback passed to the animator: clear the
flag and synchronize the `list-item--expanded` class with `expanded`. -/
def expansionComplete (s : ExpansionState) : ExpansionState :=
  { s with
      expanding := false,
      classes :=
        if s.expanded then addClassStr "list-item--expanded" s.classes
        else removeClassStr "list-item--expanded" s.classes }

/-!
Embedding of the `connectedCallback` guards (C10): every component keeps a
`_connectedOnce` boolean, set in the constructor, and runs its
first-connection work only on the first transition.  The counters record
how many times each piece of first-connection work has run; the work that
runs on every connection (listener setup for the list item, click setup for
the tab, property upgrade only happens guarded for the tabbar) is counted
separately.
-/

structure LifecycleState : Type where
  connectedOnce : Bool
  defaultClassRuns : Nat
  compileRuns : Nat
  autoStyleRuns : Nat
  upgradeRuns : Nat
  everyTimeRuns : Nat

/-- Fresh instance right after the constructor ran. -/
def lcInit : LifecycleState := ⟨false, 0, 0, 0, 0, 0⟩

/-- Embedding of `ListItemElement.connectedCallback`: guarded default
class, auto-styling and compilation; listener setup on every call. -/
def listItemConnected (s : LifecycleState) : LifecycleState :=
  let s1 :=
    if s.connectedOnce then s
    else
      { s with
          connectedOnce := true,
          defaultClassRuns := s.defaultClassRuns + 1,
          autoStyleRuns := s.autoStyleRuns + 1,
          compileRuns := s.compileRuns + 1 }
  { s1 with everyTimeRuns := s1.everyTimeRuns + 1 }

/-- Embedding of `TabElement.connectedCallback`: guarded default class,
compilation and auto-styling; click setup on every call. -/
def tabConnected (s : LifecycleState) : LifecycleState :=
  let s1 :=
    if s.connectedOnce then s
    else
      { s with
          connectedOnce := true,
          defaultClassRuns := s.defaultClassRuns + 1,
          compileRuns := s.compileRuns + 1,
          autoStyleRuns := s.autoStyleRuns + 1 }
  { s1 with everyTimeRuns := s1.everyTimeRuns + 1 }

/-- Embedding of `ListTitleElement.connectedCallback`: guarded default
class and auto-styling only. -/
def listTitleConnected (s : LifecycleState) : LifecycleState :=
  if s.connectedOnce then s
  else
    { s with
        connectedOnce := true,
        defaultClassRuns := s.defaultClassRuns + 1,
        autoStyleRuns := s.autoStyleRuns + 1 }

/-- Embedding of `ListHeaderElement.connectedCallback`: guarded default
class and auto-styling only. -/
def listHeaderConnected (s : LifecycleState) : LifecycleState :=
  if s.connectedOnce then s
  else
    { s with
        connectedOnce := true,
        defaultClassRuns := s.defaultClassRuns + 1,
        autoStyleRuns := s.autoStyleRuns + 1 }

/-- Embedding of `TabbarElement.connectedCallback`: guarded property
upgrade only. -/
def tabbarConnected (s : LifecycleState) : LifecycleState :=
  if s.connectedOnce then s
  else { s with connectedOnce := true, upgradeRuns := s.upgradeRuns + 1 }

/-!
Model for C9 (`setActiveTab` on ons-tabbar).  In the live `TabbarElement`
class body (src/esm/ons/content-ready.js) the whole public tab-switching
API, `setActiveTab` included, is commented out below the JUNK marker: the
members below are the only ones the class defines, so a `setActiveTab`
call on a tabbar instance throws a synchronous TypeError.  The
commented-out implementation (which the specification describes) is also
embedded, to record what the documented behaviour is at the failing input.
-/

/-- Member names defined by the live `TabbarElement` class body. -/
def tabbarClassMembers : List String :=
  ["constructor", "connectedCallback", "disconnectedCallback", "_onSlotChange",
   "observedAttributes", "attributeChangedCallback", "activeIndex",
   "_createShadow", "_upgradeProperties", "_onActive"]

/-- Synchronous outcome of a `setActiveTab` call in the commented-out
implementation: a rejected promise, a `reactive` event on the already
active tab, or the start of the asynchronous switch. -/
inductive SetActiveTabOutcome : Type where
  | rejected (msg : String) : SetActiveTabOutcome
  | reactive : SetActiveTabOutcome
  | proceed (nextIndex : Nat) : SetActiveTabOutcome
deriving DecidableEq

/-- Embedding of the commented-out `getActiveTabIndex`: index of the first
active tab, `-1` when none is active.  `tabs` lists the `isActive()` flag
of each `ons-tab` child. -/
def getActiveTabIndex (tabs : List Bool) : Int :=
  match tabs.findIdx? (fun a => a) with
  | some i => (i : Int)
  | none => -1

/-- Embedding of the synchronous prefix of the commented-out
`setActiveTab`: reject when the index matches no tab, emit `reactive` when
it is the current index, otherwise proceed asynchronously. -/
def setActiveTabSync (tabs : List Bool) (nextIndex : Nat) : SetActiveTabOutcome :=
  match tabs.get? nextIndex with
  | none => .rejected "Specified index does not match any tab."
  | some _ =>
      if (nextIndex : Int) = getActiveTabIndex tabs then .reactive
      else .proceed nextIndex

/-- The predicate selecting the children the expandable-mode relocation of
`ListItemElement._compile` leaves at the top level of the item: the
canonical top wrapper (compared by identity), nodes carrying the
`expandable-content` class, and ONS-RIPPLE elements.  This is the
`keepTop` filter of `liPrefix`, named so theorems can refer to it. -/
def liKeepTop (tid : Nat) : DNode → Bool := fun n =>
  n.idOf == some tid || n.hasClass "expandable-content" || n.tagOf == "ONS-RIPPLE"

/-- Relation between the element ids of a forest before and after a
mutation step that only creates fresh nodes and relocates existing ones:
the ids afterwards are a permutation of some list of fresh ids (allocated
in `[kIn, kOut)`) together with all the ids from before.  This packages
exactly what the non-destructive compilation phases guarantee: nothing is
lost, additions are fresh. -/
def FreshExtension (idsIn idsOut : List Nat) (kIn kOut : Nat) : Prop :=
  ∃ fresh : List Nat, fresh.Nodup ∧ (∀ i ∈ fresh, kIn ≤ i ∧ i < kOut) ∧
    idsOut.Perm (fresh ++ idsIn) ∧ kIn ≤ kOut

/-- Plain user content of an `ons-tab`: a child that claims none of the
roles the compiler normalizes — it is not a `.tabbar__button`, not an
`input`, not an icon / label / badge wrapper and not an `ons-ripple`.
Everything an author usually puts in a tab before first compilation
(text, ons-icon elements, spans, ...) satisfies this. -/
def plainTabChild (n : DNode) : Bool :=
  !(n.hasClass "tabbar__button") && !(n.tagOf == "INPUT")
    && !(n.hasClass "tabbar__icon") && !(n.hasClass "tabbar__label")
    && !(n.hasClass "tabbar__badge") && !(n.tagOf == "ONS-RIPPLE")

/-!
Theorems.  Each claim of the specification is settled by exactly one named
theorem (plus, where needed, a counterexample to the claim as frozen and a
witness instantiating the hypotheses of a proved theorem).
-/

theorem crRegs_append (a b : List CREvent) : crRegs (a ++ b) = crRegs a ++ crRegs b := by
  induction a with
  | nil => rfl
  | cons e es ih => cases e <;> simp [crRegs, ih]

theorem crFold_trace (events : List CREvent) (s : CRState) :
    (events.foldl crStep s).ran ++ (events.foldl crStep s).queue
      = (s.ran ++ s.queue) ++ crRegs events := by
  induction events generalizing s with
  | nil => simp [crRegs]
  | cons e es ih =>
      cases e with
      | register fn =>
          by_cases h : s.ready
          · simp [List.foldl_cons, crStep, h, ih, crRegs, List.append_assoc]
          · simp [List.foldl_cons, crStep, h, ih, crRegs, List.append_assoc]
      | fire => simp [List.foldl_cons, crStep, ih, crRegs, List.append_assoc]

theorem crFold_ready (events : List CREvent) (s : CRState) (h : s.ready = true)
    (hq : s.queue = []) :
    events.foldl crStep s = ⟨[], true, s.ran ++ crRegs events⟩ := by
  induction events generalizing s with
  | nil => cases s; simp_all [crRegs]
  | cons e es ih =>
      cases e with
      | register fn =>
          rw [List.foldl_cons, crStep]
          simp only [h, if_true, hq]
          rw [ih _ rfl rfl]
          simp [crRegs]
      | fire =>
          rw [List.foldl_cons, crStep]
          rw [ih _ rfl rfl]
          simp [crRegs, hq]

theorem crRun_after_fire (pre post : List CREvent) :
    crRun (pre ++ CREvent.fire :: post) = ⟨[], true, crRegs pre ++ crRegs post⟩ := by
  have htr : (crRun pre).ran ++ (crRun pre).queue = crRegs pre := by
    have h := crFold_trace pre crInit
    simpa [crInit] using h
  have hstep : crStep (crRun pre) CREvent.fire
      = ⟨[], true, (crRun pre).ran ++ (crRun pre).queue⟩ := rfl
  have hsplit : crRun (pre ++ CREvent.fire :: post)
      = post.foldl crStep (crStep (crRun pre) CREvent.fire) := by
    simp [crRun, List.foldl_append]
  rw [hsplit, hstep, htr, crFold_ready _ _ rfl rfl]

/-- C4: every callback registered through contentReady before the ready
transition runs exactly once and in registration order when the transition
fires; a callback registered after the element is marked ready runs
immediately and exactly once. -/
theorem c4_ready_callbacks (pre post : List CREvent) (f : Nat) :
    (crRun (pre ++ CREvent.fire :: post)).ran = crRegs pre ++ crRegs post ∧
    (crRun ((pre ++ CREvent.fire :: post) ++ [CREvent.register f])).ran
      = (crRun (pre ++ CREvent.fire :: post)).ran ++ [f] ∧
    ∀ g : Nat, (crRun (pre ++ CREvent.fire :: post)).ran.count g
      = (crRegs (pre ++ post)).count g := by
  have h1 : crRun ((pre ++ CREvent.fire :: post) ++ [CREvent.register f])
      = [CREvent.register f].foldl crStep (crRun (pre ++ CREvent.fire :: post)) := by
    simp [crRun, List.foldl_append]
  have h2 : (crRun (pre ++ CREvent.fire :: post)).ran = crRegs pre ++ crRegs post := by
    rw [crRun_after_fire]
  have h3 : (crRun ((pre ++ CREvent.fire :: post) ++ [CREvent.register f])).ran
      = (crRun (pre ++ CREvent.fire :: post)).ran ++ [f] := by
    rw [h1, crRun_after_fire]
    simp [crStep, crRun_after_fire]
  refine ⟨h2, h3, fun g => ?_⟩
  rw [h2, crRegs_append]

theorem mem_removeClassStr (c x : String) (cls : List String) :
    x ∈ removeClassStr c cls ↔ x ∈ cls ∧ x ≠ c := by
  simp [removeClassStr]

theorem mem_addClassStr (c x : String) (cls : List String) :
    x ∈ addClassStr c cls ↔ x ∈ cls ∨ x = c := by
  unfold addClassStr
  by_cases h : cls.contains c
  · have hc : c ∈ cls := by simpa using h
    simp only [h, if_true]
    constructor
    · exact fun hx => Or.inl hx
    · rintro (hx | rfl)
      · exact hx
      · exact hc
  · simp only [h, if_false]
    simp [List.mem_append, or_comm]

theorem mem_removeFold (ts : List String) (f : String → String) (cls : List String) (x : String) :
    x ∈ ts.foldl (fun c t => removeClassStr (f t) c) cls ↔ x ∈ cls ∧ ∀ t ∈ ts, f t ≠ x := by
  induction ts generalizing cls with
  | nil => simp
  | cons t ts ih =>
      rw [List.foldl_cons, ih]
      rw [mem_removeClassStr]
      constructor
      · rintro ⟨⟨hx, hne⟩, hall⟩
        refine ⟨hx, ?_⟩
        intro u hu
        rcases List.mem_cons.mp hu with hu | hu
        · simp only [hu]; exact fun h => hne h.symm
        · exact hall u hu
      · rintro ⟨hx, hall⟩
        refine ⟨⟨hx, fun h => hall t (by simp) h.symm⟩, ?_⟩
        exact fun u hu => hall u (by simp [hu])

theorem mem_addFold (ts : List String) (f : String → String) (cls : List String) (x : String) :
    x ∈ ts.foldl (fun c t => addClassStr (f t) c) cls ↔ x ∈ cls ∨ ∃ t ∈ ts, f t = x := by
  induction ts generalizing cls with
  | nil => simp
  | cons t ts ih =>
      rw [List.foldl_cons, ih, mem_addClassStr]
      constructor
      · rintro (⟨hx | hx⟩ | ⟨u, hu, hux⟩)
        · exact Or.inl hx
        · exact Or.inr ⟨t, by simp, hx.symm⟩
        · exact Or.inr ⟨u, by simp [hu], hux⟩
      · rintro (hx | ⟨u, hu, hux⟩)
        · exact Or.inl (Or.inl hx)
        · rcases List.mem_cons.mp hu with hu | hu
          · exact Or.inl (Or.inr (by simp [hu, hux.symm]))
          · exact Or.inr ⟨u, hu, hux⟩

/-- C5: onModifierChanged removes exactly the derived classes of tokens
only in the old modifier value, adds exactly the derived classes of tokens
only in the new value, and leaves everything else (derived classes of
common tokens, unrelated classes) untouched; changing "a b" to "b c" under
the list item scheme removes list-item--a, adds list-item--c, and leaves
list-item--b alone. -/
theorem c5_modifier_diffing :
    (∀ (pre post : String) (last current : Option String) (classes : List String) (x : String),
      x ∈ onModifierChanged pre post last current classes ↔
        (x ∈ classes ∧ ∀ t ∈ tokensOf last, t ∉ tokensOf current → derivedClass pre post t ≠ x)
        ∨ ∃ t ∈ tokensOf current, t ∉ tokensOf last ∧ derivedClass pre post t = x) ∧
    ∀ classes : List String,
      onModifierChanged "list-item--" "" (some "a b") (some "b c") classes
        = addClassStr "list-item--c" (removeClassStr "list-item--a" classes) := by
  constructor
  · intro pre post last current classes x
    unfold onModifierChanged
    rw [mem_addFold, mem_removeFold]
    simp only [List.mem_filter]
    constructor
    · rintro (⟨hx, hall⟩ | ⟨t, ⟨ht, hnt⟩, hd⟩)
      · exact Or.inl ⟨hx, fun t ht hnt => hall t ⟨ht, by simpa using hnt⟩⟩
      · exact Or.inr ⟨t, ht, by simpa using hnt, hd⟩
    · rintro (⟨hx, hall⟩ | ⟨t, ht, hnt, hd⟩)
      · exact Or.inl ⟨hx, fun t htf => hall t htf.1 (by simpa using htf.2)⟩
      · exact Or.inr ⟨t, ⟨ht, by simpa using hnt⟩, hd⟩
  · intro classes
    rfl

/-- C8: the `_expanding` guard makes the expansion animator run at most
once concurrently (a call while an animation is in flight is a no-op), and
an element constructed already in its target expanded state (expanded set
with the `list-item--expanded` class in place) triggers neither an
animation nor an `expansion` event. -/
theorem c8_expansion_guard (s : ExpansionState) :
    (s.expanding = true → animateExpansion s = s) ∧
    (s.expanded = true → s.classes.contains "list-item--expanded" = true → animateExpansion s = s) ∧
    ((animateExpansion s).animatorRuns ≠ s.animatorRuns →
      s.expanding = false ∧ (animateExpansion s).expanding = true ∧
      (animateExpansion s).expansionEvents = s.expansionEvents + 1 ∧
      (animateExpansion s).animatorRuns = s.animatorRuns + 1) := by
  refine ⟨fun h => ?_, fun h1 h2 => ?_, fun h => ?_⟩
  · simp [animateExpansion, h]
  · have hmem : "list-item--expanded" ∈ s.classes := by simpa using h2
    simp [animateExpansion, h1, hmem]
  · cases hA : s.expandable <;> cases hB : s.expanding <;>
      cases hC : s.expanded <;> cases hD : s.classes.contains "list-item--expanded" <;>
      simp_all [animateExpansion]

/-- C8 witness: the guard theorem applied at concrete states: an
in-flight state is left untouched, a matching-startup state is left
untouched, and a run that does start the animator starts from a
non-in-flight state. -/
theorem c8_expansion_guard_witness :
    (animateExpansion ⟨true, true, [], true, 0, 0⟩ = ⟨true, true, [], true, 0, 0⟩) ∧
    (animateExpansion ⟨true, true, ["list-item--expanded"], false, 0, 0⟩
      = ⟨true, true, ["list-item--expanded"], false, 0, 0⟩) ∧
    ((⟨true, true, [], false, 0, 0⟩ : ExpansionState).expanding = false ∧
      (animateExpansion ⟨true, true, [], false, 0, 0⟩).expanding = true ∧
      (animateExpansion ⟨true, true, [], false, 0, 0⟩).expansionEvents = 0 + 1 ∧
      (animateExpansion ⟨true, true, [], false, 0, 0⟩).animatorRuns = 0 + 1) :=
  ⟨(c8_expansion_guard ⟨true, true, [], true, 0, 0⟩).1 rfl,
   (c8_expansion_guard ⟨true, true, ["list-item--expanded"], false, 0, 0⟩).2.1 rfl (by decide),
   (c8_expansion_guard ⟨true, true, [], false, 0, 0⟩).2.2 (by decide)⟩

/-- C9: the live `TabbarElement` class defines no `setActiveTab` member
(the whole tab-switching API is commented out), so the call of the claim
throws a synchronous TypeError; the commented-out implementation the
specification describes does reject an index matching no tab with the
documented message and without throwing. -/
theorem c9_setactivetab_rejection (tabs : List Bool) (i : Nat) (h : tabs.length ≤ i) :
    tabbarClassMembers.contains "setActiveTab" = false ∧
    setActiveTabSync tabs i = SetActiveTabOutcome.rejected "Specified index does not match any tab." := by
  constructor
  · decide
  · unfold setActiveTabSync
    have : tabs.get? i = none := List.get?_eq_none.mpr h
    rw [this]

/-- C9 witness: the rejection theorem applied to a tabbar with two tabs
and the out-of-range index 5. -/
theorem c9_setactivetab_rejection_witness :
    [false, true].length ≤ 5 ∧
    setActiveTabSync [false, true] 5
      = SetActiveTabOutcome.rejected "Specified index does not match any tab." :=
  ⟨by decide, (c9_setactivetab_rejection [false, true] 5 (by decide)).2⟩

theorem lifecycle_stable (f : LifecycleState → LifecycleState)
    (hf : ∀ s, s.connectedOnce = true →
      (f s).connectedOnce = true ∧ (f s).defaultClassRuns = s.defaultClassRuns ∧
      (f s).compileRuns = s.compileRuns ∧ (f s).autoStyleRuns = s.autoStyleRuns ∧
      (f s).upgradeRuns = s.upgradeRuns) :
    ∀ (n : Nat) (s : LifecycleState), s.connectedOnce = true →
      (f^[n] s).defaultClassRuns = s.defaultClassRuns ∧
      (f^[n] s).compileRuns = s.compileRuns ∧
      (f^[n] s).autoStyleRuns = s.autoStyleRuns ∧
      (f^[n] s).upgradeRuns = s.upgradeRuns := by
  intro n
  induction n with
  | zero => intro s _; simp
  | succ n ih =>
      intro s hs
      rw [Function.iterate_succ_apply]
      obtain ⟨h1, h2, h3, h4, h5⟩ := hf s hs
      obtain ⟨g1, g2, g3, g4⟩ := ih (f s) h1
      exact ⟨by rw [g1, h2], by rw [g2, h3], by rw [g3, h4], by rw [g4, h5]⟩

theorem listItemConnected_stable (s : LifecycleState) (hs : s.connectedOnce = true) :
    (listItemConnected s).connectedOnce = true ∧
    (listItemConnected s).defaultClassRuns = s.defaultClassRuns ∧
    (listItemConnected s).compileRuns = s.compileRuns ∧
    (listItemConnected s).autoStyleRuns = s.autoStyleRuns ∧
    (listItemConnected s).upgradeRuns = s.upgradeRuns := by
  simp [listItemConnected, hs]

theorem tabConnected_stable (s : LifecycleState) (hs : s.connectedOnce = true) :
    (tabConnected s).connectedOnce = true ∧
    (tabConnected s).defaultClassRuns = s.defaultClassRuns ∧
    (tabConnected s).compileRuns = s.compileRuns ∧
    (tabConnected s).autoStyleRuns = s.autoStyleRuns ∧
    (tabConnected s).upgradeRuns = s.upgradeRuns := by
  simp [tabConnected, hs]

theorem listTitleConnected_stable (s : LifecycleState) (hs : s.connectedOnce = true) :
    (listTitleConnected s).connectedOnce = true ∧
    (listTitleConnected s).defaultClassRuns = s.defaultClassRuns ∧
    (listTitleConnected s).compileRuns = s.compileRuns ∧
    (listTitleConnected s).autoStyleRuns = s.autoStyleRuns ∧
    (listTitleConnected s).upgradeRuns = s.upgradeRuns := by
  simp [listTitleConnected, hs]

theorem listHeaderConnected_stable (s : LifecycleState) (hs : s.connectedOnce = true) :
    (listHeaderConnected s).connectedOnce = true ∧
    (listHeaderConnected s).defaultClassRuns = s.defaultClassRuns ∧
    (listHeaderConnected s).compileRuns = s.compileRuns ∧
    (listHeaderConnected s).autoStyleRuns = s.autoStyleRuns ∧
    (listHeaderConnected s).upgradeRuns = s.upgradeRuns := by
  simp [listHeaderConnected, hs]

theorem tabbarConnected_stable (s : LifecycleState) (hs : s.connectedOnce = true) :
    (tabbarConnected s).connectedOnce = true ∧
    (tabbarConnected s).defaultClassRuns = s.defaultClassRuns ∧
    (tabbarConnected s).compileRuns = s.compileRuns ∧
    (tabbarConnected s).autoStyleRuns = s.autoStyleRuns ∧
    (tabbarConnected s).upgradeRuns = s.upgradeRuns := by
  simp [tabbarConnected, hs]

theorem lifecycle_bound (f : LifecycleState → LifecycleState)
    (hf : ∀ s, s.connectedOnce = true →
      (f s).connectedOnce = true ∧ (f s).defaultClassRuns = s.defaultClassRuns ∧
      (f s).compileRuns = s.compileRuns ∧ (f s).autoStyleRuns = s.autoStyleRuns ∧
      (f s).upgradeRuns = s.upgradeRuns)
    (hstart : (f lcInit).connectedOnce = true ∧ (f lcInit).defaultClassRuns ≤ 1 ∧
      (f lcInit).compileRuns ≤ 1 ∧ (f lcInit).autoStyleRuns ≤ 1 ∧ (f lcInit).upgradeRuns ≤ 1) :
    ∀ n : Nat, (f^[n] lcInit).defaultClassRuns ≤ 1 ∧ (f^[n] lcInit).compileRuns ≤ 1 ∧
      (f^[n] lcInit).autoStyleRuns ≤ 1 ∧ (f^[n] lcInit).upgradeRuns ≤ 1 := by
  intro n
  cases n with
  | zero => simp [lcInit]
  | succ n =>
      rw [Function.iterate_succ_apply]
      obtain ⟨h0, h1, h2, h3, h4⟩ := hstart
      obtain ⟨g1, g2, g3, g4⟩ := lifecycle_stable f hf n (f lcInit) h0
      exact ⟨by rw [g1]; exact h1, by rw [g2]; exact h2, by rw [g3]; exact h3, by rw [g4]; exact h4⟩

/-- C10: for each of the five components the first-connection work
(default class, structural compilation where present, auto-styling,
property upgrade for the tabbar) runs at most once no matter how many
times the connection hook fires, because the `_connectedOnce` boolean
guards the first transition. -/
theorem c10_connected_once (n : Nat) :
    ((listItemConnected^[n] lcInit).defaultClassRuns ≤ 1 ∧
      (listItemConnected^[n] lcInit).compileRuns ≤ 1 ∧
      (listItemConnected^[n] lcInit).autoStyleRuns ≤ 1) ∧
    ((tabConnected^[n] lcInit).defaultClassRuns ≤ 1 ∧
      (tabConnected^[n] lcInit).compileRuns ≤ 1 ∧
      (tabConnected^[n] lcInit).autoStyleRuns ≤ 1) ∧
    ((listTitleConnected^[n] lcInit).defaultClassRuns ≤ 1 ∧
      (listTitleConnected^[n] lcInit).autoStyleRuns ≤ 1) ∧
    ((listHeaderConnected^[n] lcInit).defaultClassRuns ≤ 1 ∧
      (listHeaderConnected^[n] lcInit).autoStyleRuns ≤ 1) ∧
    (tabbarConnected^[n] lcInit).upgradeRuns ≤ 1 := by
  have hli := lifecycle_bound listItemConnected
    (fun s hs => listItemConnected_stable s hs) (by simp [listItemConnected, lcInit]) n
  have hta := lifecycle_bound tabConnected
    (fun s hs => tabConnected_stable s hs) (by simp [tabConnected, lcInit]) n
  have hlt := lifecycle_bound listTitleConnected
    (fun s hs => listTitleConnected_stable s hs) (by simp [listTitleConnected, lcInit]) n
  have hlh := lifecycle_bound listHeaderConnected
    (fun s hs => listHeaderConnected_stable s hs) (by simp [listHeaderConnected, lcInit]) n
  have htb := lifecycle_bound tabbarConnected
    (fun s hs => tabbarConnected_stable s hs) (by simp [tabbarConnected, lcInit]) n
  exact ⟨⟨hli.1, hli.2.1, hli.2.2.1⟩, ⟨hta.1, hta.2.1, hta.2.2.1⟩,
    ⟨hlt.1, hlt.2.2.1⟩, ⟨hlh.1, hlh.2.2.1⟩, htb.2.2.2⟩

/-- C1 counterexample: with duplicate wrapper markup user content is
destroyed.  A non-expandable list item with two user-supplied `div.center`
children (ids 1 and 2): compilation removes the first duplicate, so the
user element with id 1 is gone from the tree and the element count
strictly decreases, contradicting the claim for markup with duplicate
wrapper nodes. -/
theorem c1_counterexample :
    1 ∈ idsForest [DNode.elem 1 "DIV" ["center"] [] [], DNode.elem 2 "DIV" ["center"] [] []] ∧
    1 ∉ idsForest (listItemCompile
      ⟨false, [DNode.elem 1 "DIV" ["center"] [] [], DNode.elem 2 "DIV" ["center"] [] []], 3⟩).children ∧
    (idsForest (listItemCompile
      ⟨false, [DNode.elem 1 "DIV" ["center"] [] [], DNode.elem 2 "DIV" ["center"] [] []], 3⟩).children).length
      < (idsForest [DNode.elem 1 "DIV" ["center"] [] [], DNode.elem 2 "DIV" ["center"] [] []]).length := by
  decide

set_option maxHeartbeats 2000000 in
/-- C2 counterexample: an expandable list item with three user-supplied
`div.expandable-content` children (ids 1, 2, 3).  The first run removes
id 1 and keeps id 2 as the canonical wrapper; the second run removes id 2
and adopts id 3, so the second run is not a no-op and the two trees are
not structurally identical. -/
theorem c2_counterexample :
    2 ∈ idsForest (listItemCompile
      ⟨true, [DNode.elem 1 "DIV" ["expandable-content"] [] [],
        DNode.elem 2 "DIV" ["expandable-content"] [] [],
        DNode.elem 3 "DIV" ["expandable-content"] [] []], 4⟩).children ∧
    2 ∉ idsForest (listItemCompile (listItemCompile
      ⟨true, [DNode.elem 1 "DIV" ["expandable-content"] [] [],
        DNode.elem 2 "DIV" ["expandable-content"] [] [],
        DNode.elem 3 "DIV" ["expandable-content"] [] []], 4⟩)).children := by
  decide

set_option maxHeartbeats 2000000 in
/-- C3 counterexample: for the input role of a tab the policy is the
opposite of the claim.  A tab with two direct `input` children (ids 1 and
2): after `_compile` the first duplicate (id 1) is adopted as the
canonical input and the second duplicate (id 2) has been removed from the
tree. -/
theorem c3_counterexample :
    (tabPrefix ⟨[DNode.elem 1 "INPUT" [] [] [], DNode.elem 2 "INPUT" [] [] []],
      none, none, none, none, false, false, false, false, false, none, 3⟩).inputId = 1 ∧
    1 ∈ idsForest (tabCompile ⟨[DNode.elem 1 "INPUT" [] [] [], DNode.elem 2 "INPUT" [] [] []],
      none, none, none, none, false, false, false, false, false, none, 3⟩).children ∧
    2 ∉ idsForest (tabCompile ⟨[DNode.elem 1 "INPUT" [] [] [], DNode.elem 2 "INPUT" [] [] []],
      none, none, none, none, false, false, false, false, false, none, 3⟩).children := by
  decide

set_option maxHeartbeats 2000000 in
/-- C6 counterexample: in expandable mode the claim fails as stated.  For
an empty expandable list item, compilation leaves the auto-created
`div.expandable-content` wrapper (id 1) as a direct child: it is not the
canonical left, right or center wrapper, it is not an ONS-RIPPLE element,
and it sits inside neither the top wrapper (the expandable catch-all,
id 0) nor the center wrapper. -/
theorem c6_counterexample :
    (listItemCompileFull ⟨true, [], 0⟩).topId = some 0 ∧
    (listItemCompileFull ⟨true, [], 0⟩).leftId = none ∧
    (listItemCompileFull ⟨true, [], 0⟩).rightId = some 3 ∧
    (listItemCompileFull ⟨true, [], 0⟩).centerId = 4 ∧
    (∃ n ∈ (listItemCompileFull ⟨true, [], 0⟩).children,
      n.idOf = some 1 ∧ n.tagOf ≠ "ONS-RIPPLE") ∧
    1 ∉ idsForest (childListOf 0 (listItemCompileFull ⟨true, [], 0⟩).children) ∧
    1 ∉ idsForest (childListOf 4 (listItemCompileFull ⟨true, [], 0⟩).children) := by
  decide

theorem addClass_ids (c : String) (n : DNode) : (n.addClass c).ids = n.ids := by
  cases n with
  | elem i t cls a ch =>
      simp only [DNode.addClass]
      split <;> rfl
  | text s => rfl

theorem addClass_idOf (c : String) (n : DNode) : (n.addClass c).idOf = n.idOf := by
  cases n with
  | elem i t cls a ch =>
      simp only [DNode.addClass]
      split <;> rfl
  | text s => rfl

theorem idsForest_append (a b : List DNode) :
    idsForest (a ++ b) = idsForest a ++ idsForest b := by
  induction a with
  | nil => rfl
  | cons n ns ih => simp [idsForest, ih]

theorem idsForest_cons (n : DNode) (ns : List DNode) :
    idsForest (n :: ns) = n.ids ++ idsForest ns := rfl

theorem mem_idsForest (i : Nat) (cs : List DNode) :
    i ∈ idsForest cs ↔ ∃ n ∈ cs, i ∈ n.ids := by
  induction cs with
  | nil => simp [idsForest]
  | cons n ns ih =>
      rw [idsForest_cons]
      simp [List.mem_append, ih]

theorem tagClass_ids (i : Nat) (c : String) (cs : List DNode) :
    idsForest (tagClass i c cs) = idsForest cs := by
  induction cs with
  | nil => rfl
  | cons n ns ih =>
      unfold tagClass at ih ⊢
      rw [List.map_cons, idsForest_cons, idsForest_cons, ih]
      by_cases h : n.idOf == some i <;> simp [h, addClass_ids]

theorem idsForest_sublist {cs₁ cs₂ : List DNode} (h : cs₁.Sublist cs₂) :
    (idsForest cs₁).Sublist (idsForest cs₂) := by
  induction h with
  | slnil => exact List.Sublist.refl _
  | cons n _ ih =>
      rw [idsForest_cons]
      exact ih.trans (List.sublist_append_right _ _)
  | cons₂ n _ ih =>
      rw [idsForest_cons, idsForest_cons]
      exact List.Sublist.append (List.Sublist.refl _) ih

theorem appendInto_eq_self (tid : Nat) (e : List DNode) (n : DNode)
    (h : ¬(n.idOf = some tid)) : appendInto tid e n = n := by
  cases n with
  | elem i t c a ch =>
      have : ¬(i = tid) := fun hi => h (by simp [DNode.idOf, hi])
      simp [appendInto, this]
  | text s => rfl

theorem appendInto_nil (tid : Nat) (n : DNode) : appendInto tid [] n = n := by
  cases n with
  | elem i t c a ch => by_cases h : i == tid <;> simp [appendInto, h]
  | text s => rfl

theorem idsForest_perm {cs₁ cs₂ : List DNode} (h : cs₁.Perm cs₂) :
    (idsForest cs₁).Perm (idsForest cs₂) := by
  induction h with
  | nil => exact List.Perm.refl _
  | cons n _ ih =>
      rw [idsForest_cons, idsForest_cons]
      exact ih.append_left _
  | swap m n l =>
      rw [idsForest_cons, idsForest_cons, idsForest_cons, idsForest_cons]
      rw [← List.append_assoc, ← List.append_assoc]
      exact List.Perm.append (List.perm_append_comm) (List.Perm.refl _)
  | trans _ _ ih1 ih2 => exact ih1.trans ih2

theorem map_eq_self_of (l : List DNode) (f : DNode → DNode) (h : ∀ n ∈ l, f n = n) :
    l.map f = l := by
  induction l with
  | nil => rfl
  | cons n ns ih =>
      rw [List.map_cons, h n (by simp), ih (fun m hm => h m (by simp [hm]))]

theorem mapAppendInto_perm (tid : Nat) (extra : List DNode) (l : List DNode)
    (h : l.countP (fun n => n.idOf == some tid) = 1) :
    (idsForest (l.map (appendInto tid extra))).Perm (idsForest l ++ idsForest extra) := by
  induction l with
  | nil => simp at h
  | cons n rest ih =>
      rw [List.countP_cons] at h
      by_cases hn : n.idOf = some tid
      · simp only [hn, beq_self_eq_true, if_true] at h
        have hrest : rest.countP (fun m => m.idOf == some tid) = 0 := by omega
        have hnone : ∀ m ∈ rest, ¬(m.idOf = some tid) := by
          intro m hm
          have := List.countP_eq_zero.mp hrest m hm
          simpa using this
        have hmap : rest.map (appendInto tid extra) = rest :=
          map_eq_self_of rest _ (fun m hm => appendInto_eq_self tid extra m (hnone m hm))
        cases n with
        | elem i t c a ch =>
            have hi : i = tid := by simpa [DNode.idOf] using hn
            subst hi
            rw [List.map_cons, hmap, idsForest_cons, idsForest_cons]
            simp only [appendInto, beq_self_eq_true, if_true]
            rw [show (DNode.elem i t c a (ch ++ extra)).ids = i :: idsForest (ch ++ extra) from rfl]
            rw [show (DNode.elem i t c a ch).ids = i :: idsForest ch from rfl]
            rw [idsForest_append]
            simp only [List.cons_append, List.append_assoc]
            exact List.Perm.cons i (List.Perm.append_left _ List.perm_append_comm)
        | text s => simp [DNode.idOf] at hn
      · simp only [hn, beq_iff_eq, if_false, Nat.add_zero] at h
        have hself : appendInto tid extra n = n := appendInto_eq_self tid extra n hn
        rw [List.map_cons, hself, idsForest_cons, idsForest_cons, List.append_assoc]
        exact List.Perm.append_left _ (ih h)

theorem movePhase_ids_perm (keep : DNode → Bool) (tid : Nat) (cs : List DNode)
    (h : (cs.filter keep).countP (fun n => n.idOf == some tid) = 1) :
    (idsForest (movePhase keep tid cs)).Perm (idsForest cs) := by
  unfold movePhase
  refine (mapAppendInto_perm tid (cs.filter (fun n => !keep n)) (cs.filter keep) h).trans ?_
  rw [← idsForest_append]
  exact idsForest_perm (List.filter_append_perm keep cs)

theorem wf_mono {cs : List DNode} {k k2 : Nat} (h : WfForest cs k) (hk : k ≤ k2) :
    WfForest cs k2 :=
  ⟨h.1, fun i hi => lt_of_lt_of_le (h.2 i hi) hk⟩

theorem wf_of_sublist {cs₁ cs₂ : List DNode} {k : Nat} (hs : cs₁.Sublist cs₂)
    (h : WfForest cs₂ k) : WfForest cs₁ k :=
  ⟨(idsForest_sublist hs).nodup h.1, fun i hi => h.2 i ((idsForest_sublist hs).mem hi)⟩

theorem wf_tagClass {cs : List DNode} {k : Nat} (i : Nat) (c : String)
    (h : WfForest cs k) : WfForest (tagClass i c cs) k := by
  constructor
  · rw [tagClass_ids]; exact h.1
  · rw [tagClass_ids]; exact h.2

theorem wf_of_ids_perm {cs₁ cs₂ : List DNode} {k : Nat}
    (hp : (idsForest cs₂).Perm (idsForest cs₁)) (h : WfForest cs₁ k) : WfForest cs₂ k :=
  ⟨hp.nodup_iff.mpr h.1, fun i hi => h.2 i (hp.mem_iff.mp hi)⟩

theorem wf_movePhase {cs : List DNode} {k : Nat} (keep : DNode → Bool) (tid : Nat)
    (hc : (cs.filter keep).countP (fun n => n.idOf == some tid) = 1)
    (h : WfForest cs k) : WfForest (movePhase keep tid cs) k :=
  wf_of_ids_perm (movePhase_ids_perm keep tid cs hc) h

theorem wf_cons_fresh {cs : List DNode} {k k2 : Nat} (m : DNode)
    (h : WfForest cs k) (hids : (m.ids).Nodup)
    (hlo : ∀ i ∈ m.ids, k ≤ i) (hhi : ∀ i ∈ m.ids, i < k2) (hk : k ≤ k2) :
    WfForest (m :: cs) k2 := by
  constructor
  · rw [idsForest_cons]
    rw [List.nodup_append]
    refine ⟨hids, h.1, ?_⟩
    intro i hi hic
    have h1 := hlo i hi
    have h2 := h.2 i hic
    omega
  · intro i hi
    rw [idsForest_cons, List.mem_append] at hi
    rcases hi with hi | hi
    · exact hhi i hi
    · exact lt_of_lt_of_le (h.2 i hi) hk

theorem wf_append_fresh {cs : List DNode} {k k2 : Nat} (m : DNode)
    (h : WfForest cs k) (hids : (m.ids).Nodup)
    (hlo : ∀ i ∈ m.ids, k ≤ i) (hhi : ∀ i ∈ m.ids, i < k2) (hk : k ≤ k2) :
    WfForest (cs ++ [m]) k2 := by
  have h1 := wf_cons_fresh m h hids hlo hhi hk
  refine wf_of_ids_perm ?_ h1
  exact idsForest_perm (List.perm_append_singleton m cs).symm |>.symm

theorem childIds_sublist_ids (n : DNode) : (idsForest n.childrenOf).Sublist n.ids := by
  cases n with
  | elem i t c a ch =>
      rw [show (DNode.elem i t c a ch).ids = i :: idsForest ch from rfl]
      exact List.sublist_cons_self i (idsForest ch)
  | text s => exact List.Sublist.refl _

theorem ids_sublist_of_mem {n : DNode} {cs : List DNode} (h : n ∈ cs) :
    (n.ids).Sublist (idsForest cs) := by
  induction cs with
  | nil => cases h
  | cons m ms ih =>
      rw [idsForest_cons]
      rcases List.mem_cons.mp h with rfl | h2
      · exact List.sublist_append_left _ _
      · exact (ih h2).trans (List.sublist_append_right _ _)

theorem wf_childListOf {cs : List DNode} {k : Nat} (i : Nat)
    (h : WfForest cs k) : WfForest (childListOf i cs) k := by
  unfold childListOf
  cases hf : cs.find? (fun n => n.idOf == some i) with
  | none => exact ⟨List.Pairwise.nil, by intro j hj; cases hj⟩
  | some n =>
      have hmem : n ∈ cs := List.mem_of_find?_eq_some hf
      have hsub : (idsForest n.childrenOf).Sublist (idsForest cs) :=
        (childIds_sublist_ids n).trans (ids_sublist_of_mem hmem)
      exact ⟨hsub.nodup h.1, fun j hj => h.2 j (hsub.mem hj)⟩

theorem countP_idOf_eq (cs : List DNode) (i : Nat) :
    cs.countP (fun n => n.idOf == some i) = (cs.filterMap DNode.idOf).count i := by
  induction cs with
  | nil => rfl
  | cons n ns ih =>
      rw [List.countP_cons]
      cases hn : n.idOf with
      | none => simp [List.filterMap_cons, hn, ih]
      | some j =>
          rw [List.filterMap_cons, hn]
          rw [List.count_cons]
          by_cases hij : j = i
          · simp [hn, hij, ih]
          · have : ¬(i = j) := fun h => hij h.symm
            simp [hn, hij, ih, this]

theorem topIds_sublist (cs : List DNode) :
    (cs.filterMap DNode.idOf).Sublist (idsForest cs) := by
  induction cs with
  | nil => exact List.Sublist.refl _
  | cons n ns ih =>
      rw [idsForest_cons, List.filterMap_cons]
      cases n with
      | elem i t c a ch =>
          rw [show (DNode.elem i t c a ch).idOf = some i from rfl]
          rw [show (DNode.elem i t c a ch).ids = i :: idsForest ch from rfl]
          exact List.Sublist.cons₂ i (ih.trans (List.sublist_append_right _ _))
      | text s =>
          exact ih.trans (List.sublist_append_right _ _)

theorem wf_countP_le_one {cs : List DNode} {k : Nat} (h : WfForest cs k) (i : Nat) :
    cs.countP (fun n => n.idOf == some i) ≤ 1 := by
  rw [countP_idOf_eq]
  have hnd : (cs.filterMap DNode.idOf).Nodup := (topIds_sublist cs).nodup h.1
  exact List.nodup_iff_count_le_one.mp hnd i

theorem countP_idOf_eq_one {cs : List DNode} {k : Nat} {n : DNode} {i : Nat}
    (h : WfForest cs k) (hmem : n ∈ cs) (hid : n.idOf = some i) :
    cs.countP (fun m => m.idOf == some i) = 1 := by
  have hle := wf_countP_le_one h i
  have hpos : 0 < cs.countP (fun m => m.idOf == some i) := by
    rw [List.countP_pos_iff]
    exact ⟨n, hmem, by simp [hid]⟩
  omega

theorem countP_filter_of_imp (cs : List DNode) (p keep : DNode → Bool)
    (h : ∀ n, p n = true → keep n = true) :
    (cs.filter keep).countP p = cs.countP p := by
  induction cs with
  | nil => rfl
  | cons n ns ih =>
      rw [List.countP_cons, List.filter_cons]
      by_cases hk : keep n
      · rw [if_pos hk, List.countP_cons, ih]
      · have hp : p n = false := by
          cases hpn : p n
          · rfl
          · exact absurd (h n hpn) (by simpa using hk)
        rw [if_neg hk, ih, hp]
        simp

theorem filter_eraseP (p : DNode → Bool) (cs : List DNode) :
    (cs.eraseP p).filter p = ((cs.filter p).drop 1) := by
  induction cs with
  | nil => rfl
  | cons n ns ih =>
      rw [List.eraseP_cons, List.filter_cons]
      by_cases hp : p n
      · simp [hp]
      · have hp2 : p n = false := by simpa using hp
        simp only [hp2, cond_false, Bool.false_eq_true, if_false, List.filter_cons]
        exact ih

theorem eraseP_of_mem_filter (p : DNode → Bool) (cs : List DNode) {x : DNode}
    (h : x ∈ (cs.filter p).drop 1) : x ∈ cs.eraseP p := by
  have h2 : x ∈ (cs.eraseP p).filter p := by rw [filter_eraseP]; exact h
  exact (List.mem_filter.mp h2).1

theorem dedupFront_zero_some (p : DNode → Bool) (m : DNode) (cs : List DNode)
    (hf : cs.filter p = []) :
    dedupFront p (some m) cs = (m :: cs, some m, true) := by
  unfold dedupFront
  rw [hf]

theorem dedupFront_zero_none (p : DNode → Bool) (cs : List DNode)
    (hf : cs.filter p = []) :
    dedupFront p none cs = (cs, none, false) := by
  unfold dedupFront
  rw [hf]

theorem dedupFront_one (p : DNode → Bool) (mk : Option DNode) (cs : List DNode)
    (x : DNode) (hf : cs.filter p = [x]) :
    dedupFront p mk cs = (cs, some x, false) := by
  unfold dedupFront
  rw [hf]

theorem dedupFront_many (p : DNode → Bool) (mk : Option DNode) (cs : List DNode)
    (x0 x1 : DNode) (rest : List DNode) (hf : cs.filter p = x0 :: x1 :: rest) :
    dedupFront p mk cs = (cs.eraseP p, some x1, false) := by
  unfold dedupFront
  rw [hf]

theorem dedupFront_canonical_mem (p : DNode → Bool) (mk : Option DNode) (cs : List DNode)
    {x : DNode} (h : (dedupFront p mk cs).2.1 = some x) :
    x ∈ (dedupFront p mk cs).1 := by
  rcases hf : cs.filter p with _ | ⟨x0, _ | ⟨x1, rest2⟩⟩
  · cases hm : mk with
    | none => rw [hm, dedupFront_zero_none p cs hf] at h; simp at h
    | some m =>
        rw [hm] at h
        rw [dedupFront_zero_some p m cs hf] at h ⊢
        have : m = x := by simpa using h
        simp [this]
  · rw [dedupFront_one p mk cs x0 hf] at h ⊢
    have hx : x0 = x := by simpa using h
    have hx0 : x0 ∈ cs.filter p := by rw [hf]; simp
    exact hx ▸ (List.mem_filter.mp hx0).1
  · rw [dedupFront_many p mk cs x0 x1 rest2 hf] at h ⊢
    have hx : x1 = x := by simpa using h
    refine hx ▸ eraseP_of_mem_filter p cs ?_
    rw [hf]
    simp

theorem dedupFront_canonical_prop (p : DNode → Bool) (mk : Option DNode) (cs : List DNode)
    {x : DNode} (h : (dedupFront p mk cs).2.1 = some x)
    (hmk : ∀ m, mk = some m → p m = true) : p x = true := by
  rcases hf : cs.filter p with _ | ⟨x0, _ | ⟨x1, rest2⟩⟩
  · cases hm : mk with
    | none => rw [hm, dedupFront_zero_none p cs hf] at h; simp at h
    | some m =>
        rw [hm, dedupFront_zero_some p m cs hf] at h
        have : m = x := by simpa using h
        exact this ▸ hmk m hm
  · rw [dedupFront_one p mk cs x0 hf] at h
    have hx : x0 = x := by simpa using h
    have hx0 : x0 ∈ cs.filter p := by rw [hf]; simp
    exact hx ▸ (List.mem_filter.mp hx0).2
  · rw [dedupFront_many p mk cs x0 x1 rest2 hf] at h
    have hx : x1 = x := by simpa using h
    have hx1 : x1 ∈ cs.filter p := by rw [hf]; simp
    exact hx ▸ (List.mem_filter.mp hx1).2

theorem freshExt_refl (ids : List Nat) (k : Nat) : FreshExtension ids ids k k :=
  ⟨[], List.Pairwise.nil, by simp, by simp, le_refl k⟩

theorem freshExt_of_perm {ids1 ids2 : List Nat} {k k2 : Nat} (h : ids2.Perm ids1)
    (hk : k ≤ k2) : FreshExtension ids1 ids2 k k2 :=
  ⟨[], List.Pairwise.nil, by simp, by simpa using h, hk⟩

theorem freshExt_mono {ids1 ids2 : List Nat} {k0 k1 k2 k3 : Nat}
    (h : FreshExtension ids1 ids2 k1 k2) (h01 : k0 ≤ k1) (h23 : k2 ≤ k3) :
    FreshExtension ids1 ids2 k0 k3 := by
  obtain ⟨f, hnd, hb, hp, hk⟩ := h
  exact ⟨f, hnd, fun i hi => ⟨le_trans h01 (hb i hi).1, lt_of_lt_of_le (hb i hi).2 h23⟩,
    hp, le_trans h01 (le_trans hk h23)⟩

theorem freshExt_trans {ids1 ids2 ids3 : List Nat} {k1 k2 k3 : Nat}
    (h12 : FreshExtension ids1 ids2 k1 k2) (h23 : FreshExtension ids2 ids3 k2 k3) :
    FreshExtension ids1 ids3 k1 k3 := by
  obtain ⟨f1, hnd1, hb1, hp1, hk1⟩ := h12
  obtain ⟨f2, hnd2, hb2, hp2, hk2⟩ := h23
  refine ⟨f2 ++ f1, ?_, ?_, ?_, le_trans hk1 hk2⟩
  · rw [List.nodup_append]
    refine ⟨hnd2, hnd1, ?_⟩
    intro i hi2 hi1
    have b2 := (hb2 i hi2).1
    have b1 := (hb1 i hi1).2
    omega
  · intro i hi
    rcases List.mem_append.mp hi with hi | hi
    · exact ⟨le_trans hk1 (hb2 i hi).1, (hb2 i hi).2⟩
    · exact ⟨(hb1 i hi).1, lt_of_lt_of_le (hb1 i hi).2 hk2⟩
  · refine hp2.trans ((hp1.append_left f2).trans ?_)
    rw [List.append_assoc]

theorem freshExt_cons {cs : List DNode} {k k2 : Nat} (m : DNode)
    (hnd : m.ids.Nodup) (hb : ∀ i ∈ m.ids, k ≤ i ∧ i < k2) (hk : k ≤ k2) :
    FreshExtension (idsForest cs) (idsForest (m :: cs)) k k2 :=
  ⟨m.ids, hnd, hb, by rw [idsForest_cons], hk⟩

theorem freshExt_wf {csIn csOut : List DNode} {kIn kOut : Nat}
    (hwf : WfForest csIn kIn)
    (h : FreshExtension (idsForest csIn) (idsForest csOut) kIn kOut) :
    WfForest csOut kOut := by
  obtain ⟨f, hnd, hb, hp, hk⟩ := h
  constructor
  · rw [hp.nodup_iff, List.nodup_append]
    refine ⟨hnd, hwf.1, ?_⟩
    intro i hif hic
    have b1 := (hb i hif).1
    have b2 := hwf.2 i hic
    omega
  · intro i hi
    rcases List.mem_append.mp (hp.mem_iff.mp hi) with hi | hi
    · exact (hb i hi).2
    · exact lt_of_lt_of_le (hwf.2 i hi) hk

theorem freshExt_mem {idsIn idsOut : List Nat} {kIn kOut : Nat}
    (h : FreshExtension idsIn idsOut kIn kOut) {i : Nat} (hi : i ∈ idsIn) :
    i ∈ idsOut := by
  obtain ⟨f, _, _, hp, _⟩ := h
  exact hp.mem_iff.mpr (List.mem_append.mpr (Or.inr hi))

theorem freshExt_length {idsIn idsOut : List Nat} {kIn kOut : Nat}
    (h : FreshExtension idsIn idsOut kIn kOut) : idsIn.length ≤ idsOut.length := by
  obtain ⟨f, _, _, hp, _⟩ := h
  rw [hp.length_eq, List.length_append]
  omega

theorem exists_id_tagClass {cs : List DNode} {i : Nat} (j : Nat) (c : String)
    (h : ∃ n ∈ cs, n.idOf = some i) : ∃ n ∈ tagClass j c cs, n.idOf = some i := by
  obtain ⟨n, hn, hid⟩ := h
  unfold tagClass
  by_cases hj : n.idOf == some j
  · exact ⟨n.addClass c, List.mem_map.mpr ⟨n, hn, by simp [hj]⟩, by rw [addClass_idOf]; exact hid⟩
  · refine ⟨n, List.mem_map.mpr ⟨n, hn, ?_⟩, hid⟩
    simp [hj]

theorem keep_count_one {cs : List DNode} {k : Nat} (keep : DNode → Bool) (tid : Nat)
    (hwf : WfForest cs k) (hex : ∃ n ∈ cs, n.idOf = some tid)
    (himp : ∀ n, (n.idOf == some tid) = true → keep n = true) :
    (cs.filter keep).countP (fun n => n.idOf == some tid) = 1 := by
  rw [countP_filter_of_imp cs _ keep himp]
  obtain ⟨n, hn, hid⟩ := hex
  exact countP_idOf_eq_one hwf hn hid

theorem movePhase_freshExt {cs : List DNode} {k : Nat} (keep : DNode → Bool) (tid : Nat)
    (hwf : WfForest cs k) (hex : ∃ n ∈ cs, n.idOf = some tid)
    (himp : ∀ n, (n.idOf == some tid) = true → keep n = true) :
    FreshExtension (idsForest cs) (idsForest (movePhase keep tid cs)) k k :=
  freshExt_of_perm (movePhase_ids_perm keep tid cs (keep_count_one keep tid hwf hex himp)) (le_refl k)

theorem mapChildListOf_cons (tid : Nat) (f : List DNode → List DNode) (n : DNode)
    (rest : List DNode) (h : ¬(n.idOf = some tid)) :
    mapChildListOf tid f (n :: rest) = n :: mapChildListOf tid f rest := by
  unfold mapChildListOf
  rw [List.map_cons]
  congr 1
  cases n with
  | elem i t c a ch =>
      have hi : ¬(i = tid) := fun he => h (by simp [DNode.idOf, he])
      simp [hi]
  | text s => rfl

theorem mapChildListOf_cons_hit (tid : Nat) (f : List DNode → List DNode)
    (t : String) (c : List String) (a : List (String × String)) (ch rest : List DNode) :
    mapChildListOf tid f (DNode.elem tid t c a ch :: rest)
      = DNode.elem tid t c a (f ch) :: mapChildListOf tid f rest := by
  unfold mapChildListOf
  rw [List.map_cons]
  congr 1
  simp

theorem mapChildListOf_eq_self (tid : Nat) (f : List DNode → List DNode)
    (cs : List DNode) (h : cs.countP (fun n => n.idOf == some tid) = 0) :
    mapChildListOf tid f cs = cs := by
  induction cs with
  | nil => rfl
  | cons n rest ih =>
      rw [List.countP_cons] at h
      have hn : ¬(n.idOf = some tid) := by
        intro he
        simp [he] at h
      have hr : rest.countP (fun n => n.idOf == some tid) = 0 := by
        by_cases hx : (n.idOf == some tid) = true
        · exact absurd (by simpa using hx) hn
        · simpa [hx] using h
      rw [mapChildListOf_cons tid f n rest hn, ih hr]

theorem childListOf_cons_hit (tid : Nat) (n : DNode) (rest : List DNode)
    (h : n.idOf = some tid) : childListOf tid (n :: rest) = n.childrenOf := by
  unfold childListOf
  rw [List.find?_cons_of_pos _ (by simp [h])]
  rfl

theorem childListOf_cons_miss (tid : Nat) (n : DNode) (rest : List DNode)
    (h : ¬(n.idOf = some tid)) : childListOf tid (n :: rest) = childListOf tid rest := by
  unfold childListOf
  rw [List.find?_cons_of_neg _ (by simp [h])]

theorem mapChildListOf_freshExt {cs : List DNode} {newCh : List DNode} {k k2 : Nat}
    (tid : Nat) (hcount : cs.countP (fun n => n.idOf == some tid) = 1)
    (hin : FreshExtension (idsForest (childListOf tid cs)) (idsForest newCh) k k2) :
    FreshExtension (idsForest cs) (idsForest (mapChildListOf tid (fun _ => newCh) cs)) k k2 := by
  induction cs with
  | nil => simp at hcount
  | cons n rest ih =>
      rw [List.countP_cons] at hcount
      by_cases hn : n.idOf = some tid
      · simp only [hn, beq_self_eq_true, if_true] at hcount
        have hrest : rest.countP (fun m => m.idOf == some tid) = 0 := by omega
        cases n with
        | elem i t c a ch =>
            have hi : i = tid := by simpa [DNode.idOf] using hn
            subst hi
            rw [childListOf_cons_hit i (DNode.elem i t c a ch) rest (by rfl)] at hin
            rw [mapChildListOf_cons_hit i _ t c a ch rest, mapChildListOf_eq_self i _ rest hrest]
            have e1 : idsForest (DNode.elem i t c a ch :: rest)
                = i :: (idsForest ch ++ idsForest rest) := rfl
            have e2 : idsForest (DNode.elem i t c a ((fun _ => newCh) ch) :: rest)
                = i :: (idsForest newCh ++ idsForest rest) := rfl
            rw [e1, e2]
            have e3 : idsForest (DNode.elem i t c a ch).childrenOf = idsForest ch := rfl
            rw [e3] at hin
            obtain ⟨f, hnd, hb, hp, hk⟩ := hin
            refine ⟨f, hnd, hb, ?_, hk⟩
            refine List.Perm.trans (List.Perm.cons i (hp.append (List.Perm.refl (idsForest rest)))) ?_
            rw [List.append_assoc]
            exact List.perm_middle.symm
        | text s => simp [DNode.idOf] at hn
      · have hx : (n.idOf == some tid) = false := by simp [hn]
        rw [hx] at hcount
        simp only [Bool.false_eq_true, if_false, Nat.add_zero] at hcount
        rw [childListOf_cons_miss tid n rest hn] at hin
        rw [mapChildListOf_cons tid _ n rest hn]
        obtain ⟨f, hnd, hb, hp, hk⟩ := ih hcount hin
        refine ⟨f, hnd, hb, ?_, hk⟩
        rw [idsForest_cons, idsForest_cons]
        refine List.Perm.trans (hp.append_left n.ids) ?_
        rw [← List.append_assoc, ← List.append_assoc]
        exact List.Perm.append List.perm_append_comm (List.Perm.refl _)

theorem addClass_tagOf (c : String) (n : DNode) : (n.addClass c).tagOf = n.tagOf := by
  cases n with
  | elem i t cls a ch =>
      simp only [DNode.addClass]
      split <;> rfl
  | text s => rfl

theorem addClass_hasClass (c c2 : String) (n : DNode) (h : ¬(c = c2)) :
    (n.addClass c2).hasClass c = n.hasClass c := by
  cases n with
  | elem i t cls a ch =>
      simp only [DNode.addClass]
      split
      · rfl
      · show (cls ++ [c2]).contains c = cls.contains c
        rw [List.contains_eq_any_beq, List.contains_eq_any_beq, List.any_append]
        have hb : [c2].any (c == ·) = false := by
          simp
          exact fun he => h he
        rw [hb]
        simp
  | text s => rfl

theorem addClass_isDivClass (c c2 : String) (n : DNode) (h : ¬(c = c2)) :
    isDivClass c (n.addClass c2) = isDivClass c n := by
  unfold isDivClass
  rw [addClass_tagOf, addClass_hasClass c c2 n h]

theorem countP_tagClass (i : Nat) (c c2 : String) (cs : List DNode) (h : ¬(c = c2)) :
    (tagClass i c2 cs).countP (isDivClass c) = cs.countP (isDivClass c) := by
  unfold tagClass
  rw [List.countP_map]
  apply List.countP_congr
  intro n _
  by_cases hn : (n.idOf == some i) = true
  · simp [Function.comp, hn, addClass_isDivClass c c2 n h]
  · simp [Function.comp, hn]

theorem isDivClass_idOf {c : String} {n : DNode} (h : isDivClass c n = true) :
    ∃ i, n.idOf = some i := by
  cases n with
  | elem i t cls a ch => exact ⟨i, rfl⟩
  | text s =>
      exfalso
      unfold isDivClass DNode.tagOf at h
      simp at h

theorem dedupFront_canonical_isSome (p : DNode → Bool) (m : DNode) (cs : List DNode) :
    ∃ x, (dedupFront p (some m) cs).2.1 = some x := by
  rcases hf : cs.filter p with _ | ⟨x0, _ | ⟨x1, rest2⟩⟩
  · exact ⟨m, by rw [dedupFront_zero_some p m cs hf]⟩
  · exact ⟨x0, by rw [dedupFront_one p (some m) cs x0 hf]⟩
  · exact ⟨x1, by rw [dedupFront_many p (some m) cs x0 x1 rest2 hf]⟩

theorem dedupFront_canonical_idOf (p : DNode → Bool) (m : DNode) (cs : List DNode)
    (hm : ∃ j, m.idOf = some j) (hp : ∀ n, p n = true → ∃ j, n.idOf = some j) :
    ∃ x j, (dedupFront p (some m) cs).2.1 = some x ∧ x.idOf = some j := by
  rcases hf : cs.filter p with _ | ⟨x0, _ | ⟨x1, rest2⟩⟩
  · rw [dedupFront_zero_some p m cs hf]
    obtain ⟨j, hj⟩ := hm
    exact ⟨m, j, rfl, hj⟩
  · rw [dedupFront_one p (some m) cs x0 hf]
    have hx0 : x0 ∈ cs.filter p := by rw [hf]; simp
    obtain ⟨j, hj⟩ := hp x0 (List.mem_filter.mp hx0).2
    exact ⟨x0, j, rfl, hj⟩
  · rw [dedupFront_many p (some m) cs x0 x1 rest2 hf]
    have hx1 : x1 ∈ cs.filter p := by rw [hf]; simp
    obtain ⟨j, hj⟩ := hp x1 (List.mem_filter.mp hx1).2
    exact ⟨x1, j, rfl, hj⟩

theorem roleStep_proj1 (p : DNode → Bool) (mk : Option DNode) (tag : String)
    (kNext : Nat) (cs : List DNode) (k : Nat) :
    (roleStep p mk tag kNext cs k).1
      = tagClass (((dedupFront p mk cs).2.1.bind DNode.idOf).getD 0) tag (dedupFront p mk cs).1 := rfl

theorem roleStep_proj2 (p : DNode → Bool) (mk : Option DNode) (tag : String)
    (kNext : Nat) (cs : List DNode) (k : Nat) :
    (roleStep p mk tag kNext cs k).2.1
      = ((dedupFront p mk cs).2.1.bind DNode.idOf).getD 0 := rfl

theorem roleStep_proj3 (p : DNode → Bool) (mk : Option DNode) (tag : String)
    (kNext : Nat) (cs : List DNode) (k : Nat) :
    (roleStep p mk tag kNext cs k).2.2
      = if (dedupFront p mk cs).2.2 then kNext else k := rfl

theorem roleStep_canonical_exists (p : DNode → Bool) (m : DNode) (tag : String)
    (kNext : Nat) (cs : List DNode) (k : Nat)
    (hm : ∃ j, m.idOf = some j) (hp : ∀ n, p n = true → ∃ j, n.idOf = some j) :
    ∃ n ∈ (roleStep p (some m) tag kNext cs k).1,
      n.idOf = some (roleStep p (some m) tag kNext cs k).2.1 := by
  obtain ⟨x, j, hx, hj⟩ := dedupFront_canonical_idOf p m cs hm hp
  have hmem := dedupFront_canonical_mem p (some m) cs hx
  rw [roleStep_proj1, roleStep_proj2, hx]
  have hb : (some x).bind DNode.idOf = x.idOf := rfl
  rw [hb, hj]
  exact exists_id_tagClass j tag ⟨x, hmem, hj⟩

theorem lrcLeftStep_ids (cs : List DNode) :
    idsForest (lrcLeftStep cs).1 = idsForest cs := by
  unfold lrcLeftStep
  cases h : (cs.find? (isDivClass "left")).bind DNode.idOf with
  | none => rfl
  | some l => exact tagClass_ids l _ cs

theorem lrcLeftStep_countP (cs : List DNode) (c : String) (h : ¬(c = "list-item__left")) :
    (lrcLeftStep cs).1.countP (isDivClass c) = cs.countP (isDivClass c) := by
  unfold lrcLeftStep
  cases hf : (cs.find? (isDivClass "left")).bind DNode.idOf with
  | none => rfl
  | some l => exact countP_tagClass l c _ cs h

theorem wf_of_ids_eq {cs₁ cs₂ : List DNode} {k : Nat}
    (h : idsForest cs₂ = idsForest cs₁) (hwf : WfForest cs₁ k) : WfForest cs₂ k := by
  constructor
  · rw [h]; exact hwf.1
  · rw [h]; exact hwf.2

theorem roleStep_freshExt (p : DNode → Bool) (m : DNode) (tag : String)
    (kNext : Nat) (cs : List DNode) (k : Nat)
    (hcount : cs.countP p ≤ 1)
    (hmids : m.ids.Nodup) (hmb : ∀ i ∈ m.ids, k ≤ i ∧ i < kNext) (hk : k ≤ kNext) :
    FreshExtension (idsForest cs) (idsForest (roleStep p (some m) tag kNext cs k).1)
      k (roleStep p (some m) tag kNext cs k).2.2 := by
  rw [roleStep_proj1, roleStep_proj3]
  rcases hf : cs.filter p with _ | ⟨x0, _ | ⟨x1, rest2⟩⟩
  · rw [dedupFront_zero_some p m cs hf]
    simp only [if_true]
    rw [tagClass_ids]
    exact freshExt_cons m hmids hmb hk
  · rw [dedupFront_one p (some m) cs x0 hf]
    simp only [Bool.false_eq_true, if_false]
    rw [tagClass_ids]
    exact freshExt_refl _ k
  · exfalso
    have : cs.countP p = (cs.filter p).length := List.countP_eq_length_filter p cs
    rw [hf] at this
    simp at this
    omega

theorem roleStep_countP (p : DNode → Bool) (m : DNode) (tag : String)
    (kNext : Nat) (cs : List DNode) (k : Nat) (c : String)
    (hcount : cs.countP p ≤ 1) (h : ¬(c = tag)) (hm : isDivClass c m = false) :
    (roleStep p (some m) tag kNext cs k).1.countP (isDivClass c)
      = cs.countP (isDivClass c) := by
  rw [roleStep_proj1]
  rw [countP_tagClass _ c tag _ h]
  rcases hf : cs.filter p with _ | ⟨x0, _ | ⟨x1, rest2⟩⟩
  · rw [dedupFront_zero_some p m cs hf]
    rw [List.countP_cons]
    simp [hm]
  · rw [dedupFront_one p (some m) cs x0 hf]
  · exfalso
    have : cs.countP p = (cs.filter p).length := List.countP_eq_length_filter p cs
    rw [hf] at this
    simp at this
    omega

theorem lrcRightStep_eq_none (cs : List DNode) (k : Nat)
    (hf : cs.filter (isDivClass "right") = []) :
    lrcRightStep false cs k = (cs, none, k) := by
  simp only [lrcRightStep, Bool.false_eq_true, if_false]
  rw [dedupFront_zero_none _ cs hf]
  rfl

theorem lrcRightStep_eq_create (cs : List DNode) (k : Nat)
    (hf : cs.filter (isDivClass "right") = []) :
    lrcRightStep true cs k
      = (tagClass (k + 1) "list-item__right"
          (DNode.elem (k + 1) "DIV" ["right"] [] [DNode.elem k "SPAN" ["list-item__expand-chevron"] [] []] :: cs),
        some (k + 1), k + 2) := by
  simp only [lrcRightStep, if_true]
  rw [dedupFront_zero_some _ _ cs hf]
  rfl

theorem lrcRightStep_eq_one (exp : Bool) (cs : List DNode) (k : Nat) (x : DNode) (j : Nat)
    (hf : cs.filter (isDivClass "right") = [x]) (hj : x.idOf = some j) :
    lrcRightStep exp cs k = (tagClass j "list-item__right" cs, some j, k) := by
  simp only [lrcRightStep]
  rw [dedupFront_one _ _ cs x hf]
  simp [hj]

theorem lrcRightStep_eq_many (exp : Bool) (cs : List DNode) (k : Nat)
    (x0 x1 : DNode) (rest : List DNode) (j : Nat)
    (hf : cs.filter (isDivClass "right") = x0 :: x1 :: rest) (hj : x1.idOf = some j) :
    lrcRightStep exp cs k
      = (tagClass j "list-item__right" (cs.eraseP (isDivClass "right")), some j, k) := by
  simp only [lrcRightStep]
  rw [dedupFront_many _ _ cs x0 x1 rest hf]
  simp [hj]

theorem lrcRightStep_freshExt (exp : Bool) (cs : List DNode) (k : Nat)
    (hcount : cs.countP (isDivClass "right") ≤ 1) :
    FreshExtension (idsForest cs) (idsForest (lrcRightStep exp cs k).1)
      k (lrcRightStep exp cs k).2.2 ∧
    (lrcRightStep exp cs k).1.countP (isDivClass "center")
      = cs.countP (isDivClass "center") := by
  rcases hf : cs.filter (isDivClass "right") with _ | ⟨x0, _ | ⟨x1, rest2⟩⟩
  · cases exp with
    | false =>
        rw [lrcRightStep_eq_none cs k hf]
        exact ⟨freshExt_refl _ k, rfl⟩
    | true =>
        rw [lrcRightStep_eq_create cs k hf]
        constructor
        · show FreshExtension (idsForest cs) (idsForest (tagClass (k + 1) "list-item__right" _)) k (k + 2)
          rw [tagClass_ids]
          refine freshExt_cons _ ?_ ?_ (by omega)
          · show ((k + 1) :: ([k] ++ [])).Nodup
            simp
          · intro i hi
            have : i ∈ (k + 1) :: ([k] ++ []) := hi
            simp at this
            omega
        · rw [countP_tagClass _ "center" "list-item__right" _ (by decide)]
          rw [List.countP_cons]
          simp [isDivClass, DNode.tagOf, DNode.hasClass]
  · have hx : ∃ j, x0.idOf = some j := by
      have : x0 ∈ cs.filter (isDivClass "right") := by rw [hf]; simp
      exact isDivClass_idOf (List.mem_filter.mp this).2
    obtain ⟨j, hj⟩ := hx
    rw [lrcRightStep_eq_one exp cs k x0 j hf hj]
    constructor
    · show FreshExtension (idsForest cs) (idsForest (tagClass j "list-item__right" cs)) k k
      rw [tagClass_ids]
      exact freshExt_refl _ k
    · exact countP_tagClass _ "center" "list-item__right" _ (by decide)
  · exfalso
    have : cs.countP (isDivClass "right") = (cs.filter (isDivClass "right")).length :=
      List.countP_eq_length_filter _ cs
    rw [hf] at this
    simp at this
    omega

theorem lrc_freshExt (exp : Bool) (cs0 : List DNode) (k0 : Nat)
    (hwf : WfForest cs0 k0)
    (hR : cs0.countP (isDivClass "right") ≤ 1)
    (hC : cs0.countP (isDivClass "center") ≤ 1) :
    FreshExtension (idsForest cs0) (idsForest (lrc exp cs0 k0).children)
      k0 (lrc exp cs0 k0).nextId := by
  have hLids := lrcLeftStep_ids cs0
  have hLwf : WfForest (lrcLeftStep cs0).1 k0 := wf_of_ids_eq hLids hwf
  have hLcr : (lrcLeftStep cs0).1.countP (isDivClass "right") ≤ 1 := by
    rw [lrcLeftStep_countP cs0 "right" (by decide)]; exact hR
  have hLcc : (lrcLeftStep cs0).1.countP (isDivClass "center") ≤ 1 := by
    rw [lrcLeftStep_countP cs0 "center" (by decide)]; exact hC
  obtain ⟨hRfe, hRcc⟩ := lrcRightStep_freshExt exp (lrcLeftStep cs0).1 k0 hLcr
  set R := lrcRightStep exp (lrcLeftStep cs0).1 k0 with hRdef
  have hR0 : FreshExtension (idsForest cs0) (idsForest R.1) k0 R.2.2 := by
    refine freshExt_trans (freshExt_of_perm ?_ (le_refl k0)) hRfe
    rw [hLids]
  have hRwf : WfForest R.1 R.2.2 := freshExt_wf hwf hR0
  have hRcc2 : R.1.countP (isDivClass "center") ≤ 1 := by rw [hRcc]; exact hLcc
  set m := DNode.elem R.2.2 "DIV" ["center"] [] [] with hmdef
  have hmids : m.ids.Nodup := by
    show (R.2.2 :: idsForest []).Nodup
    simp [idsForest]
  have hmb : ∀ i ∈ m.ids, R.2.2 ≤ i ∧ i < R.2.2 + 1 := by
    intro i hi
    have : i ∈ R.2.2 :: idsForest [] := hi
    simp [idsForest] at this
    omega
  have hCfe := roleStep_freshExt (isDivClass "center") m "list-item__center"
    (R.2.2 + 1) R.1 R.2.2 hRcc2 hmids hmb (by omega)
  set C := roleStep (isDivClass "center") (some m) "list-item__center" (R.2.2 + 1) R.1 R.2.2 with hCdef
  have hCwf : WfForest C.1 C.2.2 := freshExt_wf hRwf hCfe
  have hCex : ∃ n ∈ C.1, n.idOf = some C.2.1 :=
    roleStep_canonical_exists (isDivClass "center") m "list-item__center"
      (R.2.2 + 1) R.1 R.2.2 ⟨R.2.2, rfl⟩ (fun n h => isDivClass_idOf h)
  have hkeepimp : ∀ n, (n.idOf == some C.2.1) = true →
      lrcKeep (lrcLeftStep cs0).2 R.2.1 C.2.1 n = true := by
    intro n h
    simp [lrcKeep, h]
  have hM := movePhase_freshExt (lrcKeep (lrcLeftStep cs0).2 R.2.1 C.2.1) C.2.1 hCwf hCex hkeepimp
  exact freshExt_trans (freshExt_trans hR0 hCfe) hM

theorem appendInto_idOf (tid : Nat) (e : List DNode) (n : DNode) :
    (appendInto tid e n).idOf = n.idOf := by
  cases n with
  | elem i t c a ch => by_cases h : i == tid <;> simp [appendInto, h, DNode.idOf]
  | text s => rfl

theorem movePhase_exists_id (keep : DNode → Bool) (tid : Nat) (cs : List DNode)
    {i : Nat} (hex : ∃ n ∈ cs, keep n = true ∧ n.idOf = some i) :
    ∃ n ∈ movePhase keep tid cs, n.idOf = some i := by
  obtain ⟨n, hmem, hkeep, hid⟩ := hex
  refine ⟨appendInto tid (cs.filter (fun m => !keep m)) n, ?_, ?_⟩
  · unfold movePhase
    exact List.mem_map.mpr ⟨n, List.mem_filter.mpr ⟨hmem, hkeep⟩, rfl⟩
  · rw [appendInto_idOf]; exact hid

theorem roleStep_exists_id (p : DNode → Bool) (m : DNode) (tag : String)
    (kNext : Nat) (cs : List DNode) (k : Nat) {i : Nat}
    (hcount : cs.countP p ≤ 1) (hex : ∃ n ∈ cs, n.idOf = some i) :
    ∃ n ∈ (roleStep p (some m) tag kNext cs k).1, n.idOf = some i := by
  rw [roleStep_proj1]
  rcases hf : cs.filter p with _ | ⟨x0, _ | ⟨x1, rest2⟩⟩
  · rw [dedupFront_zero_some p m cs hf]
    obtain ⟨n, hmem, hid⟩ := hex
    exact exists_id_tagClass _ _ ⟨n, by simp [hmem], hid⟩
  · rw [dedupFront_one p (some m) cs x0 hf]
    exact exists_id_tagClass _ _ hex
  · exfalso
    have : cs.countP p = (cs.filter p).length := List.countP_eq_length_filter p cs
    rw [hf] at this
    simp at this
    omega

theorem liPrefix_freshExt (s : ListItemState)
    (hwf : WfForest s.children s.nextId)
    (hT : s.children.countP (isDivClass "top") ≤ 1)
    (hE : s.children.countP (isDivClass "expandable-content") ≤ 1) :
    FreshExtension (idsForest s.children) (idsForest (liPrefix s).children)
      s.nextId (liPrefix s).nextId ∧
    (∃ n ∈ (liPrefix s).children, n.idOf = some (liPrefix s).topId) ∧
    WfForest (liPrefix s).children (liPrefix s).nextId := by
  set mT := DNode.elem s.nextId "DIV" ["top"] [] [] with hmT
  set T := roleStep (isDivClass "top") (some mT) "list-item__top" (s.nextId + 1)
    s.children s.nextId with hTdef
  have hmTids : mT.ids.Nodup := by
    show (s.nextId :: idsForest []).Nodup
    simp [idsForest]
  have hmTb : ∀ i ∈ mT.ids, s.nextId ≤ i ∧ i < s.nextId + 1 := by
    intro i hi
    have : i ∈ s.nextId :: idsForest [] := hi
    simp [idsForest] at this
    omega
  have hTfe := roleStep_freshExt (isDivClass "top") mT "list-item__top"
    (s.nextId + 1) s.children s.nextId hT hmTids hmTb (by omega)
  have hTwf : WfForest T.1 T.2.2 := freshExt_wf hwf hTfe
  have hTex : ∃ n ∈ T.1, n.idOf = some T.2.1 :=
    roleStep_canonical_exists (isDivClass "top") mT "list-item__top"
      (s.nextId + 1) s.children s.nextId ⟨s.nextId, rfl⟩ (fun n h => isDivClass_idOf h)
  have hTec : T.1.countP (isDivClass "expandable-content") ≤ 1 := by
    rw [roleStep_countP (isDivClass "top") mT "list-item__top" (s.nextId + 1)
      s.children s.nextId "expandable-content" hT (by decide)
      (by simp [isDivClass, DNode.tagOf, DNode.hasClass, hmT])]
    exact hE
  set mE := DNode.elem T.2.2 "DIV" ["expandable-content"] [] [] with hmE
  have hmEids : mE.ids.Nodup := by
    show (T.2.2 :: idsForest []).Nodup
    simp [idsForest]
  have hmEb : ∀ i ∈ mE.ids, T.2.2 ≤ i ∧ i < T.2.2 + 1 := by
    intro i hi
    have : i ∈ T.2.2 :: idsForest [] := hi
    simp [idsForest] at this
    omega
  have hEfe := roleStep_freshExt (isDivClass "expandable-content") mE
    "list-item__expandable-content" (T.2.2 + 1) T.1 T.2.2 hTec hmEids hmEb (by omega)
  set E := roleStep (isDivClass "expandable-content") (some mE)
    "list-item__expandable-content" (T.2.2 + 1) T.1 T.2.2 with hEdef
  have hEwf : WfForest E.1 E.2.2 := freshExt_wf hTwf hEfe
  have hEex : ∃ n ∈ E.1, n.idOf = some T.2.1 :=
    roleStep_exists_id (isDivClass "expandable-content") mE
      "list-item__expandable-content" (T.2.2 + 1) T.1 T.2.2 hTec hTex
  set keepTop : DNode → Bool := fun n =>
    n.idOf == some T.2.1 || n.hasClass "expandable-content" || n.tagOf == "ONS-RIPPLE"
    with hkeepdef
  have hkeepimp : ∀ n, (n.idOf == some T.2.1) = true → keepTop n = true := by
    intro n h
    simp [hkeepdef, h]
  have hMfe := movePhase_freshExt keepTop T.2.1 hEwf hEex hkeepimp
  have hMex : ∃ n ∈ movePhase keepTop T.2.1 E.1, n.idOf = some T.2.1 := by
    obtain ⟨n, hmem, hid⟩ := hEex
    exact movePhase_exists_id keepTop T.2.1 E.1 ⟨n, hmem, hkeepimp n (by simp [hid]), hid⟩
  have hMwf : WfForest (movePhase keepTop T.2.1 E.1) E.2.2 := freshExt_wf hEwf hMfe
  exact ⟨freshExt_trans (freshExt_trans hTfe hEfe) hMfe, hMex, hMwf⟩

/-- C1 (amended): user-supplied children are preserved by compilation
provided the markup holds no duplicate wrapper nodes — at most one
candidate per role at the point the role is resolved (`div.top` and
`div.expandable-content` among the direct children when expandable,
`div.right` and `div.center` inside the content root).  Under that
hypothesis every element present before a `_compile` run is still present
(possibly relocated) afterwards, and the element count never decreases.
With duplicate wrappers the claim fails (see the counterexample): the
duplicate switch removes the first duplicate and its whole subtree. -/
theorem c1_user_content_preserved (s : ListItemState)
    (hwf : WfForest s.children s.nextId)
    (hexp : s.expandable = true →
      s.children.countP (isDivClass "top") ≤ 1 ∧
      s.children.countP (isDivClass "expandable-content") ≤ 1 ∧
      (childListOf (liPrefix s).topId (liPrefix s).children).countP (isDivClass "right") ≤ 1 ∧
      (childListOf (liPrefix s).topId (liPrefix s).children).countP (isDivClass "center") ≤ 1)
    (hflat : s.expandable = false →
      s.children.countP (isDivClass "right") ≤ 1 ∧
      s.children.countP (isDivClass "center") ≤ 1) :
    (∀ i ∈ idsForest s.children, i ∈ idsForest (listItemCompile s).children) ∧
    (idsForest s.children).length ≤ (idsForest (listItemCompile s).children).length := by
  cases hx : s.expandable with
  | false =>
      obtain ⟨hR, hC⟩ := hflat hx
      have hfe := lrc_freshExt false s.children s.nextId hwf hR hC
      have heq : (listItemCompile s).children = (lrc false s.children s.nextId).children := by
        unfold listItemCompile listItemCompileFull
        rw [hx]
        simp
      rw [heq]
      exact ⟨fun i hi => freshExt_mem hfe hi, freshExt_length hfe⟩
  | true =>
      obtain ⟨hT, hE, hR, hC⟩ := hexp hx
      obtain ⟨hfe1, hex, hwf1⟩ := liPrefix_freshExt s hwf hT hE
      have hwf2 : WfForest (childListOf (liPrefix s).topId (liPrefix s).children)
          (liPrefix s).nextId := wf_childListOf _ hwf1
      have hfe2 := lrc_freshExt true (childListOf (liPrefix s).topId (liPrefix s).children)
        (liPrefix s).nextId hwf2 hR hC
      have hcount : (liPrefix s).children.countP
          (fun n => n.idOf == some (liPrefix s).topId) = 1 := by
        obtain ⟨n, hmem, hid⟩ := hex
        exact countP_idOf_eq_one hwf1 hmem hid
      have hfe3 := mapChildListOf_freshExt (liPrefix s).topId hcount hfe2
      have htot := freshExt_trans hfe1 hfe3
      have heq : (listItemCompile s).children
          = mapChildListOf (liPrefix s).topId
              (fun _ => (lrc true (childListOf (liPrefix s).topId (liPrefix s).children)
                (liPrefix s).nextId).children)
              (liPrefix s).children := by
        unfold listItemCompile listItemCompileFull
        rw [hx]
        simp
      rw [heq]
      exact ⟨fun i hi => freshExt_mem htot hi, freshExt_length htot⟩

/-- C1 witness: the preservation theorem applied to an expandable list
item holding a text node and one expandable-content wrapper with content
(the repository test markup), checking that both user elements survive. -/
theorem c1_user_content_preserved_witness :
    WfForest [DNode.text "content", DNode.elem 0 "DIV" ["expandable-content"] [] [DNode.elem 1 "SPAN" [] [] []]] 2 ∧
    (∀ i ∈ idsForest [DNode.text "content", DNode.elem 0 "DIV" ["expandable-content"] [] [DNode.elem 1 "SPAN" [] [] []]],
      i ∈ idsForest (listItemCompile ⟨true, [DNode.text "content", DNode.elem 0 "DIV" ["expandable-content"] [] [DNode.elem 1 "SPAN" [] [] []]], 2⟩).children) := by
  constructor
  · unfold WfForest
    decide
  · exact (c1_user_content_preserved
      ⟨true, [DNode.text "content", DNode.elem 0 "DIV" ["expandable-content"] [] [DNode.elem 1 "SPAN" [] [] []]], 2⟩
      (by unfold WfForest; decide) (fun _ => by decide) (fun h => by simp at h)).1

theorem filter_map_eq_filter_of (q : DNode → Bool) (f : DNode → DNode) (cs : List DNode)
    (hq : ∀ n, q (f n) = q n) (hfix : ∀ n, q n = true → f n = n) :
    (cs.map f).filter q = cs.filter q := by
  induction cs with
  | nil => rfl
  | cons n rest ih =>
      rw [List.map_cons, List.filter_cons, List.filter_cons]
      by_cases hn : q n
      · rw [hq n, hn, if_pos rfl, if_pos rfl, hfix n hn, ih]
      · have hn2 : q n = false := by simpa using hn
        rw [hq n, hn2]
        simp only [Bool.false_eq_true, if_false]
        exact ih

theorem childListOf_mapChildListOf (tid : Nat) (newCh : List DNode) (cs : List DNode)
    (hex : ∃ n ∈ cs, n.idOf = some tid) :
    childListOf tid (mapChildListOf tid (fun _ => newCh) cs) = newCh := by
  induction cs with
  | nil => simp at hex
  | cons n rest ih =>
      by_cases hn : n.idOf = some tid
      · cases n with
        | elem i t c a ch =>
            have hi : i = tid := by simpa [DNode.idOf] using hn
            subst hi
            rw [mapChildListOf_cons_hit i _ t c a ch rest]
            rw [childListOf_cons_hit i _ _ (by rfl)]
            rfl
        | text s => simp [DNode.idOf] at hn
      · rw [mapChildListOf_cons tid _ n rest hn]
        rw [childListOf_cons_miss tid n _ hn]
        apply ih
        obtain ⟨m, hm, hid⟩ := hex
        rcases List.mem_cons.mp hm with rfl | hm2
        · exact absurd hid hn
        · exact ⟨m, hm2, hid⟩

theorem childListOf_movePhase (keep : DNode → Bool) (tid : Nat) (cs : List DNode)
    (hkeepimp : ∀ n, (n.idOf == some tid) = true → keep n = true)
    (hex : ∃ n ∈ cs, n.idOf = some tid) :
    childListOf tid (movePhase keep tid cs)
      = childListOf tid cs ++ cs.filter (fun n => !keep n) := by
  unfold movePhase
  set E := cs.filter (fun n => !keep n) with hEdef
  have main : ∀ l : List DNode, (∃ n ∈ l, n.idOf = some tid) →
      childListOf tid ((l.filter keep).map (appendInto tid E))
        = childListOf tid l ++ E := by
    intro l
    induction l with
    | nil => intro h; simp at h
    | cons n rest ih =>
        intro hexl
        by_cases hn : n.idOf = some tid
        · have hk : keep n = true := hkeepimp n (by simp [hn])
          rw [List.filter_cons, if_pos hk, List.map_cons]
          cases n with
          | elem i t c a ch =>
              have hi : i = tid := by simpa [DNode.idOf] using hn
              subst hi
              rw [childListOf_cons_hit i _ rest (by rfl)]
              have he : appendInto i E (DNode.elem i t c a ch) = DNode.elem i t c a (ch ++ E) := by
                simp [appendInto]
              rw [he, childListOf_cons_hit i _ _ (by rfl)]
              rfl
          | text s => simp [DNode.idOf] at hn
        · have hrest : ∃ m ∈ rest, m.idOf = some tid := by
            obtain ⟨m, hm, hid⟩ := hexl
            rcases List.mem_cons.mp hm with rfl | hm2
            · exact absurd hid hn
            · exact ⟨m, hm2, hid⟩
          rw [childListOf_cons_miss tid n rest hn]
          by_cases hk : keep n
          · rw [List.filter_cons, if_pos hk, List.map_cons]
            rw [appendInto_eq_self tid E n hn]
            rw [childListOf_cons_miss tid n _ hn]
            exact ih hrest
          · have hk2 : keep n = false := by simpa using hk
            rw [List.filter_cons, hk2]
            simp only [Bool.false_eq_true, if_false]
            exact ih hrest
  exact main cs hex

theorem appendInto_tagOf (tid : Nat) (e : List DNode) (n : DNode) :
    (appendInto tid e n).tagOf = n.tagOf := by
  cases n with
  | elem i t c a ch => by_cases h : i == tid <;> simp [appendInto, h, DNode.tagOf]
  | text s => rfl

theorem lrcKeep_addClass (l r : Option Nat) (c : Nat) (c2 : String) (n : DNode) :
    lrcKeep l r c (n.addClass c2) = lrcKeep l r c n := by
  unfold lrcKeep
  rw [addClass_idOf, addClass_tagOf]

theorem lrcKeep_appendInto (l r : Option Nat) (c : Nat) (tid : Nat) (e : List DNode) (n : DNode) :
    lrcKeep l r c (appendInto tid e n) = lrcKeep l r c n := by
  unfold lrcKeep
  rw [appendInto_idOf, appendInto_tagOf]

theorem movePhase_all_keep (keep : DNode → Bool) (tid : Nat) (cs : List DNode)
    (hinv : ∀ e n, keep (appendInto tid e n) = keep n) :
    ∀ n ∈ movePhase keep tid cs, keep n = true := by
  intro n hn
  unfold movePhase at hn
  obtain ⟨m, hm, rfl⟩ := List.mem_map.mp hn
  rw [hinv]
  exact (List.mem_filter.mp hm).2

theorem lrcLeftStep_eq_none (cs : List DNode)
    (h : (cs.find? (isDivClass "left")).bind DNode.idOf = none) :
    lrcLeftStep cs = (cs, none) := by
  unfold lrcLeftStep
  rw [h]

theorem lrcLeftStep_eq_some (cs : List DNode) (l : Nat)
    (h : (cs.find? (isDivClass "left")).bind DNode.idOf = some l) :
    lrcLeftStep cs = (tagClass l "list-item__left" cs, some l) := by
  unfold lrcLeftStep
  rw [h]

theorem tagClass_filter (i : Nat) (c2 : String) (cs : List DNode) (q : DNode → Bool)
    (hq : ∀ n, q (n.addClass c2) = q n)
    (hfix : ∀ n, n.idOf = some i → q n = false) :
    (tagClass i c2 cs).filter q = cs.filter q := by
  unfold tagClass
  apply filter_map_eq_filter_of
  · intro n
    by_cases hn : (n.idOf == some i) = true
    · rw [if_pos hn, hq]
    · rw [if_neg hn]
  · intro n hqn
    by_cases hn : (n.idOf == some i) = true
    · exact absurd (hfix n (by simpa using hn)) (by simp [hqn])
    · rw [if_neg hn]

theorem mem_ids_of_idOf {n : DNode} {i : Nat} (h : n.idOf = some i) : i ∈ n.ids := by
  cases n with
  | elem j t c a ch =>
      have hj : j = i := by simpa [DNode.idOf] using h
      subst hj
      show j ∈ j :: idsForest ch
      exact List.mem_cons_self j _
  | text s => simp [DNode.idOf] at h

theorem mem_eq_of_nodup_ids {cs : List DNode} (hnd : (idsForest cs).Nodup)
    {x y : DNode} {i : Nat} (hx : x ∈ cs) (hy : y ∈ cs)
    (hxi : i ∈ x.ids) (hyi : i ∈ y.ids) : x = y := by
  induction cs with
  | nil => cases hx
  | cons m ms ih =>
      rw [idsForest_cons] at hnd
      obtain ⟨h1, h2, h3⟩ := List.nodup_append.mp hnd
      rcases List.mem_cons.mp hx with rfl | hx2
      · rcases List.mem_cons.mp hy with rfl | hy2
        · rfl
        · exact absurd ((ids_sublist_of_mem hy2).mem hyi) (h3 hxi)
      · rcases List.mem_cons.mp hy with rfl | hy2
        · exact absurd ((ids_sublist_of_mem hx2).mem hxi) (h3 hyi)
        · exact ih h2 hx2 hy2

theorem filter_map_eq_filter_of_mem (q : DNode → Bool) (f : DNode → DNode) (cs : List DNode)
    (hq : ∀ n ∈ cs, q (f n) = q n) (hfix : ∀ n ∈ cs, q n = true → f n = n) :
    (cs.map f).filter q = cs.filter q := by
  induction cs with
  | nil => rfl
  | cons n rest ih =>
      rw [List.map_cons, List.filter_cons, List.filter_cons]
      have hqn := hq n (List.mem_cons_self n rest)
      have ih2 := ih (fun m hm => hq m (List.mem_cons_of_mem n hm))
        (fun m hm => hfix m (List.mem_cons_of_mem n hm))
      by_cases hn : q n
      · rw [hqn, hn, if_pos rfl, if_pos rfl, hfix n (List.mem_cons_self n rest) hn, ih2]
      · have hn2 : q n = false := by simpa using hn
        rw [hqn, hn2]
        simp only [Bool.false_eq_true, if_false]
        exact ih2

theorem tagClass_filter_mem (i : Nat) (c2 : String) (cs : List DNode) (q : DNode → Bool)
    (hq : ∀ n, q (n.addClass c2) = q n)
    (hfix : ∀ n ∈ cs, n.idOf = some i → q n = false) :
    (tagClass i c2 cs).filter q = cs.filter q := by
  unfold tagClass
  apply filter_map_eq_filter_of_mem
  · intro n _
    by_cases hn : (n.idOf == some i) = true
    · rw [if_pos hn, hq]
    · rw [if_neg hn]
  · intro n hmem hqn
    by_cases hn : (n.idOf == some i) = true
    · exact absurd (hfix n hmem (by simpa using hn)) (by simp [hqn])
    · rw [if_neg hn]

theorem liKeepTop_addClass (tid : Nat) (c2 : String) (h : ¬("expandable-content" = c2))
    (n : DNode) : liKeepTop tid (n.addClass c2) = liKeepTop tid n := by
  unfold liKeepTop
  rw [addClass_idOf, addClass_tagOf, addClass_hasClass _ c2 n h]

theorem lrcLeftStep_filter (cs0 : List DNode) (q : DNode → Bool)
    (hq : ∀ n, q (n.addClass "list-item__left") = q n)
    (hfix : ∀ n l, (lrcLeftStep cs0).2 = some l → n.idOf = some l → q n = false) :
    (lrcLeftStep cs0).1.filter q = cs0.filter q := by
  cases hf : (cs0.find? (isDivClass "left")).bind DNode.idOf with
  | none => rw [lrcLeftStep_eq_none cs0 hf]
  | some l =>
      have h := lrcLeftStep_eq_some cs0 l hf
      rw [h]
      exact tagClass_filter l _ cs0 q hq (fun n hn => hfix n l (by rw [h]) hn)

theorem lrcRightStep_filter (exp : Bool) (cs : List DNode) (k : Nat) (q : DNode → Bool)
    (hcount : cs.countP (isDivClass "right") ≤ 1)
    (hq : ∀ n, q (n.addClass "list-item__right") = q n)
    (hfix : ∀ n r, (lrcRightStep exp cs k).2.1 = some r → n.idOf = some r → q n = false) :
    (lrcRightStep exp cs k).1.filter q = cs.filter q := by
  rcases hf : cs.filter (isDivClass "right") with _ | ⟨x0, _ | ⟨x1, rest2⟩⟩
  · cases exp with
    | false => rw [lrcRightStep_eq_none cs k hf]
    | true =>
        have h := lrcRightStep_eq_create cs k hf
        have hfix2 : ∀ n, n.idOf = some (k + 1) → q n = false :=
          fun n hn => hfix n (k + 1) (by rw [h]) hn
        have h1 := tagClass_filter (k + 1) "list-item__right"
          (DNode.elem (k + 1) "DIV" ["right"] []
            [DNode.elem k "SPAN" ["list-item__expand-chevron"] [] []] :: cs) q hq hfix2
        have hqm : q (DNode.elem (k + 1) "DIV" ["right"] []
            [DNode.elem k "SPAN" ["list-item__expand-chevron"] [] []]) = false := hfix2 _ rfl
        rw [h]
        exact h1.trans (by rw [List.filter_cons, hqm]; simp)
  · have hx0f : x0 ∈ cs.filter (isDivClass "right") := by rw [hf]; simp
    obtain ⟨j, hj⟩ := isDivClass_idOf (List.mem_filter.mp hx0f).2
    have h := lrcRightStep_eq_one exp cs k x0 j hf hj
    rw [h]
    exact tagClass_filter j _ cs q hq (fun n hn => hfix n j (by rw [h]) hn)
  · exfalso
    have hlen : cs.countP (isDivClass "right") = (cs.filter (isDivClass "right")).length :=
      List.countP_eq_length_filter _ cs
    rw [hf] at hlen
    simp at hlen
    omega

theorem roleStep_filter_id (p : DNode → Bool) (m : DNode) (j : Nat) (tag : String)
    (kNext : Nat) (cs : List DNode) (k : Nat) (q : DNode → Bool)
    (hcount : cs.countP p ≤ 1)
    (hp : ∀ n, p n = true → ∃ i, n.idOf = some i)
    (hmj : m.idOf = some j)
    (hq : ∀ n, q (n.addClass tag) = q n)
    (hfix : ∀ n, n.idOf = some (roleStep p (some m) tag kNext cs k).2.1 → q n = false) :
    (roleStep p (some m) tag kNext cs k).1.filter q = cs.filter q := by
  rcases hf : cs.filter p with _ | ⟨x0, _ | ⟨x1, rest2⟩⟩
  · have hd := dedupFront_zero_some p m cs hf
    have hrs : roleStep p (some m) tag kNext cs k = (tagClass j tag (m :: cs), j, kNext) := by
      simp only [roleStep]
      rw [hd]
      simp [hmj]
    have hfixj : ∀ n, n.idOf = some j → q n = false := by
      intro n hn
      exact hfix n (by rw [hrs]; exact hn)
    have hqm : q m = false := hfixj m hmj
    rw [show (roleStep p (some m) tag kNext cs k).1 = tagClass j tag (m :: cs) from by rw [hrs]]
    have htc := tagClass_filter j tag (m :: cs) q hq hfixj
    rw [htc, List.filter_cons, hqm]
    simp
  · have hd := dedupFront_one p (some m) cs x0 hf
    have hx0f : x0 ∈ cs.filter p := by rw [hf]; simp
    obtain ⟨j0, hj0⟩ := hp x0 (List.mem_filter.mp hx0f).2
    have hrs : roleStep p (some m) tag kNext cs k = (tagClass j0 tag cs, j0, k) := by
      simp only [roleStep]
      rw [hd]
      simp [hj0]
    have hfixj : ∀ n, n.idOf = some j0 → q n = false := by
      intro n hn
      exact hfix n (by rw [hrs]; exact hn)
    rw [show (roleStep p (some m) tag kNext cs k).1 = tagClass j0 tag cs from by rw [hrs]]
    exact tagClass_filter j0 tag cs q hq hfixj
  · exfalso
    have hlen : cs.countP p = (cs.filter p).length := List.countP_eq_length_filter p cs
    rw [hf] at hlen
    simp at hlen
    omega

theorem roleStep_filter_prop (p : DNode → Bool) (m : DNode) (tag : String)
    (kNext : Nat) (cs : List DNode) (k kk : Nat) (q : DNode → Bool)
    (hcount : cs.countP p ≤ 1)
    (hwf : WfForest cs kk)
    (hmfresh : ∀ i ∈ m.ids, kk ≤ i)
    (hp : ∀ n, p n = true → ∃ i, n.idOf = some i)
    (hmp : p m = true)
    (hq : ∀ n, q (n.addClass tag) = q n)
    (hqp : ∀ n, p n = true → q n = false) :
    (roleStep p (some m) tag kNext cs k).1.filter q = cs.filter q := by
  rcases hf : cs.filter p with _ | ⟨x0, _ | ⟨x1, rest2⟩⟩
  · have hd := dedupFront_zero_some p m cs hf
    obtain ⟨j, hmj⟩ := hp m hmp
    have hqm : q m = false := hqp m hmp
    have hrs : roleStep p (some m) tag kNext cs k = (tagClass j tag (m :: cs), j, kNext) := by
      simp only [roleStep]
      rw [hd]
      simp [hmj]
    have hfixmem : ∀ n ∈ (m :: cs), n.idOf = some j → q n = false := by
      intro n hmem hn
      rcases List.mem_cons.mp hmem with rfl | hmem2
      · exact hqm
      · exfalso
        have hj2 : j ∈ idsForest cs := (ids_sublist_of_mem hmem2).mem (mem_ids_of_idOf hn)
        have hb1 := hwf.2 j hj2
        have hb2 := hmfresh j (mem_ids_of_idOf hmj)
        omega
    rw [show (roleStep p (some m) tag kNext cs k).1 = tagClass j tag (m :: cs) from by rw [hrs]]
    have htc := tagClass_filter_mem j tag (m :: cs) q hq hfixmem
    rw [htc, List.filter_cons, hqm]
    simp
  · have hd := dedupFront_one p (some m) cs x0 hf
    have hx0f : x0 ∈ cs.filter p := by rw [hf]; simp
    have hx0 : x0 ∈ cs := (List.mem_filter.mp hx0f).1
    have hpx0 : p x0 = true := (List.mem_filter.mp hx0f).2
    obtain ⟨j0, hj0⟩ := hp x0 hpx0
    have hqx0 : q x0 = false := hqp x0 hpx0
    have hrs : roleStep p (some m) tag kNext cs k = (tagClass j0 tag cs, j0, k) := by
      simp only [roleStep]
      rw [hd]
      simp [hj0]
    rw [show (roleStep p (some m) tag kNext cs k).1 = tagClass j0 tag cs from by rw [hrs]]
    apply tagClass_filter_mem j0 tag cs q hq
    intro n hmem hn
    have hne : n = x0 :=
      mem_eq_of_nodup_ids hwf.1 hmem hx0 (mem_ids_of_idOf hn) (mem_ids_of_idOf hj0)
    rw [hne]
    exact hqx0
  · exfalso
    have hlen : cs.countP p = (cs.filter p).length := List.countP_eq_length_filter p cs
    rw [hf] at hlen
    simp at hlen
    omega

theorem lrc_relocation (exp : Bool) (cs0 : List DNode) (k0 : Nat)
    (hRc : cs0.countP (isDivClass "right") ≤ 1)
    (hCc : cs0.countP (isDivClass "center") ≤ 1) :
    (∀ n ∈ (lrc exp cs0 k0).children,
        lrcKeep (lrc exp cs0 k0).leftId (lrc exp cs0 k0).rightId (lrc exp cs0 k0).centerId n
          = true) ∧
    (∃ pre, childListOf (lrc exp cs0 k0).centerId (lrc exp cs0 k0).children
        = pre ++ cs0.filter (fun n =>
            !(lrcKeep (lrc exp cs0 k0).leftId (lrc exp cs0 k0).rightId
              (lrc exp cs0 k0).centerId n))) := by
  set L := lrcLeftStep cs0 with hLd
  set R := lrcRightStep exp L.1 k0 with hRd
  set C := roleStep (isDivClass "center") (some (DNode.elem R.2.2 "DIV" ["center"] [] []))
    "list-item__center" (R.2.2 + 1) R.1 R.2.2 with hCd
  show (∀ n ∈ movePhase (lrcKeep L.2 R.2.1 C.2.1) C.2.1 C.1,
        lrcKeep L.2 R.2.1 C.2.1 n = true) ∧
    (∃ pre, childListOf C.2.1 (movePhase (lrcKeep L.2 R.2.1 C.2.1) C.2.1 C.1)
        = pre ++ cs0.filter (fun n => !(lrcKeep L.2 R.2.1 C.2.1 n)))
  constructor
  · exact movePhase_all_keep (lrcKeep L.2 R.2.1 C.2.1) C.2.1 C.1
      (fun e n => lrcKeep_appendInto L.2 R.2.1 C.2.1 C.2.1 e n)
  · have hex : ∃ n ∈ C.1, n.idOf = some C.2.1 :=
      roleStep_canonical_exists (isDivClass "center") (DNode.elem R.2.2 "DIV" ["center"] [] [])
        "list-item__center" (R.2.2 + 1) R.1 R.2.2 ⟨R.2.2, rfl⟩ (fun n h => isDivClass_idOf h)
    have hkeepimp : ∀ n, (n.idOf == some C.2.1) = true → lrcKeep L.2 R.2.1 C.2.1 n = true := by
      intro n h
      simp [lrcKeep, h]
    have h1 := childListOf_movePhase (lrcKeep L.2 R.2.1 C.2.1) C.2.1 C.1 hkeepimp hex
    have hLc : L.1.countP (isDivClass "center") = cs0.countP (isDivClass "center") :=
      lrcLeftStep_countP cs0 "center" (by decide)
    have hLr : L.1.countP (isDivClass "right") = cs0.countP (isDivClass "right") :=
      lrcLeftStep_countP cs0 "right" (by decide)
    have hLr1 : L.1.countP (isDivClass "right") ≤ 1 := by rw [hLr]; exact hRc
    have hRcEq : R.1.countP (isDivClass "center") = L.1.countP (isDivClass "center") :=
      (lrcRightStep_freshExt exp L.1 k0 hLr1).2
    have hRc1 : R.1.countP (isDivClass "center") ≤ 1 := by rw [hRcEq, hLc]; exact hCc
    have hfixC : ∀ n, n.idOf = some (roleStep (isDivClass "center")
        (some (DNode.elem R.2.2 "DIV" ["center"] [] [])) "list-item__center"
        (R.2.2 + 1) R.1 R.2.2).2.1 → (fun n => !(lrcKeep L.2 R.2.1 C.2.1 n)) n = false := by
      intro n hn
      have hn2 : n.idOf = some C.2.1 := hn
      simp [lrcKeep, hn2]
    have hqaC : ∀ n, (fun n => !(lrcKeep L.2 R.2.1 C.2.1 n)) (n.addClass "list-item__center")
        = (fun n => !(lrcKeep L.2 R.2.1 C.2.1 n)) n := by
      intro n
      simp only [lrcKeep_addClass]
    have h2 : C.1.filter (fun n => !(lrcKeep L.2 R.2.1 C.2.1 n))
        = R.1.filter (fun n => !(lrcKeep L.2 R.2.1 C.2.1 n)) :=
      roleStep_filter_id (isDivClass "center") (DNode.elem R.2.2 "DIV" ["center"] [] [])
        R.2.2 "list-item__center" (R.2.2 + 1) R.1 R.2.2
        (fun n => !(lrcKeep L.2 R.2.1 C.2.1 n)) hRc1 (fun n h => isDivClass_idOf h) rfl hqaC hfixC
    have hfixR : ∀ n r, (lrcRightStep exp L.1 k0).2.1 = some r → n.idOf = some r →
        (fun n => !(lrcKeep L.2 R.2.1 C.2.1 n)) n = false := by
      intro n r hr hn
      have hr2 : R.2.1 = some r := hr
      simp [lrcKeep, hr2, hn]
    have hqaR : ∀ n, (fun n => !(lrcKeep L.2 R.2.1 C.2.1 n)) (n.addClass "list-item__right")
        = (fun n => !(lrcKeep L.2 R.2.1 C.2.1 n)) n := by
      intro n
      simp only [lrcKeep_addClass]
    have h3 : R.1.filter (fun n => !(lrcKeep L.2 R.2.1 C.2.1 n))
        = L.1.filter (fun n => !(lrcKeep L.2 R.2.1 C.2.1 n)) :=
      lrcRightStep_filter exp L.1 k0 (fun n => !(lrcKeep L.2 R.2.1 C.2.1 n)) hLr1 hqaR hfixR
    have hfixL : ∀ n l, (lrcLeftStep cs0).2 = some l → n.idOf = some l →
        (fun n => !(lrcKeep L.2 R.2.1 C.2.1 n)) n = false := by
      intro n l hl hn
      have hl2 : L.2 = some l := hl
      simp [lrcKeep, hl2, hn]
    have hqaL : ∀ n, (fun n => !(lrcKeep L.2 R.2.1 C.2.1 n)) (n.addClass "list-item__left")
        = (fun n => !(lrcKeep L.2 R.2.1 C.2.1 n)) n := by
      intro n
      simp only [lrcKeep_addClass]
    have h4 : L.1.filter (fun n => !(lrcKeep L.2 R.2.1 C.2.1 n))
        = cs0.filter (fun n => !(lrcKeep L.2 R.2.1 C.2.1 n)) :=
      lrcLeftStep_filter cs0 (fun n => !(lrcKeep L.2 R.2.1 C.2.1 n)) hqaL hfixL
    exact ⟨childListOf C.2.1 C.1, by rw [h1, h2, h3, h4]⟩

theorem liPrefix_stray (s : ListItemState)
    (hwf : WfForest s.children s.nextId)
    (hT : s.children.countP (isDivClass "top") ≤ 1)
    (hE : s.children.countP (isDivClass "expandable-content") ≤ 1) :
    ∃ pre, childListOf (liPrefix s).topId (liPrefix s).children
      = pre ++ s.children.filter (fun n => !(liKeepTop (liPrefix s).topId n)) := by
  set mT := DNode.elem s.nextId "DIV" ["top"] [] [] with hmT
  set T := roleStep (isDivClass "top") (some mT) "list-item__top" (s.nextId + 1)
    s.children s.nextId with hTd
  set mE := DNode.elem T.2.2 "DIV" ["expandable-content"] [] [] with hmE
  set E := roleStep (isDivClass "expandable-content") (some mE)
    "list-item__expandable-content" (T.2.2 + 1) T.1 T.2.2 with hEd
  have hmTids : mT.ids.Nodup := by
    show (s.nextId :: idsForest []).Nodup
    simp [idsForest]
  have hmTb : ∀ i ∈ mT.ids, s.nextId ≤ i ∧ i < s.nextId + 1 := by
    intro i hi
    have : i ∈ s.nextId :: idsForest [] := hi
    simp [idsForest] at this
    omega
  have hTfe := roleStep_freshExt (isDivClass "top") mT "list-item__top"
    (s.nextId + 1) s.children s.nextId hT hmTids hmTb (by omega)
  have hTwf : WfForest T.1 T.2.2 := freshExt_wf hwf hTfe
  have hTex : ∃ n ∈ T.1, n.idOf = some T.2.1 :=
    roleStep_canonical_exists (isDivClass "top") mT "list-item__top"
      (s.nextId + 1) s.children s.nextId ⟨s.nextId, rfl⟩ (fun n h => isDivClass_idOf h)
  have hTec : T.1.countP (isDivClass "expandable-content") ≤ 1 := by
    rw [roleStep_countP (isDivClass "top") mT "list-item__top" (s.nextId + 1)
      s.children s.nextId "expandable-content" hT (by decide)
      (by simp [isDivClass, DNode.tagOf, DNode.hasClass, hmT])]
    exact hE
  have hEex : ∃ n ∈ E.1, n.idOf = some T.2.1 :=
    roleStep_exists_id (isDivClass "expandable-content") mE
      "list-item__expandable-content" (T.2.2 + 1) T.1 T.2.2 hTec hTex
  have hkeepimp : ∀ n, (n.idOf == some T.2.1) = true → liKeepTop T.2.1 n = true := by
    intro n h
    simp [liKeepTop, h]
  have h1 := childListOf_movePhase (liKeepTop T.2.1) T.2.1 E.1 hkeepimp hEex
  have hqaE : ∀ n, (fun n => !(liKeepTop T.2.1 n)) (n.addClass "list-item__expandable-content")
      = (fun n => !(liKeepTop T.2.1 n)) n := by
    intro n
    simp only [liKeepTop_addClass T.2.1 "list-item__expandable-content" (by decide) n]
  have hqp : ∀ n, isDivClass "expandable-content" n = true →
      (fun n => !(liKeepTop T.2.1 n)) n = false := by
    intro n h
    unfold isDivClass at h
    simp only [Bool.and_eq_true] at h
    simp [liKeepTop, h.2]
  have hmfresh : ∀ i ∈ mE.ids, T.2.2 ≤ i := by
    intro i hi
    have : i ∈ T.2.2 :: idsForest [] := hi
    simp [idsForest] at this
    omega
  have hmp : isDivClass "expandable-content" mE = true := by
    simp [isDivClass, DNode.tagOf, DNode.hasClass, hmE]
  have h2 : E.1.filter (fun n => !(liKeepTop T.2.1 n))
      = T.1.filter (fun n => !(liKeepTop T.2.1 n)) :=
    roleStep_filter_prop (isDivClass "expandable-content") mE
      "list-item__expandable-content" (T.2.2 + 1) T.1 T.2.2 T.2.2
      (fun n => !(liKeepTop T.2.1 n)) hTec hTwf hmfresh
      (fun n h => isDivClass_idOf h) hmp hqaE hqp
  have hqaT : ∀ n, (fun n => !(liKeepTop T.2.1 n)) (n.addClass "list-item__top")
      = (fun n => !(liKeepTop T.2.1 n)) n := by
    intro n
    simp only [liKeepTop_addClass T.2.1 "list-item__top" (by decide) n]
  have hfixT : ∀ n, n.idOf = some (roleStep (isDivClass "top") (some mT) "list-item__top"
      (s.nextId + 1) s.children s.nextId).2.1 → (fun n => !(liKeepTop T.2.1 n)) n = false := by
    intro n hn
    have hn2 : n.idOf = some T.2.1 := hn
    simp [liKeepTop, hn2]
  have h3 : T.1.filter (fun n => !(liKeepTop T.2.1 n))
      = s.children.filter (fun n => !(liKeepTop T.2.1 n)) :=
    roleStep_filter_id (isDivClass "top") mT s.nextId "list-item__top" (s.nextId + 1)
      s.children s.nextId (fun n => !(liKeepTop T.2.1 n)) hT
      (fun n h => isDivClass_idOf h) rfl hqaT hfixT
  refine ⟨childListOf T.2.1 E.1, ?_⟩
  show childListOf T.2.1 (movePhase (liKeepTop T.2.1) T.2.1 E.1)
      = childListOf T.2.1 E.1 ++ s.children.filter (fun n => !(liKeepTop T.2.1 n))
  rw [h1, h2, h3]

/-- C6 (amended): the catch-all relocation of `ListItemElement._compile`,
under the no-duplicate-wrapper hypotheses (at most one candidate per role
at the point the role is resolved).  In non-expandable mode the claim
holds as frozen: after compilation every direct child is a canonical
left/right/center wrapper or an ONS-RIPPLE element, and the children that
were neither are appended, preserving their relative order, at the end of
the center wrapper's child list; the last conjunct checks the end-to-end
instance `<ons-list-item><div></div></ons-list-item>`, whose div ends
inside an auto-created `div.center` carrying `list-item__center`.  In
expandable mode the claim as frozen fails (see the counterexample): the
exempt set must also include the nodes carrying the `expandable-content`
class; with that amendment every stray direct child is first appended, in
order, to the top wrapper's child list, and after the full run it lives
inside the top wrapper's subtree. -/
theorem c6_catch_all_relocation (s : ListItemState)
    (hwf : WfForest s.children s.nextId)
    (hexp : s.expandable = true →
      s.children.countP (isDivClass "top") ≤ 1 ∧
      s.children.countP (isDivClass "expandable-content") ≤ 1 ∧
      (childListOf (liPrefix s).topId (liPrefix s).children).countP (isDivClass "right") ≤ 1 ∧
      (childListOf (liPrefix s).topId (liPrefix s).children).countP (isDivClass "center") ≤ 1)
    (hflat : s.expandable = false →
      s.children.countP (isDivClass "right") ≤ 1 ∧
      s.children.countP (isDivClass "center") ≤ 1) :
    (s.expandable = false →
      (∀ n ∈ (listItemCompileFull s).children,
        lrcKeep (listItemCompileFull s).leftId (listItemCompileFull s).rightId
          (listItemCompileFull s).centerId n = true) ∧
      (∃ pre, childListOf (listItemCompileFull s).centerId (listItemCompileFull s).children
        = pre ++ s.children.filter (fun n =>
            !(lrcKeep (listItemCompileFull s).leftId (listItemCompileFull s).rightId
              (listItemCompileFull s).centerId n)))) ∧
    (s.expandable = true →
      (∃ pre, childListOf (liPrefix s).topId (liPrefix s).children
        = pre ++ s.children.filter (fun n => !(liKeepTop (liPrefix s).topId n))) ∧
      (∀ n ∈ s.children, ∀ i, n.idOf = some i →
        liKeepTop (liPrefix s).topId n = false →
        i ∈ idsForest (childListOf (liPrefix s).topId (listItemCompileFull s).children))) ∧
    (childListOf (listItemCompileFull ⟨false, [DNode.elem 0 "DIV" [] [] []], 1⟩).centerId
        (listItemCompileFull ⟨false, [DNode.elem 0 "DIV" [] [] []], 1⟩).children
      = [DNode.elem 0 "DIV" [] [] []] ∧
    ∃ n ∈ (listItemCompileFull ⟨false, [DNode.elem 0 "DIV" [] [] []], 1⟩).children,
      n.idOf = some (listItemCompileFull ⟨false, [DNode.elem 0 "DIV" [] [] []], 1⟩).centerId ∧
      n.hasClass "center" = true ∧ n.hasClass "list-item__center" = true) := by
  refine ⟨?_, ?_, ?_, ?_⟩
  · intro hx
    obtain ⟨hRc, hCc⟩ := hflat hx
    have heqc : (listItemCompileFull s).children = (lrc false s.children s.nextId).children := by
      unfold listItemCompileFull
      rw [hx]
      simp
    have heql : (listItemCompileFull s).leftId = (lrc false s.children s.nextId).leftId := by
      unfold listItemCompileFull
      rw [hx]
      simp
    have heqr : (listItemCompileFull s).rightId = (lrc false s.children s.nextId).rightId := by
      unfold listItemCompileFull
      rw [hx]
      simp
    have heqi : (listItemCompileFull s).centerId = (lrc false s.children s.nextId).centerId := by
      unfold listItemCompileFull
      rw [hx]
      simp
    rw [heqc, heql, heqr, heqi]
    exact lrc_relocation false s.children s.nextId hRc hCc
  · intro hx
    obtain ⟨hTc, hEc, hRc, hCc⟩ := hexp hx
    refine ⟨liPrefix_stray s hwf hTc hEc, ?_⟩
    intro n hn i hid hkf
    have hstray : n ∈ s.children.filter (fun m => !(liKeepTop (liPrefix s).topId m)) :=
      List.mem_filter.mpr ⟨hn, by simp [hkf]⟩
    obtain ⟨pre, hp⟩ := liPrefix_stray s hwf hTc hEc
    have hmem1 : n ∈ childListOf (liPrefix s).topId (liPrefix s).children := by
      rw [hp]
      exact List.mem_append.mpr (Or.inr hstray)
    have hi1 : i ∈ idsForest (childListOf (liPrefix s).topId (liPrefix s).children) :=
      (mem_idsForest i _).mpr ⟨n, hmem1, mem_ids_of_idOf hid⟩
    obtain ⟨hfe1, hex, hwf1⟩ := liPrefix_freshExt s hwf hTc hEc
    have hwf2 : WfForest (childListOf (liPrefix s).topId (liPrefix s).children)
        (liPrefix s).nextId := wf_childListOf _ hwf1
    have hfe2 := lrc_freshExt true (childListOf (liPrefix s).topId (liPrefix s).children)
      (liPrefix s).nextId hwf2 hRc hCc
    have hi2 : i ∈ idsForest (lrc true (childListOf (liPrefix s).topId (liPrefix s).children)
        (liPrefix s).nextId).children := freshExt_mem hfe2 hi1
    have heq : (listItemCompileFull s).children
        = mapChildListOf (liPrefix s).topId
            (fun _ => (lrc true (childListOf (liPrefix s).topId (liPrefix s).children)
              (liPrefix s).nextId).children)
            (liPrefix s).children := by
      unfold listItemCompileFull
      rw [hx]
      simp
    rw [heq, childListOf_mapChildListOf (liPrefix s).topId _ (liPrefix s).children hex]
    exact hi2
  · rfl
  · decide

/-- C6 witness: the relocation theorem applied to a non-expandable list
item holding a single plain div, checking that the div ends up appended
to the center wrapper's child list. -/
theorem c6_catch_all_relocation_witness :
    WfForest [DNode.elem 0 "DIV" [] [] []] 1 ∧
    (∃ pre, childListOf (listItemCompileFull ⟨false, [DNode.elem 0 "DIV" [] [] []], 1⟩).centerId
        (listItemCompileFull ⟨false, [DNode.elem 0 "DIV" [] [] []], 1⟩).children
      = pre ++ [DNode.elem 0 "DIV" [] [] []].filter (fun n =>
          !(lrcKeep (listItemCompileFull ⟨false, [DNode.elem 0 "DIV" [] [] []], 1⟩).leftId
              (listItemCompileFull ⟨false, [DNode.elem 0 "DIV" [] [] []], 1⟩).rightId
              (listItemCompileFull ⟨false, [DNode.elem 0 "DIV" [] [] []], 1⟩).centerId n))) := by
  refine ⟨by unfold WfForest; decide, ?_⟩
  exact ((c6_catch_all_relocation ⟨false, [DNode.elem 0 "DIV" [] [] []], 1⟩
    (by unfold WfForest; decide)
    (fun h => absurd h (by decide))
    (fun _ => by decide)).1 rfl).2

theorem eraseP_first_ids {p : DNode → Bool} {cs : List DNode} {x0 : DNode} {tl : List DNode}
    (hnd : (idsForest cs).Nodup) (hf : cs.filter p = x0 :: tl)
    {i0 : Nat} (h0 : i0 ∈ x0.ids) : i0 ∉ idsForest (cs.eraseP p) := by
  induction cs with
  | nil => simp at hf
  | cons n ns ih =>
      rw [idsForest_cons] at hnd
      obtain ⟨hn1, hn2, hn3⟩ := List.nodup_append.mp hnd
      rw [List.filter_cons] at hf
      by_cases hp : p n
      · have hpt : p n = true := by simpa using hp
        rw [List.eraseP_cons, hpt, cond_true]
        simp only [hpt, if_true] at hf
        injection hf with hx htl
        intro hmem
        exact hn3 (show i0 ∈ n.ids by rw [hx]; exact h0) hmem
      · have hpf : p n = false := by simpa using hp
        rw [List.eraseP_cons, hpf, cond_false]
        simp only [hpf, Bool.false_eq_true, if_false] at hf
        rw [idsForest_cons]
        intro hmem
        rcases List.mem_append.mp hmem with hin | hins
        · have hx0f : x0 ∈ ns.filter p := by rw [hf]; simp
          exact hn3 hin ((ids_sublist_of_mem (List.mem_filter.mp hx0f).1).mem h0)
        · exact ih hn2 hf hins

theorem mem_removeIds {ids : List Nat} {cs : List DNode} {n : DNode} (hn : n ∈ cs)
    (h : ∀ i, n.idOf = some i → i ∉ ids) : n ∈ removeIds ids cs := by
  unfold removeIds
  refine List.mem_filter.mpr ⟨hn, ?_⟩
  cases hid : n.idOf with
  | none => rfl
  | some i =>
      have hni := h i hid
      simp [hni]

theorem removeIds_no_id {ids : List Nat} {cs : List DNode} {j : Nat} (hj : j ∈ ids) :
    ∀ n ∈ removeIds ids cs, ¬(n.idOf = some j) := by
  intro n hn he
  unfold removeIds at hn
  have hp := (List.mem_filter.mp hn).2
  rw [he] at hp
  simp at hp
  exact hp hj

/-- C3 (amended): duplicate-wrapper policy at the duplicate switches.  For
the four list-item roles (shared switch `roleStep`/`dedupFront`, first
group of hypotheses) the claim holds: with at least two duplicate wrapper
children, the first duplicate is removed from the tree (its whole subtree
disappears) and the second duplicate in document order is adopted as the
canonical wrapper and survives compilation of the switch.  For the input
of a tab (second group) the claim as frozen is wrong (see the
counterexample): `_compile` adopts the FIRST input in document order and
removes all later duplicates. -/
theorem c3_duplicate_policy
    (p : DNode → Bool) (mk : Option DNode) (tag : String) (kNext : Nat)
    (cs : List DNode) (k kk : Nat) (x0 x1 : DNode) (rest : List DNode) (i0 i1 : Nat)
    (csT : List DNode) (kT kkT : Nat) (y0 y1 : DNode) (restT : List DNode) (j0 j1 : Nat)
    (hwf : WfForest cs kk)
    (hf : cs.filter p = x0 :: x1 :: rest)
    (h0 : x0.idOf = some i0) (h1 : x1.idOf = some i1)
    (hwfT : WfForest csT kkT)
    (hfT : csT.filter (fun n => n.tagOf == "INPUT") = y0 :: y1 :: restT)
    (hy0 : y0.idOf = some j0) (hy1 : y1.idOf = some j1) :
    ((roleStep p mk tag kNext cs k).2.1 = i1 ∧
     i0 ∉ idsForest (roleStep p mk tag kNext cs k).1 ∧
     (∃ n ∈ (roleStep p mk tag kNext cs k).1, n.idOf = some i1)) ∧
    ((tabInputPhase csT kT).inputId = j0 ∧
     y0 ∈ (tabInputPhase csT kT).children ∧
     ∀ n ∈ (tabInputPhase csT kT).children, ¬(n.idOf = some j1)) := by
  have hd := dedupFront_many p mk cs x0 x1 rest hf
  have hrs : roleStep p mk tag kNext cs k = (tagClass i1 tag (cs.eraseP p), i1, k) := by
    simp only [roleStep]
    rw [hd]
    simp [h1]
  have hrs1 : (roleStep p mk tag kNext cs k).1 = tagClass i1 tag (cs.eraseP p) := by rw [hrs]
  have hin : tabInputPhase csT kT
      = ⟨removeIds (((y0 :: y1 :: restT).drop 1).filterMap DNode.idOf) csT,
          y0.idOf.getD 0, kT⟩ := by
    simp only [tabInputPhase]
    rw [hfT]
    rfl
  have hL : ((y0 :: y1 :: restT).drop 1).filterMap DNode.idOf
      = (y1 :: restT).filterMap DNode.idOf := rfl
  have hnodAll : (csT.filterMap DNode.idOf).Nodup := (topIds_sublist csT).nodup hwfT.1
  have hnod : ((csT.filter (fun n => n.tagOf == "INPUT")).filterMap DNode.idOf).Nodup :=
    (List.Sublist.filterMap _ (List.filter_sublist csT)).nodup hnodAll
  rw [hfT] at hnod
  rw [List.filterMap_cons] at hnod
  rw [hy0] at hnod
  have hj0nt : j0 ∉ (y1 :: restT).filterMap DNode.idOf := (List.nodup_cons.mp hnod).1
  have hj1mem : j1 ∈ (y1 :: restT).filterMap DNode.idOf := by
    rw [List.filterMap_cons, hy1]
    exact List.mem_cons_self j1 _
  refine ⟨⟨by rw [hrs], ?_, ?_⟩, ?_, ?_, ?_⟩
  · rw [hrs1, tagClass_ids]
    exact eraseP_first_ids hwf.1 hf (mem_ids_of_idOf h0)
  · rw [hrs1]
    exact exists_id_tagClass i1 tag
      ⟨x1, eraseP_of_mem_filter p cs (by rw [hf]; simp), h1⟩
  · rw [hin]
    simp [hy0]
  · rw [hin]
    show y0 ∈ removeIds (((y0 :: y1 :: restT).drop 1).filterMap DNode.idOf) csT
    refine mem_removeIds ?_ ?_
    · have hy0f : y0 ∈ csT.filter (fun n => n.tagOf == "INPUT") := by rw [hfT]; simp
      exact (List.mem_filter.mp hy0f).1
    · intro i hi
      have hij : i = j0 := by
        rw [hy0] at hi
        exact (Option.some.injEq _ _ ▸ hi.symm ▸ rfl)
      rw [hij, hL]
      exact hj0nt
  · rw [hin]
    show ∀ n ∈ removeIds (((y0 :: y1 :: restT).drop 1).filterMap DNode.idOf) csT,
      ¬(n.idOf = some j1)
    exact removeIds_no_id (by rw [hL]; exact hj1mem)

/-- C3 witness: the policy theorem applied to a list item with two
`div.center` children (ids 1, 2) and a tab with two `input` children
(ids 1, 2): the center switch adopts id 2 and erases id 1, while the tab
input section adopts id 1 and removes id 2. -/
theorem c3_duplicate_policy_witness :
    ((roleStep (isDivClass "center") none "list-item__center" 5
        [DNode.elem 1 "DIV" ["center"] [] [], DNode.elem 2 "DIV" ["center"] [] []] 4).2.1 = 2 ∧
      1 ∉ idsForest (roleStep (isDivClass "center") none "list-item__center" 5
        [DNode.elem 1 "DIV" ["center"] [] [], DNode.elem 2 "DIV" ["center"] [] []] 4).1) ∧
    ((tabInputPhase [DNode.elem 1 "INPUT" [] [] [], DNode.elem 2 "INPUT" [] [] []] 7).inputId = 1 ∧
      ∀ n ∈ (tabInputPhase [DNode.elem 1 "INPUT" [] [] [],
        DNode.elem 2 "INPUT" [] [] []] 7).children, ¬(n.idOf = some 2)) := by
  have h := c3_duplicate_policy (isDivClass "center") none "list-item__center" 5
    [DNode.elem 1 "DIV" ["center"] [] [], DNode.elem 2 "DIV" ["center"] [] []] 4 3
    (DNode.elem 1 "DIV" ["center"] [] []) (DNode.elem 2 "DIV" ["center"] [] []) [] 1 2
    [DNode.elem 1 "INPUT" [] [] [], DNode.elem 2 "INPUT" [] [] []] 7 3
    (DNode.elem 1 "INPUT" [] [] []) (DNode.elem 2 "INPUT" [] [] []) [] 1 2
    (by unfold WfForest; decide) rfl rfl rfl
    (by unfold WfForest; decide) rfl rfl rfl
  exact ⟨⟨h.1.1, h.1.2.1⟩, h.2.1, h.2.2.2⟩

theorem lrc_center_fixed (ch : List DNode) (j k : Nat) :
    lrc false [DNode.elem j "DIV" ["center", "list-item__center"] [] ch] k
      = ⟨[DNode.elem j "DIV" ["center", "list-item__center"] [] ch], none, none, j, k⟩ := by
  simp [lrc, lrcLeftStep, lrcRightStep, roleStep, dedupFront, tagClass, movePhase,
    lrcKeep, appendInto, isDivClass, DNode.hasClass, DNode.tagOf, DNode.idOf, DNode.addClass]

theorem lrc_plain_run (cs0 : List DNode) (k0 : Nat)
    (hwf : WfForest cs0 k0)
    (hplain : ∀ n ∈ cs0, isDivClass "left" n = false ∧ isDivClass "right" n = false ∧
      isDivClass "center" n = false ∧ ¬(n.tagOf = "ONS-RIPPLE")) :
    lrc false cs0 k0
      = ⟨[DNode.elem k0 "DIV" ["center", "list-item__center"] [] cs0], none, none, k0, k0 + 1⟩ := by
  have hfL : cs0.find? (isDivClass "left") = none :=
    List.find?_eq_none.mpr (fun x hx => by simp [(hplain x hx).1])
  have h1 : lrcLeftStep cs0 = (cs0, none) := lrcLeftStep_eq_none cs0 (by rw [hfL]; rfl)
  have hfR : cs0.filter (isDivClass "right") = [] :=
    List.filter_eq_nil_iff.mpr (fun x hx => by simp [(hplain x hx).2.1])
  have h2 : lrcRightStep false cs0 k0 = (cs0, none, k0) := lrcRightStep_eq_none cs0 k0 hfR
  have hfC : cs0.filter (isDivClass "center") = [] :=
    List.filter_eq_nil_iff.mpr (fun x hx => by simp [(hplain x hx).2.2.1])
  have hd := dedupFront_zero_some (isDivClass "center")
    (DNode.elem k0 "DIV" ["center"] [] []) cs0 hfC
  have hrs : roleStep (isDivClass "center") (some (DNode.elem k0 "DIV" ["center"] [] []))
      "list-item__center" (k0 + 1) cs0 k0
      = (tagClass k0 "list-item__center" (DNode.elem k0 "DIV" ["center"] [] [] :: cs0),
          k0, k0 + 1) := by
    simp only [roleStep]
    rw [hd]
    simp [DNode.idOf]
  have hkid : ∀ n ∈ cs0, (n.idOf == some k0) = false := by
    intro n hn
    have hne : ¬(n.idOf = some k0) := by
      intro he
      have hk : k0 ∈ idsForest cs0 := (mem_idsForest k0 cs0).mpr ⟨n, hn, mem_ids_of_idOf he⟩
      have := hwf.2 k0 hk
      omega
    simpa using hne
  have htail : ∀ n ∈ cs0, (if n.idOf == some k0 then n.addClass "list-item__center" else n) = n := by
    intro n hn
    rw [hkid n hn]
    simp
  have h4 : tagClass k0 "list-item__center" (DNode.elem k0 "DIV" ["center"] [] [] :: cs0)
      = DNode.elem k0 "DIV" ["center", "list-item__center"] [] [] :: cs0 := by
    unfold tagClass
    rw [List.map_cons, map_eq_self_of cs0 _ htail]
    congr 1
    simp [DNode.idOf, DNode.addClass]
  have hkcs : ∀ n ∈ cs0, lrcKeep none none k0 n = false := by
    intro n hn
    have ht : (n.tagOf == "ONS-RIPPLE") = false := by simpa using (hplain n hn).2.2.2
    simp [lrcKeep, hkid n hn, ht]
  have hkN0 : lrcKeep none none k0
      (DNode.elem k0 "DIV" ["center", "list-item__center"] [] []) = true := by
    simp [lrcKeep, DNode.idOf]
  have hfilterKeep : (DNode.elem k0 "DIV" ["center", "list-item__center"] [] [] :: cs0).filter
      (lrcKeep none none k0)
      = [DNode.elem k0 "DIV" ["center", "list-item__center"] [] []] := by
    have hnil : cs0.filter (lrcKeep none none k0) = [] :=
      List.filter_eq_nil_iff.mpr (fun a ha => by simp [hkcs a ha])
    rw [List.filter_cons, hkN0, if_pos rfl, hnil]
  have hstrays : (DNode.elem k0 "DIV" ["center", "list-item__center"] [] [] :: cs0).filter
      (fun n => !(lrcKeep none none k0 n)) = cs0 := by
    have hall : cs0.filter (fun n => !(lrcKeep none none k0 n)) = cs0 :=
      List.filter_eq_self.mpr (fun a ha => by simp [hkcs a ha])
    rw [List.filter_cons, hkN0]
    simp [hall]
  have h6 : movePhase (lrcKeep none none k0) k0
      (DNode.elem k0 "DIV" ["center", "list-item__center"] [] [] :: cs0)
      = [DNode.elem k0 "DIV" ["center", "list-item__center"] [] cs0] := by
    unfold movePhase
    rw [hfilterKeep, hstrays]
    simp [appendInto]
  simp only [lrc, h1, h2, hrs, h4, h6]


theorem eq_of_countP_le_one {l : List DNode} {p : DNode → Bool} (h : l.countP p ≤ 1)
    {x y : DNode} (hx : x ∈ l) (hy : y ∈ l) (hpx : p x = true) (hpy : p y = true) : x = y := by
  induction l with
  | nil => cases hx
  | cons a as ih =>
      rw [List.countP_cons] at h
      rcases List.mem_cons.mp hx with rfl | hx2
      · rcases List.mem_cons.mp hy with rfl | hy2
        · rfl
        · exfalso
          have h1 : 0 < as.countP p := List.countP_pos_iff.mpr ⟨y, hy2, hpy⟩
          rw [if_pos hpx] at h
          omega
      · rcases List.mem_cons.mp hy with rfl | hy2
        · exfalso
          have h1 : 0 < as.countP p := List.countP_pos_iff.mpr ⟨x, hx2, hpx⟩
          rw [if_pos hpy] at h
          omega
        · exact ih (le_trans (Nat.le_add_right _ _) h) hx2 hy2

theorem filter_eq_single {l : List DNode} {p : DNode → Bool} (hc : l.countP p = 1)
    {x : DNode} (hx : x ∈ l) (hpx : p x = true) : l.filter p = [x] := by
  have hlen : (l.filter p).length = 1 := by
    rw [← List.countP_eq_length_filter]
    exact hc
  rcases hf : l.filter p with _ | ⟨y, ys⟩
  · rw [hf] at hlen
    simp at hlen
  · rw [hf] at hlen
    have hys : ys = [] := by
      rw [List.length_cons] at hlen
      exact List.length_eq_zero.mp (by omega)
    subst hys
    have hy : y ∈ l.filter p := by rw [hf]; exact List.mem_cons_self y []
    have hxy : y = x := eq_of_countP_le_one (le_of_eq hc)
      (List.mem_filter.mp hy).1 hx (List.mem_filter.mp hy).2 hpx
    rw [hxy]

theorem addClass_hasClass_self {n : DNode} {i : Nat} (c : String) (h : n.idOf = some i) :
    (n.addClass c).hasClass c = true := by
  cases n with
  | elem j t cls a ch =>
      simp only [DNode.addClass]
      by_cases hc : cls.contains c
      · rw [if_pos hc]
        exact hc
      · rw [if_neg hc]
        show (cls ++ [c]).contains c = true
        rw [List.contains_eq_any_beq, List.any_append]
        simp
  | text s => simp [DNode.idOf] at h

theorem addClass_hasClass_mono {n : DNode} {c : String} (c2 : String)
    (h : n.hasClass c = true) : (n.addClass c2).hasClass c = true := by
  cases n with
  | elem j t cls a ch =>
      simp only [DNode.addClass]
      by_cases hc : cls.contains c2
      · rw [if_pos hc]
        exact h
      · rw [if_neg hc]
        show (cls ++ [c2]).contains c = true
        rw [List.contains_eq_any_beq, List.any_append]
        have h2 : cls.any (c == ·) = true := by
          rw [← List.contains_eq_any_beq]
          exact h
        rw [h2]
        rfl
  | text s => simp [DNode.hasClass] at h

theorem addClass_eq_self {n : DNode} {c : String} (h : n.hasClass c = true) :
    n.addClass c = n := by
  cases n with
  | elem j t cls a ch =>
      simp only [DNode.addClass]
      rw [if_pos (show cls.contains c = true from h)]
  | text s => rfl

theorem tagClass_eq_self {i : Nat} {c : String} {cs : List DNode}
    (h : ∀ n ∈ cs, n.idOf = some i → n.hasClass c = true) : tagClass i c cs = cs := by
  unfold tagClass
  apply map_eq_self_of
  intro n hn
  by_cases hb : (n.idOf == some i) = true
  · rw [if_pos hb]
    exact addClass_eq_self (h n hn (by simpa using hb))
  · rw [if_neg hb]

theorem appendInto_hasClass (c : String) (tid : Nat) (e : List DNode) (n : DNode) :
    (appendInto tid e n).hasClass c = n.hasClass c := by
  cases n with
  | elem i t cls a ch => by_cases h : i == tid <;> simp [appendInto, h, DNode.hasClass]
  | text s => rfl

theorem appendInto_isDivClass (c : String) (tid : Nat) (e : List DNode) (n : DNode) :
    isDivClass c (appendInto tid e n) = isDivClass c n := by
  unfold isDivClass
  rw [appendInto_tagOf, appendInto_hasClass]

theorem movePhase_id {keep : DNode → Bool} {tid : Nat} {cs : List DNode}
    (h : ∀ n ∈ cs, keep n = true) : movePhase keep tid cs = cs := by
  unfold movePhase
  have hstray : cs.filter (fun n => !keep n) = [] :=
    List.filter_eq_nil_iff.mpr (fun a ha => by simp [h a ha])
  have hkeep : cs.filter keep = cs := List.filter_eq_self.mpr h
  rw [hstray, hkeep]
  apply map_eq_self_of
  intro n _
  exact appendInto_nil tid n

theorem removeIds_nil (cs : List DNode) : removeIds [] cs = cs := by
  unfold removeIds
  apply List.filter_eq_self.mpr
  intro a _
  cases a with
  | elem i t c at2 ch => rfl
  | text s => rfl

theorem mapChildListOf_fun_id {bid : Nat} {f : List DNode → List DNode}
    (h : ∀ l, f l = l) (cs : List DNode) : mapChildListOf bid f cs = cs := by
  unfold mapChildListOf
  apply map_eq_self_of
  intro n _
  cases n with
  | elem i t c a ch =>
      show (if (i == bid) = true then DNode.elem i t c a (f ch)
        else DNode.elem i t c a ch) = DNode.elem i t c a ch
      by_cases hb : (i == bid) = true
      · rw [if_pos hb, h ch]
      · rw [if_neg hb]
  | text s => rfl

theorem mapChildListOf_self {bid : Nat} {cs : List DNode}
    (hcount : cs.countP (fun n => n.idOf == some bid) ≤ 1) :
    mapChildListOf bid (fun _ => childListOf bid cs) cs = cs := by
  induction cs with
  | nil => rfl
  | cons n rest ih =>
      rw [List.countP_cons] at hcount
      by_cases hn : n.idOf = some bid
      · cases n with
        | elem i t c a ch =>
            have hi : i = bid := by simpa [DNode.idOf] using hn
            subst hi
            rw [mapChildListOf_cons_hit i _ t c a ch rest]
            rw [childListOf_cons_hit i _ rest (by rfl)]
            have hz : rest.countP (fun n => n.idOf == some i) = 0 := by
              have : (DNode.idOf (DNode.elem i t c a ch) == some i) = true := by simp [DNode.idOf]
              rw [if_pos this] at hcount
              omega
            rw [mapChildListOf_eq_self i _ rest hz]
            rfl
        | text s => simp [DNode.idOf] at hn
      · rw [mapChildListOf_cons bid _ n rest hn, childListOf_cons_miss bid n rest hn]
        have h2 : rest.countP (fun n => n.idOf == some bid) ≤ 1 :=
          le_trans (Nat.le_add_right _ _) hcount
        rw [ih h2]

theorem mem_of_movePhase {keep : DNode → Bool} {tid : Nat} {cs : List DNode} {m : DNode}
    (h : m ∈ movePhase keep tid cs) :
    ∃ n ∈ cs, keep n = true ∧ m = appendInto tid (cs.filter (fun x => !keep x)) n := by
  unfold movePhase at h
  obtain ⟨n, hn, rfl⟩ := List.mem_map.mp h
  exact ⟨n, (List.mem_filter.mp hn).1, (List.mem_filter.mp hn).2, rfl⟩

theorem mem_of_tagClass {i : Nat} {c : String} {l : List DNode} {m : DNode}
    (h : m ∈ tagClass i c l) : ∃ n ∈ l, m = n ∨ m = n.addClass c := by
  unfold tagClass at h
  obtain ⟨n, hn, rfl⟩ := List.mem_map.mp h
  by_cases hb : (n.idOf == some i) = true
  · exact ⟨n, hn, Or.inr (by rw [if_pos hb])⟩
  · exact ⟨n, hn, Or.inl (by rw [if_neg hb])⟩

theorem tagClass_exists_class {l : List DNode} {j : Nat} {c : String} (i : Nat) (c2 : String)
    (h : ∃ v ∈ l, v.idOf = some j ∧ v.hasClass c = true) :
    ∃ v ∈ tagClass i c2 l, v.idOf = some j ∧ v.hasClass c = true := by
  obtain ⟨v, hv, hid, hcl⟩ := h
  unfold tagClass
  by_cases hb : (v.idOf == some i) = true
  · refine ⟨v.addClass c2, List.mem_map.mpr ⟨v, hv, by rw [if_pos hb]⟩, ?_,
      addClass_hasClass_mono c2 hcl⟩
    rw [addClass_idOf]
    exact hid
  · exact ⟨v, List.mem_map.mpr ⟨v, hv, by rw [if_neg hb]⟩, hid, hcl⟩

theorem movePhase_exists_class {keep : DNode → Bool} {tid : Nat} {cs : List DNode}
    {j : Nat} {c : String}
    (h : ∃ v ∈ cs, v.idOf = some j ∧ v.hasClass c = true ∧ keep v = true) :
    ∃ v ∈ movePhase keep tid cs, v.idOf = some j ∧ v.hasClass c = true := by
  obtain ⟨v, hv, hid, hcl, hk⟩ := h
  refine ⟨appendInto tid (cs.filter (fun x => !keep x)) v, ?_, ?_, ?_⟩
  · unfold movePhase
    exact List.mem_map.mpr ⟨v, List.mem_filter.mpr ⟨hv, hk⟩, rfl⟩
  · rw [appendInto_idOf]
    exact hid
  · rw [appendInto_hasClass]
    exact hcl

theorem mem_of_mapChildListOf {bid : Nat} {f : List DNode → List DNode} {cs : List DNode}
    {m : DNode} (h : m ∈ mapChildListOf bid f cs) :
    ∃ n ∈ cs, m.idOf = n.idOf ∧ m.tagOf = n.tagOf ∧ ∀ c, m.hasClass c = n.hasClass c := by
  unfold mapChildListOf at h
  obtain ⟨n, hn, rfl⟩ := List.mem_map.mp h
  cases n with
  | elem i t c a ch =>
      by_cases hb : (i == bid) = true
      · refine ⟨DNode.elem i t c a ch, hn, ?_, ?_, ?_⟩
        · show (if (i == bid) = true then DNode.elem i t c a (f ch)
            else DNode.elem i t c a ch).idOf = _
          rw [if_pos hb]
          rfl
        · show (if (i == bid) = true then DNode.elem i t c a (f ch)
            else DNode.elem i t c a ch).tagOf = _
          rw [if_pos hb]
          rfl
        · intro c2
          show (if (i == bid) = true then DNode.elem i t c a (f ch)
            else DNode.elem i t c a ch).hasClass c2 = _
          rw [if_pos hb]
          rfl
      · refine ⟨DNode.elem i t c a ch, hn, ?_, ?_, ?_⟩
        · show (if (i == bid) = true then DNode.elem i t c a (f ch)
            else DNode.elem i t c a ch).idOf = _
          rw [if_neg hb]
        · show (if (i == bid) = true then DNode.elem i t c a (f ch)
            else DNode.elem i t c a ch).tagOf = _
          rw [if_neg hb]
        · intro c2
          show (if (i == bid) = true then DNode.elem i t c a (f ch)
            else DNode.elem i t c a ch).hasClass c2 = _
          rw [if_neg hb]
  | text s => exact ⟨DNode.text s, hn, rfl, rfl, fun c => rfl⟩

theorem mapChildListOf_exists {bid : Nat} {f : List DNode → List DNode} {cs : List DNode}
    {j : Nat} {c : String} (h : ∃ v ∈ cs, v.idOf = some j ∧ v.hasClass c = true) :
    ∃ v ∈ mapChildListOf bid f cs, v.idOf = some j ∧ v.hasClass c = true := by
  obtain ⟨v, hv, hid, hcl⟩ := h
  unfold mapChildListOf
  cases v with
  | elem i t cl a ch =>
      by_cases hb : (i == bid) = true
      · exact ⟨DNode.elem i t cl a (f ch), List.mem_map.mpr ⟨_, hv, by simp [hb]⟩, hid, hcl⟩
      · exact ⟨DNode.elem i t cl a ch, List.mem_map.mpr ⟨_, hv, by simp [hb]⟩, hid, hcl⟩
  | text s => simp [DNode.idOf] at hid

theorem countP_mapChildListOf (bid : Nat) (f : List DNode → List DNode) (cs : List DNode)
    (c : String) :
    (mapChildListOf bid f cs).countP (isDivClass c) = cs.countP (isDivClass c) := by
  unfold mapChildListOf
  rw [List.countP_map]
  apply List.countP_congr
  intro n _
  cases n with
  | elem i t cl a ch =>
      by_cases hb : (i == bid) = true <;>
        simp [Function.comp, hb, isDivClass, DNode.tagOf, DNode.hasClass]
  | text s => rfl

theorem rel_of_tag_option {m n : DNode} {c2 : String} (hne : ¬("left" = c2))
    (h : m = n ∨ m = n.addClass c2) :
    m.idOf = n.idOf ∧ m.tagOf = n.tagOf ∧ m.hasClass "left" = n.hasClass "left" := by
  rcases h with rfl | rfl
  · exact ⟨rfl, rfl, rfl⟩
  · exact ⟨addClass_idOf c2 n, addClass_tagOf c2 n, addClass_hasClass "left" c2 n hne⟩

theorem roleStep_origin {p : DNode → Bool} {mk : Option DNode} {tag : String} {kNext : Nat}
    {cs : List DNode} {k : Nat} {m : DNode}
    (h : m ∈ (roleStep p mk tag kNext cs k).1) :
    ∃ n, (n ∈ cs ∨ mk = some n) ∧ (m = n ∨ m = n.addClass tag) := by
  rw [roleStep_proj1] at h
  obtain ⟨n2, hn2, hm⟩ := mem_of_tagClass h
  have hd : n2 ∈ cs ∨ mk = some n2 := by
    rcases hf : cs.filter p with _ | ⟨x0, _ | ⟨x1, r⟩⟩
    · cases hmk : mk with
      | none =>
          rw [hmk, dedupFront_zero_none p cs hf] at hn2
          exact Or.inl hn2
      | some mm =>
          rw [hmk, dedupFront_zero_some p mm cs hf] at hn2
          rcases List.mem_cons.mp hn2 with rfl | h2
          · exact Or.inr rfl
          · exact Or.inl h2
    · rw [dedupFront_one p mk cs x0 hf] at hn2
      exact Or.inl hn2
    · rw [dedupFront_many p mk cs x0 x1 r hf] at hn2
      exact Or.inl (List.mem_of_mem_eraseP hn2)
  exact ⟨n2, hd, hm⟩

theorem lrcLeftStep_origin {cs0 : List DNode} {m : DNode} (h : m ∈ (lrcLeftStep cs0).1) :
    ∃ n ∈ cs0, m = n ∨ m = n.addClass "list-item__left" := by
  cases hf : (cs0.find? (isDivClass "left")).bind DNode.idOf with
  | none =>
      rw [lrcLeftStep_eq_none cs0 hf] at h
      exact ⟨m, h, Or.inl rfl⟩
  | some l =>
      rw [lrcLeftStep_eq_some cs0 l hf] at h
      exact mem_of_tagClass h

theorem lrcRightStep_origin {exp : Bool} {cs : List DNode} {k : Nat} {m : DNode}
    (h : m ∈ (lrcRightStep exp cs k).1) :
    (∃ n ∈ cs, m = n ∨ m = n.addClass "list-item__right") ∨ m.hasClass "left" = false := by
  rcases hf : cs.filter (isDivClass "right") with _ | ⟨x0, _ | ⟨x1, r⟩⟩
  · cases exp with
    | false =>
        rw [lrcRightStep_eq_none cs k hf] at h
        exact Or.inl ⟨m, h, Or.inl rfl⟩
    | true =>
        rw [lrcRightStep_eq_create cs k hf] at h
        obtain ⟨n, hn, hm⟩ := mem_of_tagClass h
        rcases List.mem_cons.mp hn with rfl | h2
        · right
          rcases hm with rfl | rfl
          · rfl
          · rw [addClass_hasClass "left" "list-item__right" _ (by decide)]
            rfl
        · exact Or.inl ⟨n, h2, hm⟩
  · obtain ⟨j, hj⟩ := isDivClass_idOf
      (List.mem_filter.mp (show x0 ∈ cs.filter (isDivClass "right") by rw [hf]; simp)).2
    rw [lrcRightStep_eq_one exp cs k x0 j hf hj] at h
    exact Or.inl (mem_of_tagClass h)
  · obtain ⟨j, hj⟩ := isDivClass_idOf
      (List.mem_filter.mp (show x1 ∈ cs.filter (isDivClass "right") by rw [hf]; simp)).2
    rw [lrcRightStep_eq_many exp cs k x0 x1 r j hf hj] at h
    obtain ⟨n, hn, hm⟩ := mem_of_tagClass h
    exact Or.inl ⟨n, List.mem_of_mem_eraseP hn, hm⟩

theorem lrc_origin {exp : Bool} {cs0 : List DNode} {k0 : Nat} {m : DNode}
    (h : m ∈ (lrc exp cs0 k0).children) :
    (∃ n ∈ cs0, m.idOf = n.idOf ∧ m.tagOf = n.tagOf ∧ m.hasClass "left" = n.hasClass "left")
    ∨ m.hasClass "left" = false := by
  set L := lrcLeftStep cs0 with hLd
  set R := lrcRightStep exp L.1 k0 with hRd
  set C := roleStep (isDivClass "center") (some (DNode.elem R.2.2 "DIV" ["center"] [] []))
    "list-item__center" (R.2.2 + 1) R.1 R.2.2 with hCd
  have h2 : m ∈ movePhase (lrcKeep L.2 R.2.1 C.2.1) C.2.1 C.1 := h
  obtain ⟨n3, hn3, hk3, hm3⟩ := mem_of_movePhase h2
  have hrel3 : m.idOf = n3.idOf ∧ m.tagOf = n3.tagOf ∧
      m.hasClass "left" = n3.hasClass "left" := by
    rw [hm3]
    exact ⟨appendInto_idOf _ _ _, appendInto_tagOf _ _ _, appendInto_hasClass _ _ _ _⟩
  have hn3' : n3 ∈ (roleStep (isDivClass "center")
      (some (DNode.elem R.2.2 "DIV" ["center"] [] [])) "list-item__center"
      (R.2.2 + 1) R.1 R.2.2).1 := hn3
  obtain ⟨n2, hn2or, hm2⟩ := roleStep_origin hn3'
  have hrel2 := rel_of_tag_option (by decide) hm2
  rcases hn2or with hn2R | hn2mk
  · have hn2R' : n2 ∈ (lrcRightStep exp L.1 k0).1 := hn2R
    rcases lrcRightStep_origin hn2R' with ⟨n1, hn1, hm1⟩ | hleft
    · have hrel1 := rel_of_tag_option (by decide) hm1
      have hn1' : n1 ∈ (lrcLeftStep cs0).1 := hn1
      obtain ⟨n0, hn0, hm0⟩ := lrcLeftStep_origin hn1'
      have hrel0 := rel_of_tag_option (by decide) hm0
      left
      exact ⟨n0, hn0,
        hrel3.1.trans (hrel2.1.trans (hrel1.1.trans hrel0.1)),
        hrel3.2.1.trans (hrel2.2.1.trans (hrel1.2.1.trans hrel0.2.1)),
        hrel3.2.2.trans (hrel2.2.2.trans (hrel1.2.2.trans hrel0.2.2))⟩
    · right
      rw [hrel3.2.2, hrel2.2.2]
      exact hleft
  · right
    injection hn2mk with he
    rw [hrel3.2.2, hrel2.2.2, ← he]
    rfl

theorem tagClass_exists_prof {l : List DNode} {j : Nat} {c1 c2 : String} (i : Nat) (t : String)
    (h : ∃ v ∈ l, v.idOf = some j ∧ v.tagOf = "DIV" ∧ v.hasClass c1 = true ∧ v.hasClass c2 = true) :
    ∃ v ∈ tagClass i t l,
      v.idOf = some j ∧ v.tagOf = "DIV" ∧ v.hasClass c1 = true ∧ v.hasClass c2 = true := by
  obtain ⟨v, hv, hid, htag, h1, h2⟩ := h
  unfold tagClass
  by_cases hb : (v.idOf == some i) = true
  · refine ⟨v.addClass t, List.mem_map.mpr ⟨v, hv, by rw [if_pos hb]⟩, ?_, ?_,
      addClass_hasClass_mono t h1, addClass_hasClass_mono t h2⟩
    · rw [addClass_idOf]
      exact hid
    · rw [addClass_tagOf]
      exact htag
  · exact ⟨v, List.mem_map.mpr ⟨v, hv, by rw [if_neg hb]⟩, hid, htag, h1, h2⟩

theorem movePhase_exists_prof {keep : DNode → Bool} {tid : Nat} {cs : List DNode}
    {j : Nat} {c1 c2 : String}
    (h : ∃ v ∈ cs, (v.idOf = some j ∧ v.tagOf = "DIV" ∧ v.hasClass c1 = true ∧
      v.hasClass c2 = true) ∧ keep v = true) :
    ∃ v ∈ movePhase keep tid cs,
      v.idOf = some j ∧ v.tagOf = "DIV" ∧ v.hasClass c1 = true ∧ v.hasClass c2 = true := by
  obtain ⟨v, hv, ⟨hid, htag, h1, h2⟩, hk⟩ := h
  refine ⟨appendInto tid (cs.filter (fun x => !keep x)) v, ?_, ?_, ?_, ?_, ?_⟩
  · unfold movePhase
    exact List.mem_map.mpr ⟨v, List.mem_filter.mpr ⟨hv, hk⟩, rfl⟩
  · rw [appendInto_idOf]
    exact hid
  · rw [appendInto_tagOf]
    exact htag
  · rw [appendInto_hasClass]
    exact h1
  · rw [appendInto_hasClass]
    exact h2

theorem countP_movePhase_le (keep : DNode → Bool) (tid : Nat) (cs : List DNode) (c : String) :
    (movePhase keep tid cs).countP (isDivClass c) ≤ cs.countP (isDivClass c) := by
  unfold movePhase
  rw [List.countP_map]
  have he : (fun n => isDivClass c (appendInto tid (cs.filter (fun x => !keep x)) n))
      = isDivClass c := funext (fun n => appendInto_isDivClass c tid _ n)
  calc (cs.filter keep).countP
        ((isDivClass c) ∘ (appendInto tid (cs.filter (fun x => !keep x))))
      = (cs.filter keep).countP (isDivClass c) := by
        apply List.countP_congr
        intro n _
        simp [Function.comp, appendInto_isDivClass]
    _ ≤ cs.countP (isDivClass c) := (List.filter_sublist cs).countP_le _

theorem lrcLeftStep_block (cs0 : List DNode) (hL : cs0.countP (isDivClass "left") ≤ 1) :
    (∀ l, (lrcLeftStep cs0).2 = some l →
      (∃ v ∈ (lrcLeftStep cs0).1, v.idOf = some l ∧ v.tagOf = "DIV" ∧
        v.hasClass "left" = true ∧ v.hasClass "list-item__left" = true) ∧
      (∀ n ∈ cs0, isDivClass "left" n = true → n.idOf = some l)) ∧
    ((lrcLeftStep cs0).2 = none →
      (∀ n ∈ cs0, isDivClass "left" n = false) ∧ (lrcLeftStep cs0).1 = cs0) := by
  cases hfind : cs0.find? (isDivClass "left") with
  | none =>
      have hf : (cs0.find? (isDivClass "left")).bind DNode.idOf = none := by rw [hfind]; rfl
      rw [lrcLeftStep_eq_none cs0 hf]
      constructor
      · intro l hl
        exact absurd hl (by simp)
      · intro _
        refine ⟨?_, rfl⟩
        intro n hn
        have := List.find?_eq_none.mp hfind n hn
        simpa using this
  | some w =>
      have hwmem : w ∈ cs0 := List.mem_of_find?_eq_some hfind
      have hwp : isDivClass "left" w = true := List.find?_some hfind
      obtain ⟨l0, hl0⟩ := isDivClass_idOf hwp
      have hf : (cs0.find? (isDivClass "left")).bind DNode.idOf = some l0 := by
        rw [hfind]
        show w.idOf = some l0
        exact hl0
      rw [lrcLeftStep_eq_some cs0 l0 hf]
      constructor
      · intro l hl
        have hll : l0 = l := by
          have : (some l0 : Option Nat) = some l := hl
          injection this
        subst hll
        constructor
        · refine ⟨w.addClass "list-item__left", ?_, ?_, ?_, ?_, ?_⟩
          · unfold tagClass
            exact List.mem_map.mpr ⟨w, hwmem, by rw [if_pos (by simp [hl0])]⟩
          · rw [addClass_idOf]
            exact hl0
          · rw [addClass_tagOf]
            unfold isDivClass at hwp
            simp only [Bool.and_eq_true] at hwp
            simpa using hwp.1
          · exact addClass_hasClass_mono _ (by
              unfold isDivClass at hwp
              simp only [Bool.and_eq_true] at hwp
              exact hwp.2)
          · exact addClass_hasClass_self _ hl0
        · intro n hn hdiv
          have : n = w := eq_of_countP_le_one hL hn hwmem hdiv hwp
          rw [this]
          exact hl0
      · intro hl
        exact absurd hl (by simp)

theorem isDivClass_split {c : String} {n : DNode} (h : isDivClass c n = true) :
    n.tagOf = "DIV" ∧ n.hasClass c = true := by
  unfold isDivClass at h
  simp only [Bool.and_eq_true] at h
  exact ⟨by simpa using h.1, h.2⟩

theorem lrcRightStep_block (exp : Bool) (cs : List DNode) (k : Nat)
    (hr : cs.countP (isDivClass "right") ≤ 1) :
    (∀ r, (lrcRightStep exp cs k).2.1 = some r →
      (lrcRightStep exp cs k).1.countP (isDivClass "right") = 1 ∧
      ∃ v ∈ (lrcRightStep exp cs k).1, v.idOf = some r ∧ v.tagOf = "DIV" ∧
        v.hasClass "right" = true ∧ v.hasClass "list-item__right" = true) ∧
    ((lrcRightStep exp cs k).2.1 = none →
      (lrcRightStep exp cs k).1.countP (isDivClass "right") = 0 ∧ exp = false) ∧
    (∀ j c1 c2, (∃ v ∈ cs, v.idOf = some j ∧ v.tagOf = "DIV" ∧
        v.hasClass c1 = true ∧ v.hasClass c2 = true) →
      ∃ v ∈ (lrcRightStep exp cs k).1, v.idOf = some j ∧ v.tagOf = "DIV" ∧
        v.hasClass c1 = true ∧ v.hasClass c2 = true) := by
  have hcz : cs.countP (isDivClass "right") = (cs.filter (isDivClass "right")).length :=
    List.countP_eq_length_filter _ cs
  rcases hf : cs.filter (isDivClass "right") with _ | ⟨x0, _ | ⟨x1, rst⟩⟩
  · cases exp with
    | false =>
        rw [lrcRightStep_eq_none cs k hf]
        refine ⟨?_, ?_, ?_⟩
        · intro r hrr
          exact absurd hrr (by simp)
        · intro _
          refine ⟨?_, rfl⟩
          rw [hcz, hf]
          rfl
        · intro j c1 c2 h
          exact h
    | true =>
        rw [lrcRightStep_eq_create cs k hf]
        refine ⟨?_, ?_, ?_⟩
        · intro r hrr
          have hkr : k + 1 = r := by
            have : (some (k + 1) : Option Nat) = some r := hrr
            injection this
          subst hkr
          constructor
          · rw [countP_tagClass _ "right" "list-item__right" _ (by decide)]
            rw [List.countP_cons]
            have h0 : cs.countP (isDivClass "right") = 0 := by rw [hcz, hf]; rfl
            rw [h0]
            simp [isDivClass, DNode.tagOf, DNode.hasClass]
          · refine ⟨(DNode.elem (k + 1) "DIV" ["right"] []
              [DNode.elem k "SPAN" ["list-item__expand-chevron"] [] []]).addClass
                "list-item__right", ?_, ?_, ?_, ?_, ?_⟩
            · unfold tagClass
              exact List.mem_map.mpr ⟨_, List.mem_cons_self _ _,
                by rw [if_pos (by simp [DNode.idOf])]⟩
            · rw [addClass_idOf]
              rfl
            · rw [addClass_tagOf]
              rfl
            · exact addClass_hasClass_mono _ (by rfl)
            · exact addClass_hasClass_self _ (show DNode.idOf _ = some (k + 1) from rfl)
        · intro hrr
          exact absurd hrr (by simp)
        · intro j c1 c2 h
          obtain ⟨v, hv, hprof⟩ := h
          exact tagClass_exists_prof (k + 1) "list-item__right"
            ⟨v, List.mem_cons_of_mem _ hv, hprof⟩
  · have hx0f : x0 ∈ cs.filter (isDivClass "right") := by rw [hf]; simp
    have hx0 : x0 ∈ cs := (List.mem_filter.mp hx0f).1
    have hx0p : isDivClass "right" x0 = true := (List.mem_filter.mp hx0f).2
    obtain ⟨j0, hj0⟩ := isDivClass_idOf hx0p
    rw [lrcRightStep_eq_one exp cs k x0 j0 hf hj0]
    refine ⟨?_, ?_, ?_⟩
    · intro r hrr
      have hjr : j0 = r := by
        have : (some j0 : Option Nat) = some r := hrr
        injection this
      subst hjr
      constructor
      · rw [countP_tagClass _ "right" "list-item__right" _ (by decide)]
        rw [hcz, hf]
        rfl
      · refine ⟨x0.addClass "list-item__right", ?_, ?_, ?_, ?_, ?_⟩
        · unfold tagClass
          exact List.mem_map.mpr ⟨x0, hx0, by rw [if_pos (by simp [hj0])]⟩
        · rw [addClass_idOf]
          exact hj0
        · rw [addClass_tagOf]
          exact (isDivClass_split hx0p).1
        · exact addClass_hasClass_mono _ (isDivClass_split hx0p).2
        · exact addClass_hasClass_self _ hj0
    · intro hrr
      exact absurd hrr (by simp)
    · intro j c1 c2 h
      exact tagClass_exists_prof j0 "list-item__right" h
  · exfalso
    rw [hcz, hf] at hr
    simp at hr

theorem roleStep_center_block (R1 : List DNode) (k : Nat)
    (hc : R1.countP (isDivClass "center") ≤ 1) :
    (roleStep (isDivClass "center") (some (DNode.elem k "DIV" ["center"] [] []))
      "list-item__center" (k + 1) R1 k).1.countP (isDivClass "center") = 1 ∧
    (∃ v ∈ (roleStep (isDivClass "center") (some (DNode.elem k "DIV" ["center"] [] []))
        "list-item__center" (k + 1) R1 k).1,
      v.idOf = some (roleStep (isDivClass "center") (some (DNode.elem k "DIV" ["center"] [] []))
        "list-item__center" (k + 1) R1 k).2.1 ∧ v.tagOf = "DIV" ∧
      v.hasClass "center" = true ∧ v.hasClass "list-item__center" = true) ∧
    (∀ c', ¬(c' = "center") → ¬(c' = "list-item__center") →
      (roleStep (isDivClass "center") (some (DNode.elem k "DIV" ["center"] [] []))
        "list-item__center" (k + 1) R1 k).1.countP (isDivClass c')
        = R1.countP (isDivClass c')) ∧
    (∀ j c1 c2, (∃ v ∈ R1, v.idOf = some j ∧ v.tagOf = "DIV" ∧
        v.hasClass c1 = true ∧ v.hasClass c2 = true) →
      ∃ v ∈ (roleStep (isDivClass "center") (some (DNode.elem k "DIV" ["center"] [] []))
        "list-item__center" (k + 1) R1 k).1,
        v.idOf = some j ∧ v.tagOf = "DIV" ∧ v.hasClass c1 = true ∧ v.hasClass c2 = true) := by
  have hcz : R1.countP (isDivClass "center") = (R1.filter (isDivClass "center")).length :=
    List.countP_eq_length_filter _ R1
  rcases hf : R1.filter (isDivClass "center") with _ | ⟨x0, _ | ⟨x1, rst⟩⟩
  · have hd := dedupFront_zero_some (isDivClass "center")
      (DNode.elem k "DIV" ["center"] [] []) R1 hf
    have hrs : roleStep (isDivClass "center") (some (DNode.elem k "DIV" ["center"] [] []))
        "list-item__center" (k + 1) R1 k
        = (tagClass k "list-item__center" (DNode.elem k "DIV" ["center"] [] [] :: R1),
            k, k + 1) := by
      simp only [roleStep]
      rw [hd]
      simp [DNode.idOf]
    rw [hrs]
    refine ⟨?_, ?_, ?_, ?_⟩
    · rw [countP_tagClass _ "center" "list-item__center" _ (by decide)]
      rw [List.countP_cons]
      have h0 : R1.countP (isDivClass "center") = 0 := by rw [hcz, hf]; rfl
      rw [h0]
      simp [isDivClass, DNode.tagOf, DNode.hasClass]
    · refine ⟨(DNode.elem k "DIV" ["center"] [] []).addClass "list-item__center",
        ?_, ?_, ?_, ?_, ?_⟩
      · unfold tagClass
        exact List.mem_map.mpr ⟨_, List.mem_cons_self _ _,
          by rw [if_pos (by simp [DNode.idOf])]⟩
      · rw [addClass_idOf]
        rfl
      · rw [addClass_tagOf]
        rfl
      · exact addClass_hasClass_mono _ (by rfl)
      · exact addClass_hasClass_self _ (show DNode.idOf _ = some k from rfl)
    · intro c' hne1 hne2
      rw [countP_tagClass _ c' "list-item__center" _ hne2]
      rw [List.countP_cons]
      have hmc : isDivClass c' (DNode.elem k "DIV" ["center"] [] []) = false := by
        simp [isDivClass, DNode.tagOf, DNode.hasClass, List.contains_eq_any_beq, hne1]
      rw [hmc]
      simp
    · intro j c1 c2 h
      obtain ⟨v, hv, hprof⟩ := h
      exact tagClass_exists_prof k "list-item__center"
        ⟨v, List.mem_cons_of_mem _ hv, hprof⟩
  · have hx0f : x0 ∈ R1.filter (isDivClass "center") := by rw [hf]; simp
    have hx0 : x0 ∈ R1 := (List.mem_filter.mp hx0f).1
    have hx0p : isDivClass "center" x0 = true := (List.mem_filter.mp hx0f).2
    obtain ⟨j0, hj0⟩ := isDivClass_idOf hx0p
    have hd := dedupFront_one (isDivClass "center")
      (some (DNode.elem k "DIV" ["center"] [] [])) R1 x0 hf
    have hrs : roleStep (isDivClass "center") (some (DNode.elem k "DIV" ["center"] [] []))
        "list-item__center" (k + 1) R1 k
        = (tagClass j0 "list-item__center" R1, j0, k) := by
      simp only [roleStep]
      rw [hd]
      simp [hj0]
    rw [hrs]
    refine ⟨?_, ?_, ?_, ?_⟩
    · rw [countP_tagClass _ "center" "list-item__center" _ (by decide)]
      rw [hcz, hf]
      rfl
    · refine ⟨x0.addClass "list-item__center", ?_, ?_, ?_, ?_, ?_⟩
      · unfold tagClass
        exact List.mem_map.mpr ⟨x0, hx0, by rw [if_pos (by simp [hj0])]⟩
      · rw [addClass_idOf]
        exact hj0
      · rw [addClass_tagOf]
        exact (isDivClass_split hx0p).1
      · exact addClass_hasClass_mono _ (isDivClass_split hx0p).2
      · exact addClass_hasClass_self _ hj0
    · intro c' hne1 hne2
      exact countP_tagClass _ c' "list-item__center" _ hne2
    · intro j c1 c2 h
      exact tagClass_exists_prof j0 "list-item__center" h
  · exfalso
    rw [hcz, hf] at hc
    simp at hc

theorem isDivClass_mk {c : String} {n : DNode} (ht : n.tagOf = "DIV")
    (hc : n.hasClass c = true) : isDivClass c n = true := by
  unfold isDivClass
  rw [ht, hc]
  rfl

theorem isDivClass_neg {c : String} {n : DNode} (h : n.hasClass c = false) :
    isDivClass c n = false := by
  unfold isDivClass
  rw [h]
  simp

theorem lrc_shape (exp : Bool) (cs0 : List DNode) (k0 : Nat)
    (hL : cs0.countP (isDivClass "left") ≤ 1)
    (hR : cs0.countP (isDivClass "right") ≤ 1)
    (hC : cs0.countP (isDivClass "center") ≤ 1) :
    (((lrc exp cs0 k0).children.find? (isDivClass "left")).bind DNode.idOf
        = (lrc exp cs0 k0).leftId) ∧
    (∀ l, (lrc exp cs0 k0).leftId = some l →
      ∃ v ∈ (lrc exp cs0 k0).children, v.idOf = some l ∧
        v.hasClass "list-item__left" = true) ∧
    (∀ r, (lrc exp cs0 k0).rightId = some r →
      ∃ x, (lrc exp cs0 k0).children.filter (isDivClass "right") = [x] ∧
        x.idOf = some r ∧ x.hasClass "list-item__right" = true) ∧
    ((lrc exp cs0 k0).rightId = none →
      (lrc exp cs0 k0).children.filter (isDivClass "right") = [] ∧ exp = false) ∧
    (∃ x, (lrc exp cs0 k0).children.filter (isDivClass "center") = [x] ∧
      x.idOf = some (lrc exp cs0 k0).centerId ∧ x.hasClass "list-item__center" = true) := by
  set L := lrcLeftStep cs0 with hLd
  set R := lrcRightStep exp L.1 k0 with hRd
  set C := roleStep (isDivClass "center") (some (DNode.elem R.2.2 "DIV" ["center"] [] []))
    "list-item__center" (R.2.2 + 1) R.1 R.2.2 with hCd
  have hLr1 : L.1.countP (isDivClass "right") ≤ 1 := by
    have h := lrcLeftStep_countP cs0 "right" (by decide)
    have h2 : L.1.countP (isDivClass "right") = cs0.countP (isDivClass "right") := h
    rw [h2]
    exact hR
  have hLc1 : L.1.countP (isDivClass "center") ≤ 1 := by
    have h := lrcLeftStep_countP cs0 "center" (by decide)
    have h2 : L.1.countP (isDivClass "center") = cs0.countP (isDivClass "center") := h
    rw [h2]
    exact hC
  obtain ⟨hRsome, hRnone, hRsurv⟩ := lrcRightStep_block exp L.1 k0 hLr1
  have hRc : R.1.countP (isDivClass "center") = L.1.countP (isDivClass "center") :=
    (lrcRightStep_freshExt exp L.1 k0 hLr1).2
  have hRc1 : R.1.countP (isDivClass "center") ≤ 1 := by rw [hRc]; exact hLc1
  obtain ⟨hCcnt, hCcan, hCpres, hCsurv⟩ := roleStep_center_block R.1 R.2.2 hRc1
  obtain ⟨hLsome, hLnone⟩ := lrcLeftStep_block cs0 hL
  have hCrpres : C.1.countP (isDivClass "right") = R.1.countP (isDivClass "right") :=
    hCpres "right" (by decide) (by decide)
  -- survival of the left canonical into the compiled child list
  have hSurvL : ∀ l, L.2 = some l →
      ∃ v ∈ movePhase (lrcKeep L.2 R.2.1 C.2.1) C.2.1 C.1,
        v.idOf = some l ∧ v.tagOf = "DIV" ∧ v.hasClass "left" = true ∧
        v.hasClass "list-item__left" = true := by
    intro l hl
    obtain ⟨hcanL, _⟩ := hLsome l hl
    have h1 : ∃ v ∈ R.1, v.idOf = some l ∧ v.tagOf = "DIV" ∧
        v.hasClass "left" = true ∧ v.hasClass "list-item__left" = true :=
      hRsurv l "left" "list-item__left" hcanL
    have h2 : ∃ v ∈ C.1, v.idOf = some l ∧ v.tagOf = "DIV" ∧
        v.hasClass "left" = true ∧ v.hasClass "list-item__left" = true :=
      hCsurv l "left" "list-item__left" h1
    obtain ⟨v, hv, hprof⟩ := h2
    refine movePhase_exists_prof ⟨v, hv, hprof, ?_⟩
    simp [lrcKeep, hl, hprof.1]
  refine ⟨?_, ?_, ?_, ?_, ?_⟩
  · -- find? for div.left resolves to the canonical left
    show ((movePhase (lrcKeep L.2 R.2.1 C.2.1) C.2.1 C.1).find?
      (isDivClass "left")).bind DNode.idOf = L.2
    cases hl0 : L.2 with
    | none =>
        obtain ⟨hnoleft, _⟩ := hLnone hl0
        have hfn : (movePhase (lrcKeep L.2 R.2.1 C.2.1) C.2.1 C.1).find?
            (isDivClass "left") = none := by
          apply List.find?_eq_none.mpr
          intro m hm
          have hm2 : m ∈ (lrc exp cs0 k0).children := hm
          intro hdiv
          rcases lrc_origin hm2 with ⟨n0, hn0, _, htg, hcl⟩ | hfalse
          · have hmp := isDivClass_split hdiv
            have : isDivClass "left" n0 = true :=
              isDivClass_mk (htg.symm.trans hmp.1) (hcl.symm.trans hmp.2)
            rw [hnoleft n0 hn0] at this
            cases this
          · rw [isDivClass_neg hfalse] at hdiv
            cases hdiv
        rw [hl0] at hfn
        rw [hfn]
        rfl
    | some l =>
        obtain ⟨_, huniqL⟩ := hLsome l hl0
        obtain ⟨xl, hxlmem, hxlid, hxltag, hxlleft, _⟩ := hSurvL l hl0
        have hisSome := List.find?_isSome.mpr
          ⟨xl, hxlmem, isDivClass_mk hxltag hxlleft⟩
        obtain ⟨y, hy⟩ := Option.isSome_iff_exists.mp hisSome
        have hymem : y ∈ (lrc exp cs0 k0).children := List.mem_of_find?_eq_some hy
        have hyp : isDivClass "left" y = true := List.find?_some hy
        have hyid : y.idOf = some l := by
          rcases lrc_origin hymem with ⟨n0, hn0, hidE, htagE, hclE⟩ | hfalse
          · have hmp := isDivClass_split hyp
            have hdiv0 : isDivClass "left" n0 = true :=
              isDivClass_mk (htagE.symm.trans hmp.1) (hclE.symm.trans hmp.2)
            rw [hidE]
            exact huniqL n0 hn0 hdiv0
          · rw [isDivClass_neg hfalse] at hyp
            cases hyp
        rw [hl0] at hy
        rw [hy]
        show y.idOf = some l
        exact hyid
  · -- the canonical left survives, tagged
    show ∀ l, L.2 = some l →
      ∃ v ∈ movePhase (lrcKeep L.2 R.2.1 C.2.1) C.2.1 C.1,
        v.idOf = some l ∧ v.hasClass "list-item__left" = true
    intro l hl
    obtain ⟨v, hv, hid, _, _, hll⟩ := hSurvL l hl
    exact ⟨v, hv, hid, hll⟩
  · -- adopted right wrapper: unique div.right, tagged
    show ∀ r, R.2.1 = some r →
      ∃ x, (movePhase (lrcKeep L.2 R.2.1 C.2.1) C.2.1 C.1).filter (isDivClass "right")
        = [x] ∧ x.idOf = some r ∧ x.hasClass "list-item__right" = true
    intro r hr0
    obtain ⟨hcntR, hcanR⟩ := hRsome r hr0
    have h2 : ∃ v ∈ C.1, v.idOf = some r ∧ v.tagOf = "DIV" ∧
        v.hasClass "right" = true ∧ v.hasClass "list-item__right" = true :=
      hCsurv r "right" "list-item__right" hcanR
    obtain ⟨v, hv, hprof⟩ := h2
    have hfin : ∃ v ∈ movePhase (lrcKeep L.2 R.2.1 C.2.1) C.2.1 C.1,
        v.idOf = some r ∧ v.tagOf = "DIV" ∧ v.hasClass "right" = true ∧
        v.hasClass "list-item__right" = true := by
      refine movePhase_exists_prof ⟨v, hv, hprof, ?_⟩
      simp [lrcKeep, hr0, hprof.1]
    obtain ⟨w, hwmem, hwid, hwtag, hwr, hwlr⟩ := hfin
    have hcnt : (movePhase (lrcKeep L.2 R.2.1 C.2.1) C.2.1 C.1).countP
        (isDivClass "right") = 1 := by
      have hle : (movePhase (lrcKeep L.2 R.2.1 C.2.1) C.2.1 C.1).countP
          (isDivClass "right") ≤ 1 := by
        calc (movePhase (lrcKeep L.2 R.2.1 C.2.1) C.2.1 C.1).countP (isDivClass "right")
            ≤ C.1.countP (isDivClass "right") := countP_movePhase_le _ _ _ _
          _ = 1 := hCrpres.trans hcntR
      have hpos : 0 < (movePhase (lrcKeep L.2 R.2.1 C.2.1) C.2.1 C.1).countP
          (isDivClass "right") :=
        List.countP_pos_iff.mpr ⟨w, hwmem, isDivClass_mk hwtag hwr⟩
      omega
    exact ⟨w, filter_eq_single hcnt hwmem (isDivClass_mk hwtag hwr), hwid, hwlr⟩
  · -- no right wrapper at all: only possible in non-expandable mode
    show R.2.1 = none →
      (movePhase (lrcKeep L.2 R.2.1 C.2.1) C.2.1 C.1).filter (isDivClass "right") = []
        ∧ exp = false
    intro hr0
    obtain ⟨hcnt0, hexp⟩ := hRnone hr0
    refine ⟨?_, hexp⟩
    have hle : (movePhase (lrcKeep L.2 R.2.1 C.2.1) C.2.1 C.1).countP
        (isDivClass "right") = 0 := by
      have := calc (movePhase (lrcKeep L.2 R.2.1 C.2.1) C.2.1 C.1).countP (isDivClass "right")
          ≤ C.1.countP (isDivClass "right") := countP_movePhase_le _ _ _ _
        _ = 0 := hCrpres.trans hcnt0
      omega
    exact List.filter_eq_nil_iff.mpr (fun a ha hpa =>
      by simpa using (List.countP_eq_zero.mp hle) a ha hpa)
  · -- exactly one div.center: the canonical center wrapper
    show ∃ x, (movePhase (lrcKeep L.2 R.2.1 C.2.1) C.2.1 C.1).filter (isDivClass "center")
      = [x] ∧ x.idOf = some C.2.1 ∧ x.hasClass "list-item__center" = true
    obtain ⟨v, hv, hvid, hvtag, hvc, hvlc⟩ := hCcan
    have hfin : ∃ w ∈ movePhase (lrcKeep L.2 R.2.1 C.2.1) C.2.1 C.1,
        w.idOf = some C.2.1 ∧ w.tagOf = "DIV" ∧ w.hasClass "center" = true ∧
        w.hasClass "list-item__center" = true := by
      refine movePhase_exists_prof ⟨v, hv, ⟨hvid, hvtag, hvc, hvlc⟩, ?_⟩
      simp [lrcKeep, hvid]
    obtain ⟨w, hwmem, hwid, hwtag, hwc, hwlc⟩ := hfin
    have hcnt : (movePhase (lrcKeep L.2 R.2.1 C.2.1) C.2.1 C.1).countP
        (isDivClass "center") = 1 := by
      have hle : (movePhase (lrcKeep L.2 R.2.1 C.2.1) C.2.1 C.1).countP
          (isDivClass "center") ≤ 1 := by
        calc (movePhase (lrcKeep L.2 R.2.1 C.2.1) C.2.1 C.1).countP (isDivClass "center")
            ≤ C.1.countP (isDivClass "center") := countP_movePhase_le _ _ _ _
          _ = 1 := hCcnt
      have hpos : 0 < (movePhase (lrcKeep L.2 R.2.1 C.2.1) C.2.1 C.1).countP
          (isDivClass "center") :=
        List.countP_pos_iff.mpr ⟨w, hwmem, isDivClass_mk hwtag hwc⟩
      omega
    exact ⟨w, filter_eq_single hcnt hwmem (isDivClass_mk hwtag hwc), hwid, hwlc⟩

theorem lrc_fixed (exp : Bool) (cs1 : List DNode) (k1 kk : Nat)
    (lId rId : Option Nat) (cId : Nat)
    (hwf : WfForest cs1 kk)
    (hfindL : (cs1.find? (isDivClass "left")).bind DNode.idOf = lId)
    (hLcan : ∀ l, lId = some l →
      ∃ v ∈ cs1, v.idOf = some l ∧ v.hasClass "list-item__left" = true)
    (hRsome : ∀ r, rId = some r → ∃ x, cs1.filter (isDivClass "right") = [x] ∧
      x.idOf = some r ∧ x.hasClass "list-item__right" = true)
    (hRnone : rId = none → cs1.filter (isDivClass "right") = [] ∧ exp = false)
    (hCone : ∃ x, cs1.filter (isDivClass "center") = [x] ∧ x.idOf = some cId ∧
      x.hasClass "list-item__center" = true)
    (hkeep : ∀ n ∈ cs1, lrcKeep lId rId cId n = true) :
    lrc exp cs1 k1 = ⟨cs1, lId, rId, cId, k1⟩ := by
  have hL2 : lrcLeftStep cs1 = (cs1, lId) := by
    cases hl : lId with
    | none =>
        rw [hl] at hfindL
        exact lrcLeftStep_eq_none cs1 hfindL
    | some l =>
        rw [hl] at hfindL
        obtain ⟨v, hv, hvid, hvll⟩ := hLcan l hl
        rw [lrcLeftStep_eq_some cs1 l hfindL]
        rw [tagClass_eq_self (fun n hn hnid =>
          by rw [mem_eq_of_nodup_ids hwf.1 hn hv (mem_ids_of_idOf hnid)
            (mem_ids_of_idOf hvid)]; exact hvll)]
  have hR2 : lrcRightStep exp cs1 k1 = (cs1, rId, k1) := by
    cases hr : rId with
    | none =>
        obtain ⟨hfe, hexp⟩ := hRnone hr
        subst hexp
        exact lrcRightStep_eq_none cs1 k1 hfe
    | some r =>
        obtain ⟨x, hfx, hxid, hxlr⟩ := hRsome r hr
        rw [lrcRightStep_eq_one exp cs1 k1 x r hfx hxid]
        rw [tagClass_eq_self (fun n hn hnid =>
          by rw [mem_eq_of_nodup_ids hwf.1 hn
            (List.mem_filter.mp (by rw [hfx]; exact List.mem_cons_self x [])).1
            (mem_ids_of_idOf hnid) (mem_ids_of_idOf hxid)]; exact hxlr)]
  obtain ⟨x, hfx, hxid, hxlc⟩ := hCone
  have hxmem : x ∈ cs1 :=
    (List.mem_filter.mp (by rw [hfx]; exact List.mem_cons_self x [])).1
  have hd := dedupFront_one (isDivClass "center")
    (some (DNode.elem k1 "DIV" ["center"] [] [])) cs1 x hfx
  have hC2 : roleStep (isDivClass "center") (some (DNode.elem k1 "DIV" ["center"] [] []))
      "list-item__center" (k1 + 1) cs1 k1 = (cs1, cId, k1) := by
    have hrs : roleStep (isDivClass "center") (some (DNode.elem k1 "DIV" ["center"] [] []))
        "list-item__center" (k1 + 1) cs1 k1
        = (tagClass cId "list-item__center" cs1, cId, k1) := by
      simp only [roleStep]
      rw [hd]
      simp [hxid]
    rw [hrs]
    rw [tagClass_eq_self (fun n hn hnid =>
      by rw [mem_eq_of_nodup_ids hwf.1 hn hxmem (mem_ids_of_idOf hnid)
        (mem_ids_of_idOf hxid)]; exact hxlc)]
  have hmv : movePhase (lrcKeep lId rId cId) cId cs1 = cs1 := movePhase_id hkeep
  simp only [lrc, hL2, hR2, hC2, hmv]

theorem hasClass_mk_self (k : Nat) (r : String) (a : List (String × String))
    (ch : List DNode) : (DNode.elem k "DIV" [r] a ch).hasClass r = true := by
  simp [DNode.hasClass, List.contains_eq_any_beq]

theorem roleStep_role_block (r t : String) (hrt : ¬(r = t)) (R1 : List DNode) (k : Nat)
    (hc : R1.countP (isDivClass r) ≤ 1) :
    (roleStep (isDivClass r) (some (DNode.elem k "DIV" [r] [] []))
      t (k + 1) R1 k).1.countP (isDivClass r) = 1 ∧
    (∃ v ∈ (roleStep (isDivClass r) (some (DNode.elem k "DIV" [r] [] []))
        t (k + 1) R1 k).1,
      v.idOf = some (roleStep (isDivClass r) (some (DNode.elem k "DIV" [r] [] []))
        t (k + 1) R1 k).2.1 ∧ v.tagOf = "DIV" ∧
      v.hasClass r = true ∧ v.hasClass t = true) ∧
    (∀ c', ¬(c' = r) → ¬(c' = t) →
      (roleStep (isDivClass r) (some (DNode.elem k "DIV" [r] [] []))
        t (k + 1) R1 k).1.countP (isDivClass c')
        = R1.countP (isDivClass c')) ∧
    (∀ j c1 c2, (∃ v ∈ R1, v.idOf = some j ∧ v.tagOf = "DIV" ∧
        v.hasClass c1 = true ∧ v.hasClass c2 = true) →
      ∃ v ∈ (roleStep (isDivClass r) (some (DNode.elem k "DIV" [r] [] []))
        t (k + 1) R1 k).1,
        v.idOf = some j ∧ v.tagOf = "DIV" ∧ v.hasClass c1 = true ∧ v.hasClass c2 = true) := by
  have hcz : R1.countP (isDivClass r) = (R1.filter (isDivClass r)).length :=
    List.countP_eq_length_filter _ R1
  rcases hf : R1.filter (isDivClass r) with _ | ⟨x0, _ | ⟨x1, rst⟩⟩
  · have hd := dedupFront_zero_some (isDivClass r)
      (DNode.elem k "DIV" [r] [] []) R1 hf
    have hrs : roleStep (isDivClass r) (some (DNode.elem k "DIV" [r] [] []))
        t (k + 1) R1 k
        = (tagClass k t (DNode.elem k "DIV" [r] [] [] :: R1), k, k + 1) := by
      simp only [roleStep]
      rw [hd]
      simp [DNode.idOf]
    rw [hrs]
    refine ⟨?_, ?_, ?_, ?_⟩
    · rw [countP_tagClass _ r t _ hrt]
      rw [List.countP_cons]
      have h0 : R1.countP (isDivClass r) = 0 := by rw [hcz, hf]; rfl
      rw [h0]
      have hmk : isDivClass r (DNode.elem k "DIV" [r] [] []) = true :=
        isDivClass_mk (by rfl) (hasClass_mk_self k r [] [])
      rw [hmk]
      rfl
    · refine ⟨(DNode.elem k "DIV" [r] [] []).addClass t,
        ?_, ?_, ?_, ?_, ?_⟩
      · unfold tagClass
        exact List.mem_map.mpr ⟨_, List.mem_cons_self _ _,
          by rw [if_pos (by simp [DNode.idOf])]⟩
      · rw [addClass_idOf]
        rfl
      · rw [addClass_tagOf]
        rfl
      · exact addClass_hasClass_mono _ (hasClass_mk_self k r [] [])
      · exact addClass_hasClass_self _ (show DNode.idOf _ = some k from rfl)
    · intro c' hne1 hne2
      rw [countP_tagClass _ c' t _ hne2]
      rw [List.countP_cons]
      have hmc : isDivClass c' (DNode.elem k "DIV" [r] [] []) = false := by
        simp [isDivClass, DNode.tagOf, DNode.hasClass, List.contains_eq_any_beq, hne1]
      rw [hmc]
      simp
    · intro j c1 c2 h
      obtain ⟨v, hv, hprof⟩ := h
      exact tagClass_exists_prof k t
        ⟨v, List.mem_cons_of_mem _ hv, hprof⟩
  · have hx0f : x0 ∈ R1.filter (isDivClass r) := by rw [hf]; simp
    have hx0 : x0 ∈ R1 := (List.mem_filter.mp hx0f).1
    have hx0p : isDivClass r x0 = true := (List.mem_filter.mp hx0f).2
    obtain ⟨j0, hj0⟩ := isDivClass_idOf hx0p
    have hd := dedupFront_one (isDivClass r)
      (some (DNode.elem k "DIV" [r] [] [])) R1 x0 hf
    have hrs : roleStep (isDivClass r) (some (DNode.elem k "DIV" [r] [] []))
        t (k + 1) R1 k
        = (tagClass j0 t R1, j0, k) := by
      simp only [roleStep]
      rw [hd]
      simp [hj0]
    rw [hrs]
    refine ⟨?_, ?_, ?_, ?_⟩
    · rw [countP_tagClass _ r t _ hrt]
      rw [hcz, hf]
      rfl
    · refine ⟨x0.addClass t, ?_, ?_, ?_, ?_, ?_⟩
      · unfold tagClass
        exact List.mem_map.mpr ⟨x0, hx0, by rw [if_pos (by simp [hj0])]⟩
      · rw [addClass_idOf]
        exact hj0
      · rw [addClass_tagOf]
        exact (isDivClass_split hx0p).1
      · exact addClass_hasClass_mono _ (isDivClass_split hx0p).2
      · exact addClass_hasClass_self _ hj0
    · intro c' hne1 hne2
      exact countP_tagClass _ c' t _ hne2
    · intro j c1 c2 h
      exact tagClass_exists_prof j0 t h
  · exfalso
    rw [hcz, hf] at hc
    simp at hc

theorem liPrefix_shape (s : ListItemState)
    (hT : s.children.countP (isDivClass "top") ≤ 1)
    (hE : s.children.countP (isDivClass "expandable-content") ≤ 1) :
    (∃ x, (liPrefix s).children.filter (isDivClass "top") = [x] ∧
      x.idOf = some (liPrefix s).topId ∧ x.hasClass "list-item__top" = true) ∧
    (∃ x, (liPrefix s).children.filter (isDivClass "expandable-content") = [x] ∧
      x.idOf = some (liPrefix s).ecId ∧
      x.hasClass "list-item__expandable-content" = true) ∧
    (∀ n ∈ (liPrefix s).children, liKeepTop (liPrefix s).topId n = true) := by
  simp only [liPrefix]
  set T := roleStep (isDivClass "top") (some (DNode.elem s.nextId "DIV" ["top"] [] []))
    "list-item__top" (s.nextId + 1) s.children s.nextId with hTd
  set E := roleStep (isDivClass "expandable-content")
    (some (DNode.elem T.2.2 "DIV" ["expandable-content"] [] []))
    "list-item__expandable-content" (T.2.2 + 1) T.1 T.2.2 with hEd
  obtain ⟨hTc, ⟨vT, hvT, hvTid, hvTtag, hvTr, hvTt⟩, hTpres, hTsurv⟩ :=
    roleStep_role_block "top" "list-item__top" (by decide) s.children s.nextId hT
  have hEc1 : T.1.countP (isDivClass "expandable-content") ≤ 1 := by
    rw [hTpres "expandable-content" (by decide) (by decide)]
    exact hE
  obtain ⟨hEc, ⟨vE, hvE, hvEid, hvEtag, hvEr, hvEt⟩, hEpres, hEsurv⟩ :=
    roleStep_role_block "expandable-content" "list-item__expandable-content" (by decide)
      T.1 T.2.2 hEc1
  obtain ⟨vT2, hvT2, hvT2id, hvT2tag, hvT2r, hvT2t⟩ :=
    hEsurv T.2.1 "top" "list-item__top" ⟨vT, hvT, hvTid, hvTtag, hvTr, hvTt⟩
  have hEtop : E.1.countP (isDivClass "top") = 1 := by
    rw [hEpres "top" (by decide) (by decide)]
    exact hTc
  have hinv : ∀ e n,
      (fun n => n.idOf == some T.2.1 || n.hasClass "expandable-content"
        || n.tagOf == "ONS-RIPPLE") (appendInto T.2.1 e n)
      = (fun n => n.idOf == some T.2.1 || n.hasClass "expandable-content"
        || n.tagOf == "ONS-RIPPLE") n := by
    intro e n
    simp only [appendInto_idOf, appendInto_hasClass, appendInto_tagOf]
  refine ⟨?_, ?_, ?_⟩
  · obtain ⟨w, hw, hwid, hwtag, hwr, hwt⟩ :=
      @movePhase_exists_prof (fun n => n.idOf == some T.2.1
          || n.hasClass "expandable-content" || n.tagOf == "ONS-RIPPLE")
        T.2.1 E.1 T.2.1 "top" "list-item__top"
        ⟨vT2, hvT2, ⟨hvT2id, hvT2tag, hvT2r, hvT2t⟩, by simp [hvT2id]⟩
    have hwp : isDivClass "top" w = true := isDivClass_mk hwtag hwr
    have hle := countP_movePhase_le (fun n => n.idOf == some T.2.1
        || n.hasClass "expandable-content" || n.tagOf == "ONS-RIPPLE") T.2.1 E.1 "top"
    rw [hEtop] at hle
    have hpos : 0 < (movePhase (fun n => n.idOf == some T.2.1
        || n.hasClass "expandable-content" || n.tagOf == "ONS-RIPPLE") T.2.1 E.1).countP
          (isDivClass "top") :=
      List.countP_pos_iff.mpr ⟨w, hw, hwp⟩
    exact ⟨w, filter_eq_single (by omega) hw hwp, hwid, hwt⟩
  · obtain ⟨w, hw, hwid, hwtag, hwr, hwt⟩ :=
      @movePhase_exists_prof (fun n => n.idOf == some T.2.1
          || n.hasClass "expandable-content" || n.tagOf == "ONS-RIPPLE")
        T.2.1 E.1 E.2.1 "expandable-content" "list-item__expandable-content"
        ⟨vE, hvE, ⟨hvEid, hvEtag, hvEr, hvEt⟩, by simp [hvEr]⟩
    have hwp : isDivClass "expandable-content" w = true := isDivClass_mk hwtag hwr
    have hle := countP_movePhase_le (fun n => n.idOf == some T.2.1
        || n.hasClass "expandable-content" || n.tagOf == "ONS-RIPPLE") T.2.1 E.1
        "expandable-content"
    rw [hEc] at hle
    have hpos : 0 < (movePhase (fun n => n.idOf == some T.2.1
        || n.hasClass "expandable-content" || n.tagOf == "ONS-RIPPLE") T.2.1 E.1).countP
          (isDivClass "expandable-content") :=
      List.countP_pos_iff.mpr ⟨w, hw, hwp⟩
    exact ⟨w, filter_eq_single (by omega) hw hwp, hwid, hwt⟩
  · intro n hn
    exact movePhase_all_keep _ T.2.1 E.1 hinv n hn

theorem liPrefix_fixed (e : Bool) (cs1 : List DNode) (k1 kk tId eId : Nat)
    (hwf : WfForest cs1 kk)
    (hTone : ∃ x, cs1.filter (isDivClass "top") = [x] ∧ x.idOf = some tId ∧
      x.hasClass "list-item__top" = true)
    (hEone : ∃ x, cs1.filter (isDivClass "expandable-content") = [x] ∧
      x.idOf = some eId ∧ x.hasClass "list-item__expandable-content" = true)
    (hkeep : ∀ n ∈ cs1, liKeepTop tId n = true) :
    liPrefix ⟨e, cs1, k1⟩ = ⟨cs1, tId, eId, k1⟩ := by
  have hT2 : roleStep (isDivClass "top") (some (DNode.elem k1 "DIV" ["top"] [] []))
      "list-item__top" (k1 + 1) cs1 k1 = (cs1, tId, k1) := by
    obtain ⟨x, hfx, hxid, hxt⟩ := hTone
    have hxmem : x ∈ cs1 :=
      (List.mem_filter.mp (by rw [hfx]; exact List.mem_cons_self x [])).1
    have hd := dedupFront_one (isDivClass "top")
      (some (DNode.elem k1 "DIV" ["top"] [] [])) cs1 x hfx
    have hrs : roleStep (isDivClass "top") (some (DNode.elem k1 "DIV" ["top"] [] []))
        "list-item__top" (k1 + 1) cs1 k1
        = (tagClass tId "list-item__top" cs1, tId, k1) := by
      simp only [roleStep]
      rw [hd]
      simp [hxid]
    rw [hrs]
    rw [tagClass_eq_self (fun n hn hnid =>
      by rw [mem_eq_of_nodup_ids hwf.1 hn hxmem (mem_ids_of_idOf hnid)
        (mem_ids_of_idOf hxid)]; exact hxt)]
  have hE2 : roleStep (isDivClass "expandable-content")
      (some (DNode.elem k1 "DIV" ["expandable-content"] [] []))
      "list-item__expandable-content" (k1 + 1) cs1 k1 = (cs1, eId, k1) := by
    obtain ⟨x, hfx, hxid, hxt⟩ := hEone
    have hxmem : x ∈ cs1 :=
      (List.mem_filter.mp (by rw [hfx]; exact List.mem_cons_self x [])).1
    have hd := dedupFront_one (isDivClass "expandable-content")
      (some (DNode.elem k1 "DIV" ["expandable-content"] [] [])) cs1 x hfx
    have hrs : roleStep (isDivClass "expandable-content")
        (some (DNode.elem k1 "DIV" ["expandable-content"] [] []))
        "list-item__expandable-content" (k1 + 1) cs1 k1
        = (tagClass eId "list-item__expandable-content" cs1, eId, k1) := by
      simp only [roleStep]
      rw [hd]
      simp [hxid]
    rw [hrs]
    rw [tagClass_eq_self (fun n hn hnid =>
      by rw [mem_eq_of_nodup_ids hwf.1 hn hxmem (mem_ids_of_idOf hnid)
        (mem_ids_of_idOf hxid)]; exact hxt)]
  have hmv : movePhase (fun n => n.idOf == some tId || n.hasClass "expandable-content"
      || n.tagOf == "ONS-RIPPLE") tId cs1 = cs1 :=
    movePhase_id (fun n hn => hkeep n hn)
  simp only [liPrefix, hT2, hE2, hmv]

theorem lrc_idem (exp : Bool) (cs0 : List DNode) (k0 : Nat)
    (hwf : WfForest cs0 k0)
    (hL : cs0.countP (isDivClass "left") ≤ 1)
    (hR : cs0.countP (isDivClass "right") ≤ 1)
    (hC : cs0.countP (isDivClass "center") ≤ 1) :
    lrc exp (lrc exp cs0 k0).children (lrc exp cs0 k0).nextId
      = ⟨(lrc exp cs0 k0).children, (lrc exp cs0 k0).leftId, (lrc exp cs0 k0).rightId,
        (lrc exp cs0 k0).centerId, (lrc exp cs0 k0).nextId⟩ := by
  obtain ⟨h1, h2, h3, h4, h5⟩ := lrc_shape exp cs0 k0 hL hR hC
  have hwf1 : WfForest (lrc exp cs0 k0).children (lrc exp cs0 k0).nextId :=
    freshExt_wf hwf (lrc_freshExt exp cs0 k0 hwf hR hC)
  have hkeep := (lrc_relocation exp cs0 k0 hR hC).1
  exact lrc_fixed exp (lrc exp cs0 k0).children (lrc exp cs0 k0).nextId
    (lrc exp cs0 k0).nextId (lrc exp cs0 k0).leftId (lrc exp cs0 k0).rightId
    (lrc exp cs0 k0).centerId hwf1 h1 h2 h3 h4 h5 hkeep

theorem listItemCompile_idem_flat (cs : List DNode) (k : Nat)
    (hwf : WfForest cs k)
    (hL : cs.countP (isDivClass "left") ≤ 1)
    (hR : cs.countP (isDivClass "right") ≤ 1)
    (hC : cs.countP (isDivClass "center") ≤ 1) :
    listItemCompile (listItemCompile ⟨false, cs, k⟩) = listItemCompile ⟨false, cs, k⟩ := by
  have hrun : ∀ (X : List DNode) (K : Nat), listItemCompile ⟨false, X, K⟩
      = ⟨false, (lrc false X K).children, (lrc false X K).nextId⟩ := fun X K => rfl
  have h2 := lrc_idem false cs k hwf hL hR hC
  calc listItemCompile (listItemCompile ⟨false, cs, k⟩)
      = listItemCompile ⟨false, (lrc false cs k).children, (lrc false cs k).nextId⟩ := by
        rw [hrun]
    _ = ⟨false, (lrc false (lrc false cs k).children (lrc false cs k).nextId).children,
          (lrc false (lrc false cs k).children (lrc false cs k).nextId).nextId⟩ := by
        rw [hrun]
    _ = ⟨false, (lrc false cs k).children, (lrc false cs k).nextId⟩ := by rw [h2]
    _ = listItemCompile ⟨false, cs, k⟩ := (hrun cs k).symm

theorem mapChildListOf_exists_prof {bid : Nat} {f : List DNode → List DNode}
    {cs : List DNode} {j : Nat} {c1 c2 : String}
    (h : ∃ v ∈ cs, v.idOf = some j ∧ v.tagOf = "DIV" ∧ v.hasClass c1 = true ∧
      v.hasClass c2 = true) :
    ∃ v ∈ mapChildListOf bid f cs, v.idOf = some j ∧ v.tagOf = "DIV" ∧
      v.hasClass c1 = true ∧ v.hasClass c2 = true := by
  obtain ⟨v, hv, hid, htag, h1, h2⟩ := h
  unfold mapChildListOf
  cases v with
  | elem i t cl a ch =>
      by_cases hb : (i == bid) = true
      · exact ⟨DNode.elem i t cl a (f ch),
          List.mem_map.mpr ⟨_, hv, by simp [hb]⟩, hid, htag, h1, h2⟩
      · exact ⟨DNode.elem i t cl a ch,
          List.mem_map.mpr ⟨_, hv, by simp [hb]⟩, hid, htag, h1, h2⟩
  | text s => simp [DNode.idOf] at hid

theorem filter_one_mapChildListOf (bid : Nat) (f : List DNode → List DNode)
    (cs : List DNode) (j : Nat) (c1 c2 : String)
    (h : ∃ x, cs.filter (isDivClass c1) = [x] ∧ x.idOf = some j ∧ x.hasClass c2 = true) :
    ∃ x, (mapChildListOf bid f cs).filter (isDivClass c1) = [x] ∧ x.idOf = some j ∧
      x.hasClass c2 = true := by
  obtain ⟨x, hfx, hxid, hxc⟩ := h
  have hxf : x ∈ cs.filter (isDivClass c1) := by
    rw [hfx]
    exact List.mem_cons_self x []
  have hxmem : x ∈ cs := (List.mem_filter.mp hxf).1
  have hxp : isDivClass c1 x = true := (List.mem_filter.mp hxf).2
  obtain ⟨htag, hcl⟩ := isDivClass_split hxp
  obtain ⟨v, hv, hvid, hvtag, hvc1, hvc2⟩ :=
    @mapChildListOf_exists_prof bid f cs j c1 c2 ⟨x, hxmem, hxid, htag, hcl, hxc⟩
  have hcount : (mapChildListOf bid f cs).countP (isDivClass c1) = 1 := by
    rw [countP_mapChildListOf, List.countP_eq_length_filter, hfx]
    rfl
  exact ⟨v, filter_eq_single hcount hv (isDivClass_mk hvtag hvc1), hvid, hvc2⟩

theorem liKeepTop_mapChildListOf (bid : Nat) (f : List DNode → List DNode)
    (cs : List DNode) (tid : Nat) (h : ∀ n ∈ cs, liKeepTop tid n = true) :
    ∀ n ∈ mapChildListOf bid f cs, liKeepTop tid n = true := by
  intro n hn
  obtain ⟨m, hm, hid, htag, hcl⟩ := mem_of_mapChildListOf hn
  show (n.idOf == some tid || n.hasClass "expandable-content"
    || n.tagOf == "ONS-RIPPLE") = true
  rw [hid, htag, hcl]
  exact h m hm

theorem listItemCompile_exp_fix (cs1 : List DNode) (k1 tId eId : Nat)
    (hwf1 : WfForest cs1 k1)
    (hTone : ∃ x, cs1.filter (isDivClass "top") = [x] ∧ x.idOf = some tId ∧
      x.hasClass "list-item__top" = true)
    (hEone : ∃ x, cs1.filter (isDivClass "expandable-content") = [x] ∧
      x.idOf = some eId ∧ x.hasClass "list-item__expandable-content" = true)
    (hkeep : ∀ n ∈ cs1, liKeepTop tId n = true)
    (hlrcC : (lrc true (childListOf tId cs1) k1).children = childListOf tId cs1)
    (hlrcN : (lrc true (childListOf tId cs1) k1).nextId = k1) :
    listItemCompile ⟨true, cs1, k1⟩ = ⟨true, cs1, k1⟩ := by
  have hm2 : liPrefix ⟨true, cs1, k1⟩ = ⟨cs1, tId, eId, k1⟩ :=
    liPrefix_fixed true cs1 k1 k1 tId eId hwf1 hTone hEone hkeep
  have h2 : listItemCompile ⟨true, cs1, k1⟩
      = ⟨true, mapChildListOf (liPrefix ⟨true, cs1, k1⟩).topId
          (fun _ => (lrc true (childListOf (liPrefix ⟨true, cs1, k1⟩).topId
            (liPrefix ⟨true, cs1, k1⟩).children) (liPrefix ⟨true, cs1, k1⟩).nextId).children)
          (liPrefix ⟨true, cs1, k1⟩).children,
        (lrc true (childListOf (liPrefix ⟨true, cs1, k1⟩).topId
          (liPrefix ⟨true, cs1, k1⟩).children) (liPrefix ⟨true, cs1, k1⟩).nextId).nextId⟩ := rfl
  rw [h2]
  simp only [hm2]
  rw [hlrcC, hlrcN]
  rw [mapChildListOf_self (wf_countP_le_one hwf1 tId)]

theorem listItemCompile_idem_exp (cs : List DNode) (k : Nat)
    (hwf : WfForest cs k)
    (hT : cs.countP (isDivClass "top") ≤ 1)
    (hE : cs.countP (isDivClass "expandable-content") ≤ 1)
    (hL : (childListOf (liPrefix ⟨true, cs, k⟩).topId
      (liPrefix ⟨true, cs, k⟩).children).countP (isDivClass "left") ≤ 1)
    (hR : (childListOf (liPrefix ⟨true, cs, k⟩).topId
      (liPrefix ⟨true, cs, k⟩).children).countP (isDivClass "right") ≤ 1)
    (hC : (childListOf (liPrefix ⟨true, cs, k⟩).topId
      (liPrefix ⟨true, cs, k⟩).children).countP (isDivClass "center") ≤ 1) :
    listItemCompile (listItemCompile ⟨true, cs, k⟩) = listItemCompile ⟨true, cs, k⟩ := by
  obtain ⟨hfe1, hexT, hwfm⟩ := liPrefix_freshExt ⟨true, cs, k⟩ hwf hT hE
  obtain ⟨hP1, hP2, hP3⟩ := liPrefix_shape ⟨true, cs, k⟩ hT hE
  have hwfin : WfForest (childListOf (liPrefix ⟨true, cs, k⟩).topId
      (liPrefix ⟨true, cs, k⟩).children) (liPrefix ⟨true, cs, k⟩).nextId :=
    wf_childListOf _ hwfm
  have hoi := lrc_idem true (childListOf (liPrefix ⟨true, cs, k⟩).topId
    (liPrefix ⟨true, cs, k⟩).children) (liPrefix ⟨true, cs, k⟩).nextId hwfin hL hR hC
  have hcnt : (liPrefix ⟨true, cs, k⟩).children.countP
      (fun n => n.idOf == some (liPrefix ⟨true, cs, k⟩).topId) = 1 := by
    obtain ⟨n, hmem, hid⟩ := hexT
    exact countP_idOf_eq_one hwfm hmem hid
  have hfe2 := lrc_freshExt true (childListOf (liPrefix ⟨true, cs, k⟩).topId
    (liPrefix ⟨true, cs, k⟩).children) (liPrefix ⟨true, cs, k⟩).nextId hwfin hR hC
  have hfe3 := mapChildListOf_freshExt (liPrefix ⟨true, cs, k⟩).topId hcnt hfe2
  have hwf1 : WfForest (mapChildListOf (liPrefix ⟨true, cs, k⟩).topId
      (fun _ => (lrc true (childListOf (liPrefix ⟨true, cs, k⟩).topId
        (liPrefix ⟨true, cs, k⟩).children) (liPrefix ⟨true, cs, k⟩).nextId).children)
      (liPrefix ⟨true, cs, k⟩).children)
      (lrc true (childListOf (liPrefix ⟨true, cs, k⟩).topId
        (liPrefix ⟨true, cs, k⟩).children) (liPrefix ⟨true, cs, k⟩).nextId).nextId :=
    freshExt_wf hwfm hfe3
  have hchild2 : childListOf (liPrefix ⟨true, cs, k⟩).topId
      (mapChildListOf (liPrefix ⟨true, cs, k⟩).topId
        (fun _ => (lrc true (childListOf (liPrefix ⟨true, cs, k⟩).topId
          (liPrefix ⟨true, cs, k⟩).children) (liPrefix ⟨true, cs, k⟩).nextId).children)
        (liPrefix ⟨true, cs, k⟩).children)
      = (lrc true (childListOf (liPrefix ⟨true, cs, k⟩).topId
          (liPrefix ⟨true, cs, k⟩).children) (liPrefix ⟨true, cs, k⟩).nextId).children :=
    childListOf_mapChildListOf _ _ _ hexT
  have h1 : listItemCompile ⟨true, cs, k⟩
      = ⟨true, mapChildListOf (liPrefix ⟨true, cs, k⟩).topId
          (fun _ => (lrc true (childListOf (liPrefix ⟨true, cs, k⟩).topId
            (liPrefix ⟨true, cs, k⟩).children) (liPrefix ⟨true, cs, k⟩).nextId).children)
          (liPrefix ⟨true, cs, k⟩).children,
        (lrc true (childListOf (liPrefix ⟨true, cs, k⟩).topId
          (liPrefix ⟨true, cs, k⟩).children) (liPrefix ⟨true, cs, k⟩).nextId).nextId⟩ := rfl
  rw [h1]
  apply listItemCompile_exp_fix _ _ (liPrefix ⟨true, cs, k⟩).topId (liPrefix ⟨true, cs, k⟩).ecId
    hwf1
    (filter_one_mapChildListOf _ _ _ _ "top" "list-item__top" hP1)
    (filter_one_mapChildListOf _ _ _ _ "expandable-content" "list-item__expandable-content" hP2)
    (liKeepTop_mapChildListOf _ _ _ _ hP3)
  · rw [hchild2]
    rw [hoi]
  · rw [hchild2]
    rw [hoi]

theorem tabIconPhase_keep (cs : List DNode) (bid : Nat) (icon activeIcon : Option String)
    (touched : Bool) (k : Nat)
    (h1 : (truthy icon || truthy activeIcon) = true →
      ∃ w, (childListOf bid cs).filter (DNode.hasClass "tabbar__icon") = [w])
    (h2 : (truthy icon || truthy activeIcon) = false →
      (childListOf bid cs).filter (DNode.hasClass "tabbar__icon") = []) :
    tabIconPhase cs bid icon activeIcon touched k = ⟨cs, icon, touched, k⟩ := by
  simp only [tabIconPhase]
  cases hcond : (truthy icon || truthy activeIcon) with
  | true =>
      obtain ⟨w, hw⟩ := h1 hcond
      rw [hw]
      show (⟨mapChildListOf bid
          (removeIds ((([w] : List DNode).drop 1).filterMap DNode.idOf)) cs,
        icon, touched, k⟩ : TabSecOut) = ⟨cs, icon, touched, k⟩
      have hmi : mapChildListOf bid
          (removeIds ((([w] : List DNode).drop 1).filterMap DNode.idOf)) cs = cs :=
        mapChildListOf_fun_id (fun l => removeIds_nil l) cs
      rw [hmi]
  | false =>
      rw [h2 hcond]
      show (⟨mapChildListOf bid
          (removeIds ((([] : List DNode).drop 1).filterMap DNode.idOf)) cs,
        icon, touched, k⟩ : TabSecOut) = ⟨cs, icon, touched, k⟩
      have hmi : mapChildListOf bid
          (removeIds ((([] : List DNode).drop 1).filterMap DNode.idOf)) cs = cs :=
        mapChildListOf_fun_id (fun l => removeIds_nil l) cs
      rw [hmi]

theorem tabLabelPhase_keep (cs : List DNode) (bid : Nat) (label : Option String)
    (touched : Bool) (k : Nat)
    (h1 : truthy label = true →
      ∃ w, (childListOf bid cs).filter (DNode.hasClass "tabbar__label") = [w])
    (h2 : truthy label = false →
      (childListOf bid cs).filter (DNode.hasClass "tabbar__label") = []) :
    tabLabelPhase cs bid label touched k = ⟨cs, label, touched, k⟩ := by
  simp only [tabLabelPhase]
  cases hcond : truthy label with
  | true =>
      obtain ⟨w, hw⟩ := h1 hcond
      rw [hw]
      show (⟨mapChildListOf bid
          (removeIds ((([w] : List DNode).drop 1).filterMap DNode.idOf)) cs,
        label, touched, k⟩ : TabSecOut) = ⟨cs, label, touched, k⟩
      have hmi : mapChildListOf bid
          (removeIds ((([w] : List DNode).drop 1).filterMap DNode.idOf)) cs = cs :=
        mapChildListOf_fun_id (fun l => removeIds_nil l) cs
      rw [hmi]
  | false =>
      rw [h2 hcond]
      show (⟨mapChildListOf bid
          (removeIds ((([] : List DNode).drop 1).filterMap DNode.idOf)) cs,
        label, touched, k⟩ : TabSecOut) = ⟨cs, label, touched, k⟩
      have hmi : mapChildListOf bid
          (removeIds ((([] : List DNode).drop 1).filterMap DNode.idOf)) cs = cs :=
        mapChildListOf_fun_id (fun l => removeIds_nil l) cs
      rw [hmi]

theorem tabBadgePhase_keep (cs : List DNode) (bid : Nat) (badge : Option String)
    (touched : Bool) (k : Nat)
    (h1 : truthy badge = true →
      ∃ w, (childListOf bid cs).filter (DNode.hasClass "tabbar__badge") = [w])
    (h2 : truthy badge = false →
      (childListOf bid cs).filter (DNode.hasClass "tabbar__badge") = []) :
    tabBadgePhase cs bid badge touched k = ⟨cs, badge, touched, k⟩ := by
  simp only [tabBadgePhase]
  cases hcond : truthy badge with
  | true =>
      obtain ⟨w, hw⟩ := h1 hcond
      rw [hw]
      show (⟨mapChildListOf bid
          (removeIds ((([w] : List DNode).drop 1).filterMap DNode.idOf)) cs,
        badge, touched, k⟩ : TabSecOut) = ⟨cs, badge, touched, k⟩
      have hmi : mapChildListOf bid
          (removeIds ((([w] : List DNode).drop 1).filterMap DNode.idOf)) cs = cs :=
        mapChildListOf_fun_id (fun l => removeIds_nil l) cs
      rw [hmi]
  | false =>
      rw [h2 hcond]
      show (⟨mapChildListOf bid
          (removeIds ((([] : List DNode).drop 1).filterMap DNode.idOf)) cs,
        badge, touched, k⟩ : TabSecOut) = ⟨cs, badge, touched, k⟩
      have hmi : mapChildListOf bid
          (removeIds ((([] : List DNode).drop 1).filterMap DNode.idOf)) cs = cs :=
        mapChildListOf_fun_id (fun l => removeIds_nil l) cs
      rw [hmi]

theorem tabRipplePhase_keep (cs : List DNode) (bid : Nat) (ripple : Bool)
    (touched : Bool) (k : Nat)
    (h1 : ripple = true →
      ∃ w, (childListOf bid cs).filter (fun n => n.tagOf == "ONS-RIPPLE") = [w])
    (h2 : ripple = false →
      (childListOf bid cs).filter (fun n => n.tagOf == "ONS-RIPPLE") = []) :
    tabRipplePhase cs bid ripple touched k = ⟨cs, ripple, touched, k⟩ := by
  simp only [tabRipplePhase]
  cases hcond : ripple with
  | true =>
      obtain ⟨w, hw⟩ := h1 hcond
      rw [hw]
      show (⟨mapChildListOf bid
          (removeIds ((([w] : List DNode).drop 1).filterMap DNode.idOf)) cs,
        true, touched, k⟩ : TabRippleOut) = ⟨cs, true, touched, k⟩
      have hmi : mapChildListOf bid
          (removeIds ((([w] : List DNode).drop 1).filterMap DNode.idOf)) cs = cs :=
        mapChildListOf_fun_id (fun l => removeIds_nil l) cs
      rw [hmi]
  | false =>
      rw [h2 hcond]
      show (⟨mapChildListOf bid
          (removeIds ((([] : List DNode).drop 1).filterMap DNode.idOf)) cs,
        false, touched, k⟩ : TabRippleOut) = ⟨cs, false, touched, k⟩
      have hmi : mapChildListOf bid
          (removeIds ((([] : List DNode).drop 1).filterMap DNode.idOf)) cs = cs :=
        mapChildListOf_fun_id (fun l => removeIds_nil l) cs
      rw [hmi]

theorem tab_normal_fixed (b i : Nat) (clsB clsI : List String)
    (aB aI : List (String × String)) (L chI : List DNode)
    (icon activeIcon label badge : Option String)
    (ripple iT lT bT rT : Bool) (k : Nat)
    (hbtn : (DNode.elem b "BUTTON" clsB aB L).hasClass "tabbar__button" = true)
    (hibtn : (DNode.elem i "INPUT" clsI aI chI).hasClass "tabbar__button" = false)
    (hic1 : (truthy icon || truthy activeIcon) = true →
      ∃ w, L.filter (DNode.hasClass "tabbar__icon") = [w])
    (hic2 : (truthy icon || truthy activeIcon) = false →
      L.filter (DNode.hasClass "tabbar__icon") = [])
    (hla1 : truthy label = true → ∃ w, L.filter (DNode.hasClass "tabbar__label") = [w])
    (hla2 : truthy label = false → L.filter (DNode.hasClass "tabbar__label") = [])
    (hba1 : truthy badge = true → ∃ w, L.filter (DNode.hasClass "tabbar__badge") = [w])
    (hba2 : truthy badge = false → L.filter (DNode.hasClass "tabbar__badge") = [])
    (hri1 : ripple = true → ∃ w, L.filter (fun n => n.tagOf == "ONS-RIPPLE") = [w])
    (hri2 : ripple = false → L.filter (fun n => n.tagOf == "ONS-RIPPLE") = []) :
    tabCompile ⟨[DNode.elem b "BUTTON" clsB aB L, DNode.elem i "INPUT" clsI aI chI],
        icon, activeIcon, label, badge, ripple, iT, lT, bT, rT, some b, k⟩
      = ⟨[DNode.elem b "BUTTON" clsB aB L, DNode.elem i "INPUT" clsI aI chI],
        icon, activeIcon, label, badge, ripple, iT, lT, bT, rT, some b, k⟩ := by
  have hflt : ([DNode.elem b "BUTTON" clsB aB L,
      DNode.elem i "INPUT" clsI aI chI] : List DNode).filter
        (DNode.hasClass "tabbar__button") = [DNode.elem b "BUTTON" clsB aB L] := by
    rw [List.filter_cons_of_pos hbtn, List.filter_cons_of_neg (by simp [hibtn])]
    rfl
  have hfind : ([DNode.elem b "BUTTON" clsB aB L] : List DNode).find?
      (fun n => !(n.idOf == (some b : Option Nat))) = none := by
    simp [DNode.idOf]
  have hbp : tabButtonPhase ⟨[DNode.elem b "BUTTON" clsB aB L,
      DNode.elem i "INPUT" clsI aI chI],
      icon, activeIcon, label, badge, ripple, iT, lT, bT, rT, some b, k⟩
      = ⟨[DNode.elem b "BUTTON" clsB aB L, DNode.elem i "INPUT" clsI aI chI],
        b, some b, k⟩ := by
    simp only [tabButtonPhase]
    rw [hflt, hfind]
  have hfin : ([DNode.elem b "BUTTON" clsB aB L,
      DNode.elem i "INPUT" clsI aI chI] : List DNode).filter
        (fun n => n.tagOf == "INPUT") = [DNode.elem i "INPUT" clsI aI chI] := by
    rw [List.filter_cons_of_neg (by simp [DNode.tagOf]),
      List.filter_cons_of_pos (by simp [DNode.tagOf])]
    rfl
  have hip : tabInputPhase [DNode.elem b "BUTTON" clsB aB L,
      DNode.elem i "INPUT" clsI aI chI] k
      = ⟨[DNode.elem b "BUTTON" clsB aB L, DNode.elem i "INPUT" clsI aI chI], i, k⟩ := by
    simp only [tabInputPhase]
    rw [hfin]
    show (⟨removeIds ((([DNode.elem i "INPUT" clsI aI chI] : List DNode).drop 1).filterMap
        DNode.idOf) [DNode.elem b "BUTTON" clsB aB L, DNode.elem i "INPUT" clsI aI chI],
      i, k⟩ : TabInputOut)
      = ⟨[DNode.elem b "BUTTON" clsB aB L, DNode.elem i "INPUT" clsI aI chI], i, k⟩
    have hri : removeIds ((([DNode.elem i "INPUT" clsI aI chI] : List DNode).drop 1).filterMap
        DNode.idOf) [DNode.elem b "BUTTON" clsB aB L, DNode.elem i "INPUT" clsI aI chI]
        = [DNode.elem b "BUTTON" clsB aB L, DNode.elem i "INPUT" clsI aI chI] :=
      removeIds_nil _
    rw [hri]
  have hmv : movePhase (fun n => n.idOf == (some b : Option Nat)
      || n.idOf == (some i : Option Nat)) b
      [DNode.elem b "BUTTON" clsB aB L, DNode.elem i "INPUT" clsI aI chI]
      = [DNode.elem b "BUTTON" clsB aB L, DNode.elem i "INPUT" clsI aI chI] := by
    apply movePhase_id
    intro n hn
    rcases List.mem_cons.mp hn with rfl | hn2
    · simp [DNode.idOf]
    · rcases List.mem_cons.mp hn2 with rfl | hn3
      · simp [DNode.idOf]
      · cases hn3
  have hmp : tabPrefix ⟨[DNode.elem b "BUTTON" clsB aB L,
      DNode.elem i "INPUT" clsI aI chI],
      icon, activeIcon, label, badge, ripple, iT, lT, bT, rT, some b, k⟩
      = ⟨[DNode.elem b "BUTTON" clsB aB L, DNode.elem i "INPUT" clsI aI chI],
        b, i, some b, k⟩ := by
    simp only [tabPrefix, hbp, hip, hmv]
  have hchild : childListOf b [DNode.elem b "BUTTON" clsB aB L,
      DNode.elem i "INPUT" clsI aI chI] = L := by
    unfold childListOf
    rw [List.find?_cons_of_pos _ (by simp [DNode.idOf])]
    rfl
  have hicon := tabIconPhase_keep
    [DNode.elem b "BUTTON" clsB aB L, DNode.elem i "INPUT" clsI aI chI] b
    icon activeIcon iT k
    (fun hc => by rw [hchild]; exact hic1 hc)
    (fun hc => by rw [hchild]; exact hic2 hc)
  have hlabel := tabLabelPhase_keep
    [DNode.elem b "BUTTON" clsB aB L, DNode.elem i "INPUT" clsI aI chI] b
    label lT k
    (fun hc => by rw [hchild]; exact hla1 hc)
    (fun hc => by rw [hchild]; exact hla2 hc)
  have hbadge := tabBadgePhase_keep
    [DNode.elem b "BUTTON" clsB aB L, DNode.elem i "INPUT" clsI aI chI] b
    badge bT k
    (fun hc => by rw [hchild]; exact hba1 hc)
    (fun hc => by rw [hchild]; exact hba2 hc)
  have hripple := tabRipplePhase_keep
    [DNode.elem b "BUTTON" clsB aB L, DNode.elem i "INPUT" clsI aI chI] b
    ripple rT k
    (fun hc => by rw [hchild]; exact hri1 hc)
    (fun hc => by rw [hchild]; exact hri2 hc)
  simp only [tabCompile, hmp, hicon, hlabel, hbadge, hripple]

theorem tabIconPhase_grow (b : Nat) (curL : List DNode) (inp : DNode)
    (hinp : ¬(inp.idOf = some b)) (icon activeIcon : Option String)
    (touched : Bool) (k : Nat)
    (hfilt : curL.filter (DNode.hasClass "tabbar__icon") = []) :
    ∃ E kE, tabIconPhase [DNode.elem b "BUTTON" ["tabbar__button"] [] curL, inp]
        b icon activeIcon touched k
        = ⟨[DNode.elem b "BUTTON" ["tabbar__button"] [] (curL ++ E), inp],
          icon, touched, kE⟩ ∧
      ((truthy icon || truthy activeIcon) = true → ∃ w, E = [w] ∧ w.tagOf = "DIV" ∧
        w.hasClass "tabbar__icon" = true ∧ w.hasClass "tabbar__label" = false ∧
        w.hasClass "tabbar__badge" = false) ∧
      ((truthy icon || truthy activeIcon) = false → E = []) := by
  have hchild : childListOf b [DNode.elem b "BUTTON" ["tabbar__button"] [] curL, inp]
      = curL := by
    unfold childListOf
    rw [List.find?_cons_of_pos _ (by simp [DNode.idOf])]
    rfl
  cases hcond : (truthy icon || truthy activeIcon) with
  | true =>
      refine ⟨[DNode.elem k "DIV" ["tabbar__icon"] []
        [DNode.elem (k + 1) "ONS-ICON" [] [] []]], k + 2, ?_, ?_, ?_⟩
      · simp only [tabIconPhase]
        rw [hchild, hfilt, hcond]
        show (⟨mapChildListOf b
            (removeIds ((([] : List DNode).drop 1).filterMap DNode.idOf))
            (mapChildListOf b (fun ch => ch ++ [DNode.elem k "DIV" ["tabbar__icon"] []
              [DNode.elem (k + 1) "ONS-ICON" [] [] []]])
              [DNode.elem b "BUTTON" ["tabbar__button"] [] curL, inp]),
          icon, touched, k + 2⟩ : TabSecOut)
          = ⟨[DNode.elem b "BUTTON" ["tabbar__button"] [] (curL ++
              [DNode.elem k "DIV" ["tabbar__icon"] []
                [DNode.elem (k + 1) "ONS-ICON" [] [] []]]), inp], icon, touched, k + 2⟩
        have hmm : mapChildListOf b (fun ch => ch ++ [DNode.elem k "DIV" ["tabbar__icon"] []
            [DNode.elem (k + 1) "ONS-ICON" [] [] []]])
            [DNode.elem b "BUTTON" ["tabbar__button"] [] curL, inp]
            = [DNode.elem b "BUTTON" ["tabbar__button"] [] (curL ++
                [DNode.elem k "DIV" ["tabbar__icon"] []
                  [DNode.elem (k + 1) "ONS-ICON" [] [] []]]), inp] := by
          rw [mapChildListOf_cons_hit b _ "BUTTON" ["tabbar__button"] [] curL [inp],
            mapChildListOf_cons b _ inp [] hinp]
          rfl
        rw [hmm]
        have hout : mapChildListOf b
            (removeIds ((([] : List DNode).drop 1).filterMap DNode.idOf))
            [DNode.elem b "BUTTON" ["tabbar__button"] [] (curL ++
              [DNode.elem k "DIV" ["tabbar__icon"] []
                [DNode.elem (k + 1) "ONS-ICON" [] [] []]]), inp]
            = [DNode.elem b "BUTTON" ["tabbar__button"] [] (curL ++
              [DNode.elem k "DIV" ["tabbar__icon"] []
                [DNode.elem (k + 1) "ONS-ICON" [] [] []]]), inp] :=
          mapChildListOf_fun_id (fun l => removeIds_nil l) _
        rw [hout]
      · intro _
        exact ⟨_, rfl, rfl, rfl, rfl, rfl⟩
      · intro h
        exact nomatch h
  | false =>
      refine ⟨[], k, ?_, ?_, ?_⟩
      · simp only [tabIconPhase]
        rw [hchild, hfilt, hcond]
        show (⟨mapChildListOf b
            (removeIds ((([] : List DNode).drop 1).filterMap DNode.idOf))
            [DNode.elem b "BUTTON" ["tabbar__button"] [] curL, inp],
          icon, touched, k⟩ : TabSecOut)
          = ⟨[DNode.elem b "BUTTON" ["tabbar__button"] [] (curL ++ []), inp],
            icon, touched, k⟩
        have hout : mapChildListOf b
            (removeIds ((([] : List DNode).drop 1).filterMap DNode.idOf))
            [DNode.elem b "BUTTON" ["tabbar__button"] [] curL, inp]
            = [DNode.elem b "BUTTON" ["tabbar__button"] [] curL, inp] :=
          mapChildListOf_fun_id (fun l => removeIds_nil l) _
        rw [hout, List.append_nil]
      · intro h
        exact nomatch h
      · intro _
        rfl

theorem tabLabelPhase_grow (b : Nat) (curL : List DNode) (inp : DNode)
    (hinp : ¬(inp.idOf = some b)) (label : Option String)
    (touched : Bool) (k : Nat)
    (hfilt : curL.filter (DNode.hasClass "tabbar__label") = []) :
    ∃ E kE, tabLabelPhase [DNode.elem b "BUTTON" ["tabbar__button"] [] curL, inp]
        b label touched k
        = ⟨[DNode.elem b "BUTTON" ["tabbar__button"] [] (curL ++ E), inp],
          label, touched, kE⟩ ∧
      (truthy label = true → ∃ w, E = [w] ∧ w.tagOf = "DIV" ∧
        w.hasClass "tabbar__icon" = false ∧ w.hasClass "tabbar__label" = true ∧
        w.hasClass "tabbar__badge" = false) ∧
      (truthy label = false → E = []) := by
  have hchild : childListOf b [DNode.elem b "BUTTON" ["tabbar__button"] [] curL, inp]
      = curL := by
    unfold childListOf
    rw [List.find?_cons_of_pos _ (by simp [DNode.idOf])]
    rfl
  cases hcond : truthy label with
  | true =>
      refine ⟨[DNode.elem k "DIV" ["tabbar__label"] [] []], k + 1, ?_, ?_, ?_⟩
      · simp only [tabLabelPhase]
        rw [hchild, hfilt, hcond]
        show (⟨mapChildListOf b
            (removeIds ((([] : List DNode).drop 1).filterMap DNode.idOf))
            (mapChildListOf b (fun ch => ch ++ [DNode.elem k "DIV" ["tabbar__label"] [] []])
              [DNode.elem b "BUTTON" ["tabbar__button"] [] curL, inp]),
          label, touched, k + 1⟩ : TabSecOut)
          = ⟨[DNode.elem b "BUTTON" ["tabbar__button"] []
              (curL ++ [DNode.elem k "DIV" ["tabbar__label"] [] []]), inp],
            label, touched, k + 1⟩
        have hmm : mapChildListOf b
            (fun ch => ch ++ [DNode.elem k "DIV" ["tabbar__label"] [] []])
            [DNode.elem b "BUTTON" ["tabbar__button"] [] curL, inp]
            = [DNode.elem b "BUTTON" ["tabbar__button"] []
                (curL ++ [DNode.elem k "DIV" ["tabbar__label"] [] []]), inp] := by
          rw [mapChildListOf_cons_hit b _ "BUTTON" ["tabbar__button"] [] curL [inp],
            mapChildListOf_cons b _ inp [] hinp]
          rfl
        rw [hmm]
        have hout : mapChildListOf b
            (removeIds ((([] : List DNode).drop 1).filterMap DNode.idOf))
            [DNode.elem b "BUTTON" ["tabbar__button"] []
              (curL ++ [DNode.elem k "DIV" ["tabbar__label"] [] []]), inp]
            = [DNode.elem b "BUTTON" ["tabbar__button"] []
                (curL ++ [DNode.elem k "DIV" ["tabbar__label"] [] []]), inp] :=
          mapChildListOf_fun_id (fun l => removeIds_nil l) _
        rw [hout]
      · intro _
        exact ⟨_, rfl, rfl, rfl, rfl, rfl⟩
      · intro h
        exact nomatch h
  | false =>
      refine ⟨[], k, ?_, ?_, ?_⟩
      · simp only [tabLabelPhase]
        rw [hchild, hfilt, hcond]
        show (⟨mapChildListOf b
            (removeIds ((([] : List DNode).drop 1).filterMap DNode.idOf))
            [DNode.elem b "BUTTON" ["tabbar__button"] [] curL, inp],
          label, touched, k⟩ : TabSecOut)
          = ⟨[DNode.elem b "BUTTON" ["tabbar__button"] [] (curL ++ []), inp],
            label, touched, k⟩
        have hout : mapChildListOf b
            (removeIds ((([] : List DNode).drop 1).filterMap DNode.idOf))
            [DNode.elem b "BUTTON" ["tabbar__button"] [] curL, inp]
            = [DNode.elem b "BUTTON" ["tabbar__button"] [] curL, inp] :=
          mapChildListOf_fun_id (fun l => removeIds_nil l) _
        rw [hout, List.append_nil]
      · intro h
        exact nomatch h
      · intro _
        rfl

theorem tabBadgePhase_grow (b : Nat) (curL : List DNode) (inp : DNode)
    (hinp : ¬(inp.idOf = some b)) (badge : Option String)
    (touched : Bool) (k : Nat)
    (hfilt : curL.filter (DNode.hasClass "tabbar__badge") = []) :
    ∃ E kE, tabBadgePhase [DNode.elem b "BUTTON" ["tabbar__button"] [] curL, inp]
        b badge touched k
        = ⟨[DNode.elem b "BUTTON" ["tabbar__button"] [] (curL ++ E), inp],
          badge, touched, kE⟩ ∧
      (truthy badge = true → ∃ w, E = [w] ∧ w.tagOf = "DIV" ∧
        w.hasClass "tabbar__icon" = false ∧ w.hasClass "tabbar__label" = false ∧
        w.hasClass "tabbar__badge" = true) ∧
      (truthy badge = false → E = []) := by
  have hchild : childListOf b [DNode.elem b "BUTTON" ["tabbar__button"] [] curL, inp]
      = curL := by
    unfold childListOf
    rw [List.find?_cons_of_pos _ (by simp [DNode.idOf])]
    rfl
  cases hcond : truthy badge with
  | true =>
      refine ⟨[DNode.elem k "DIV" ["tabbar__badge", "notification"] [] []], k + 1, ?_, ?_, ?_⟩
      · simp only [tabBadgePhase]
        rw [hchild, hfilt, hcond]
        show (⟨mapChildListOf b
            (removeIds ((([] : List DNode).drop 1).filterMap DNode.idOf))
            (mapChildListOf b
              (fun ch => ch ++ [DNode.elem k "DIV" ["tabbar__badge", "notification"] [] []])
              [DNode.elem b "BUTTON" ["tabbar__button"] [] curL, inp]),
          badge, touched, k + 1⟩ : TabSecOut)
          = ⟨[DNode.elem b "BUTTON" ["tabbar__button"] []
              (curL ++ [DNode.elem k "DIV" ["tabbar__badge", "notification"] [] []]), inp],
            badge, touched, k + 1⟩
        have hmm : mapChildListOf b
            (fun ch => ch ++ [DNode.elem k "DIV" ["tabbar__badge", "notification"] [] []])
            [DNode.elem b "BUTTON" ["tabbar__button"] [] curL, inp]
            = [DNode.elem b "BUTTON" ["tabbar__button"] []
                (curL ++ [DNode.elem k "DIV" ["tabbar__badge", "notification"] [] []]), inp] := by
          rw [mapChildListOf_cons_hit b _ "BUTTON" ["tabbar__button"] [] curL [inp],
            mapChildListOf_cons b _ inp [] hinp]
          rfl
        rw [hmm]
        have hout : mapChildListOf b
            (removeIds ((([] : List DNode).drop 1).filterMap DNode.idOf))
            [DNode.elem b "BUTTON" ["tabbar__button"] []
              (curL ++ [DNode.elem k "DIV" ["tabbar__badge", "notification"] [] []]), inp]
            = [DNode.elem b "BUTTON" ["tabbar__button"] []
                (curL ++ [DNode.elem k "DIV" ["tabbar__badge", "notification"] [] []]), inp] :=
          mapChildListOf_fun_id (fun l => removeIds_nil l) _
        rw [hout]
      · intro _
        exact ⟨_, rfl, rfl, rfl, rfl, rfl⟩
      · intro h
        exact nomatch h
  | false =>
      refine ⟨[], k, ?_, ?_, ?_⟩
      · simp only [tabBadgePhase]
        rw [hchild, hfilt, hcond]
        show (⟨mapChildListOf b
            (removeIds ((([] : List DNode).drop 1).filterMap DNode.idOf))
            [DNode.elem b "BUTTON" ["tabbar__button"] [] curL, inp],
          badge, touched, k⟩ : TabSecOut)
          = ⟨[DNode.elem b "BUTTON" ["tabbar__button"] [] (curL ++ []), inp],
            badge, touched, k⟩
        have hout : mapChildListOf b
            (removeIds ((([] : List DNode).drop 1).filterMap DNode.idOf))
            [DNode.elem b "BUTTON" ["tabbar__button"] [] curL, inp]
            = [DNode.elem b "BUTTON" ["tabbar__button"] [] curL, inp] :=
          mapChildListOf_fun_id (fun l => removeIds_nil l) _
        rw [hout, List.append_nil]
      · intro h
        exact nomatch h
      · intro _
        rfl

theorem tabRipplePhase_grow (b : Nat) (curL : List DNode) (inp : DNode)
    (hinp : ¬(inp.idOf = some b)) (ripple : Bool)
    (touched : Bool) (k : Nat)
    (hfilt : curL.filter (fun n => n.tagOf == "ONS-RIPPLE") = []) :
    ∃ E kE, tabRipplePhase [DNode.elem b "BUTTON" ["tabbar__button"] [] curL, inp]
        b ripple touched k
        = ⟨[DNode.elem b "BUTTON" ["tabbar__button"] [] (E ++ curL), inp],
          ripple, touched, kE⟩ ∧
      (ripple = true → ∃ w, E = [w] ∧ w.tagOf = "ONS-RIPPLE" ∧
        w.hasClass "tabbar__icon" = false ∧ w.hasClass "tabbar__label" = false ∧
        w.hasClass "tabbar__badge" = false) ∧
      (ripple = false → E = []) := by
  have hchild : childListOf b [DNode.elem b "BUTTON" ["tabbar__button"] [] curL, inp]
      = curL := by
    unfold childListOf
    rw [List.find?_cons_of_pos _ (by simp [DNode.idOf])]
    rfl
  cases hcond : ripple with
  | true =>
      refine ⟨[DNode.elem k "ONS-RIPPLE" [] [] []], k + 1, ?_, ?_, ?_⟩
      · simp only [tabRipplePhase]
        rw [hchild, hfilt]
        show (⟨mapChildListOf b
            (removeIds ((([] : List DNode).drop 1).filterMap DNode.idOf))
            (mapChildListOf b (fun ch => DNode.elem k "ONS-RIPPLE" [] [] [] :: ch)
              [DNode.elem b "BUTTON" ["tabbar__button"] [] curL, inp]),
          true, touched, k + 1⟩ : TabRippleOut)
          = ⟨[DNode.elem b "BUTTON" ["tabbar__button"] []
              ([DNode.elem k "ONS-RIPPLE" [] [] []] ++ curL), inp],
            true, touched, k + 1⟩
        have hmm : mapChildListOf b (fun ch => DNode.elem k "ONS-RIPPLE" [] [] [] :: ch)
            [DNode.elem b "BUTTON" ["tabbar__button"] [] curL, inp]
            = [DNode.elem b "BUTTON" ["tabbar__button"] []
                ([DNode.elem k "ONS-RIPPLE" [] [] []] ++ curL), inp] := by
          rw [mapChildListOf_cons_hit b _ "BUTTON" ["tabbar__button"] [] curL [inp],
            mapChildListOf_cons b _ inp [] hinp]
          rfl
        rw [hmm]
        have hout : mapChildListOf b
            (removeIds ((([] : List DNode).drop 1).filterMap DNode.idOf))
            [DNode.elem b "BUTTON" ["tabbar__button"] []
              ([DNode.elem k "ONS-RIPPLE" [] [] []] ++ curL), inp]
            = [DNode.elem b "BUTTON" ["tabbar__button"] []
                ([DNode.elem k "ONS-RIPPLE" [] [] []] ++ curL), inp] :=
          mapChildListOf_fun_id (fun l => removeIds_nil l) _
        rw [hout]
      · intro _
        exact ⟨_, rfl, rfl, rfl, rfl, rfl⟩
      · intro h
        exact nomatch h
  | false =>
      refine ⟨[], k, ?_, ?_, ?_⟩
      · simp only [tabRipplePhase]
        rw [hchild, hfilt]
        show (⟨mapChildListOf b
            (removeIds ((([] : List DNode).drop 1).filterMap DNode.idOf))
            [DNode.elem b "BUTTON" ["tabbar__button"] [] curL, inp],
          false, touched, k⟩ : TabRippleOut)
          = ⟨[DNode.elem b "BUTTON" ["tabbar__button"] [] ([] ++ curL), inp],
            false, touched, k⟩
        have hout : mapChildListOf b
            (removeIds ((([] : List DNode).drop 1).filterMap DNode.idOf))
            [DNode.elem b "BUTTON" ["tabbar__button"] [] curL, inp]
            = [DNode.elem b "BUTTON" ["tabbar__button"] [] curL, inp] :=
          mapChildListOf_fun_id (fun l => removeIds_nil l) _
        rw [hout]
        rfl
      · intro h
        exact nomatch h
      · intro _
        rfl

theorem tabPrefix_plain (cs : List DNode) (icon activeIcon label badge : Option String)
    (rip iT lT bT rT : Bool) (k : Nat)
    (hids : ∀ n ∈ cs, ∀ j, n.idOf = some j → j < k)
    (hnob : ∀ n ∈ cs, n.hasClass "tabbar__button" = false)
    (hnoi : ∀ n ∈ cs, ¬(n.tagOf = "INPUT")) :
    tabPrefix ⟨cs, icon, activeIcon, label, badge, rip, iT, lT, bT, rT, none, k⟩
      = ⟨[DNode.elem k "BUTTON" ["tabbar__button"] [] cs,
          DNode.elem (k + 1) "INPUT" [] [("type", "radio")] []],
        k, k + 1, some k, k + 2⟩ := by
  have hfb : cs.filter (DNode.hasClass "tabbar__button") = [] :=
    List.filter_eq_nil_iff.mpr (fun x hx => by simp [hnob x hx])
  have hbp : tabButtonPhase ⟨cs, icon, activeIcon, label, badge, rip, iT, lT, bT, rT, none, k⟩
      = ⟨cs ++ [DNode.elem k "BUTTON" ["tabbar__button"] [] []], k, some k, k + 1⟩ := by
    simp only [tabButtonPhase]
    rw [hfb]
    rfl
  have h1 : cs.filter (fun n => n.tagOf == "INPUT") = [] :=
    List.filter_eq_nil_iff.mpr (fun x hx => by simp [hnoi x hx])
  have hfi : (cs ++ [DNode.elem k "BUTTON" ["tabbar__button"] [] []]).filter
      (fun n => n.tagOf == "INPUT") = [] := by
    rw [List.filter_append, h1]
    rfl
  have hip : tabInputPhase (cs ++ [DNode.elem k "BUTTON" ["tabbar__button"] [] []]) (k + 1)
      = ⟨(cs ++ [DNode.elem k "BUTTON" ["tabbar__button"] [] []])
          ++ [DNode.elem (k + 1) "INPUT" [] [("type", "radio")] []], k + 1, k + 2⟩ := by
    simp only [tabInputPhase]
    rw [hfi]
    rfl
  have hkcs : ∀ n ∈ cs,
      (n.idOf == (some k : Option Nat) || n.idOf == (some (k + 1) : Option Nat)) = false := by
    intro n hn
    cases hidn : n.idOf with
    | none => simp
    | some j =>
        have hj := hids n hn j hidn
        have hj1 : ¬(j = k) := by omega
        have hj2 : ¬(j = k + 1) := by omega
        simp [hj1, hj2]
  have hfk : ((cs ++ [DNode.elem k "BUTTON" ["tabbar__button"] [] []])
      ++ [DNode.elem (k + 1) "INPUT" [] [("type", "radio")] []]).filter
        (fun n => n.idOf == some k || n.idOf == some (k + 1))
      = [DNode.elem k "BUTTON" ["tabbar__button"] [] [],
        DNode.elem (k + 1) "INPUT" [] [("type", "radio")] []] := by
    rw [List.filter_append, List.filter_append,
      List.filter_eq_nil_iff.mpr (fun x hx => by simp [hkcs x hx])]
    simp [DNode.idOf, Nat.succ_ne_self]
  have hfn : ((cs ++ [DNode.elem k "BUTTON" ["tabbar__button"] [] []])
      ++ [DNode.elem (k + 1) "INPUT" [] [("type", "radio")] []]).filter
        (fun n => !(n.idOf == some k || n.idOf == some (k + 1)))
      = cs := by
    rw [List.filter_append, List.filter_append]
    have hcs2 : cs.filter (fun n => !(n.idOf == some k || n.idOf == some (k + 1))) = cs :=
      List.filter_eq_self.mpr (fun x hx => by simp [hkcs x hx])
    rw [hcs2]
    simp [DNode.idOf, Nat.succ_ne_self]
  have ha1 : appendInto k cs (DNode.elem k "BUTTON" ["tabbar__button"] [] [])
      = DNode.elem k "BUTTON" ["tabbar__button"] [] cs := by
    unfold appendInto
    show (if (k == k) = true then DNode.elem k "BUTTON" ["tabbar__button"] [] ([] ++ cs)
      else DNode.elem k "BUTTON" ["tabbar__button"] [] [])
      = DNode.elem k "BUTTON" ["tabbar__button"] [] cs
    rw [if_pos (by simp : (k == k) = true), List.nil_append]
  have ha2 : appendInto k cs (DNode.elem (k + 1) "INPUT" [] [("type", "radio")] [])
      = DNode.elem (k + 1) "INPUT" [] [("type", "radio")] [] := by
    unfold appendInto
    show (if (k + 1 == k) = true then DNode.elem (k + 1) "INPUT" [] [("type", "radio")] ([] ++ cs)
      else DNode.elem (k + 1) "INPUT" [] [("type", "radio")] [])
      = DNode.elem (k + 1) "INPUT" [] [("type", "radio")] []
    rw [if_neg (by simp [Nat.succ_ne_self])]
  have hmv : movePhase (fun n => n.idOf == some k || n.idOf == some (k + 1)) k
      ((cs ++ [DNode.elem k "BUTTON" ["tabbar__button"] [] []])
        ++ [DNode.elem (k + 1) "INPUT" [] [("type", "radio")] []])
      = [DNode.elem k "BUTTON" ["tabbar__button"] [] cs,
        DNode.elem (k + 1) "INPUT" [] [("type", "radio")] []] := by
    unfold movePhase
    rw [hfk, hfn]
    show [appendInto k cs (DNode.elem k "BUTTON" ["tabbar__button"] [] []),
        appendInto k cs (DNode.elem (k + 1) "INPUT" [] [("type", "radio")] [])]
      = [DNode.elem k "BUTTON" ["tabbar__button"] [] cs,
        DNode.elem (k + 1) "INPUT" [] [("type", "radio")] []]
    rw [ha1, ha2]
  simp only [tabPrefix, hbp, hip, hmv]

theorem tab_plain_run (cs : List DNode) (icon activeIcon label badge : Option String)
    (rip iT lT bT rT : Bool) (k : Nat)
    (hids : ∀ n ∈ cs, ∀ j, n.idOf = some j → j < k)
    (hplain : ∀ n ∈ cs, plainTabChild n = true) :
    ∃ L kf, tabCompile ⟨cs, icon, activeIcon, label, badge, rip, iT, lT, bT, rT, none, k⟩
        = ⟨[DNode.elem k "BUTTON" ["tabbar__button"] [] L,
            DNode.elem (k + 1) "INPUT" [] [("type", "radio")] []],
          icon, activeIcon, label, badge, rip, iT, lT, bT, rT, some k, kf⟩ ∧
      ((truthy icon || truthy activeIcon) = true →
        ∃ w, L.filter (DNode.hasClass "tabbar__icon") = [w]) ∧
      ((truthy icon || truthy activeIcon) = false →
        L.filter (DNode.hasClass "tabbar__icon") = []) ∧
      (truthy label = true → ∃ w, L.filter (DNode.hasClass "tabbar__label") = [w]) ∧
      (truthy label = false → L.filter (DNode.hasClass "tabbar__label") = []) ∧
      (truthy badge = true → ∃ w, L.filter (DNode.hasClass "tabbar__badge") = [w]) ∧
      (truthy badge = false → L.filter (DNode.hasClass "tabbar__badge") = []) ∧
      (rip = true → ∃ w, L.filter (fun n => n.tagOf == "ONS-RIPPLE") = [w]) ∧
      (rip = false → L.filter (fun n => n.tagOf == "ONS-RIPPLE") = []) := by
  have hpl : ∀ n ∈ cs, n.hasClass "tabbar__button" = false ∧ ¬(n.tagOf = "INPUT") ∧
      n.hasClass "tabbar__icon" = false ∧ n.hasClass "tabbar__label" = false ∧
      n.hasClass "tabbar__badge" = false ∧ ¬(n.tagOf = "ONS-RIPPLE") := by
    intro n hn
    have h := hplain n hn
    simp only [plainTabChild, Bool.and_eq_true, Bool.not_eq_true',
      beq_eq_false_iff_ne] at h
    exact ⟨h.1.1.1.1.1, h.1.1.1.1.2, h.1.1.1.2, h.1.1.2, h.1.2, h.2⟩
  have htp := tabPrefix_plain cs icon activeIcon label badge rip iT lT bT rT k hids
    (fun n hn => (hpl n hn).1) (fun n hn => (hpl n hn).2.1)
  have hfic : cs.filter (DNode.hasClass "tabbar__icon") = [] :=
    List.filter_eq_nil_iff.mpr (fun x hx => by simp [(hpl x hx).2.2.1])
  have hfla : cs.filter (DNode.hasClass "tabbar__label") = [] :=
    List.filter_eq_nil_iff.mpr (fun x hx => by simp [(hpl x hx).2.2.2.1])
  have hfba : cs.filter (DNode.hasClass "tabbar__badge") = [] :=
    List.filter_eq_nil_iff.mpr (fun x hx => by simp [(hpl x hx).2.2.2.2.1])
  have hfri : cs.filter (fun n => n.tagOf == "ONS-RIPPLE") = [] :=
    List.filter_eq_nil_iff.mpr (fun x hx => by simp [(hpl x hx).2.2.2.2.2])
  have hinp : ¬((DNode.elem (k + 1) "INPUT" [] [("type", "radio")] []).idOf = some k) := by
    intro h
    simp [DNode.idOf] at h
  obtain ⟨Ei, kI, hIeq, hI1, hI2⟩ := tabIconPhase_grow k cs
    (DNode.elem (k + 1) "INPUT" [] [("type", "radio")] []) hinp icon activeIcon iT (k + 2) hfic
  have hEi_label : Ei.filter (DNode.hasClass "tabbar__label") = [] := by
    cases hci : (truthy icon || truthy activeIcon) with
    | true =>
        obtain ⟨w, hEw, hwt, hwi, hwl, hwb⟩ := hI1 hci
        rw [hEw]
        simp [hwl]
    | false =>
        rw [hI2 hci]
        rfl
  have hEi_badge : Ei.filter (DNode.hasClass "tabbar__badge") = [] := by
    cases hci : (truthy icon || truthy activeIcon) with
    | true =>
        obtain ⟨w, hEw, hwt, hwi, hwl, hwb⟩ := hI1 hci
        rw [hEw]
        simp [hwb]
    | false =>
        rw [hI2 hci]
        rfl
  have hEi_rip : Ei.filter (fun n => n.tagOf == "ONS-RIPPLE") = [] := by
    cases hci : (truthy icon || truthy activeIcon) with
    | true =>
        obtain ⟨w, hEw, hwt, hwi, hwl, hwb⟩ := hI1 hci
        rw [hEw]
        simp [hwt]
    | false =>
        rw [hI2 hci]
        rfl
  have hEi_cl : (cs ++ Ei).filter (DNode.hasClass "tabbar__label") = [] := by
    simp [List.filter_append, hfla, hEi_label]
  obtain ⟨El, kL, hLeq, hL1, hL2⟩ := tabLabelPhase_grow k (cs ++ Ei)
    (DNode.elem (k + 1) "INPUT" [] [("type", "radio")] []) hinp label lT kI hEi_cl
  have hEl_icon : El.filter (DNode.hasClass "tabbar__icon") = [] := by
    cases hcl : truthy label with
    | true =>
        obtain ⟨w, hEw, hwt, hwi, hwl, hwb⟩ := hL1 hcl
        rw [hEw]
        simp [hwi]
    | false =>
        rw [hL2 hcl]
        rfl
  have hEl_badge : El.filter (DNode.hasClass "tabbar__badge") = [] := by
    cases hcl : truthy label with
    | true =>
        obtain ⟨w, hEw, hwt, hwi, hwl, hwb⟩ := hL1 hcl
        rw [hEw]
        simp [hwb]
    | false =>
        rw [hL2 hcl]
        rfl
  have hEl_rip : El.filter (fun n => n.tagOf == "ONS-RIPPLE") = [] := by
    cases hcl : truthy label with
    | true =>
        obtain ⟨w, hEw, hwt, hwi, hwl, hwb⟩ := hL1 hcl
        rw [hEw]
        simp [hwt]
    | false =>
        rw [hL2 hcl]
        rfl
  have hEl_cb : ((cs ++ Ei) ++ El).filter (DNode.hasClass "tabbar__badge") = [] := by
    simp [List.filter_append, hfba, hEi_badge, hEl_badge]
  obtain ⟨Eb, kB, hBeq, hB1, hB2⟩ := tabBadgePhase_grow k ((cs ++ Ei) ++ El)
    (DNode.elem (k + 1) "INPUT" [] [("type", "radio")] []) hinp badge bT kL hEl_cb
  have hEb_icon : Eb.filter (DNode.hasClass "tabbar__icon") = [] := by
    cases hcb : truthy badge with
    | true =>
        obtain ⟨w, hEw, hwt, hwi, hwl, hwb⟩ := hB1 hcb
        rw [hEw]
        simp [hwi]
    | false =>
        rw [hB2 hcb]
        rfl
  have hEb_label : Eb.filter (DNode.hasClass "tabbar__label") = [] := by
    cases hcb : truthy badge with
    | true =>
        obtain ⟨w, hEw, hwt, hwi, hwl, hwb⟩ := hB1 hcb
        rw [hEw]
        simp [hwl]
    | false =>
        rw [hB2 hcb]
        rfl
  have hEb_rip : Eb.filter (fun n => n.tagOf == "ONS-RIPPLE") = [] := by
    cases hcb : truthy badge with
    | true =>
        obtain ⟨w, hEw, hwt, hwi, hwl, hwb⟩ := hB1 hcb
        rw [hEw]
        simp [hwt]
    | false =>
        rw [hB2 hcb]
        rfl
  have hEb_cr : (((cs ++ Ei) ++ El) ++ Eb).filter (fun n => n.tagOf == "ONS-RIPPLE") = [] := by
    simp [List.filter_append, hfri, hEi_rip, hEl_rip, hEb_rip]
  obtain ⟨Er, kR, hReq, hR1, hR2⟩ := tabRipplePhase_grow k (((cs ++ Ei) ++ El) ++ Eb)
    (DNode.elem (k + 1) "INPUT" [] [("type", "radio")] []) hinp rip rT kB hEb_cr
  have hEr_icon : Er.filter (DNode.hasClass "tabbar__icon") = [] := by
    cases hcr : rip with
    | true =>
        obtain ⟨w, hEw, hwt, hwi, hwl, hwb⟩ := hR1 hcr
        rw [hEw]
        simp [hwi]
    | false =>
        rw [hR2 hcr]
        rfl
  have hEr_label : Er.filter (DNode.hasClass "tabbar__label") = [] := by
    cases hcr : rip with
    | true =>
        obtain ⟨w, hEw, hwt, hwi, hwl, hwb⟩ := hR1 hcr
        rw [hEw]
        simp [hwl]
    | false =>
        rw [hR2 hcr]
        rfl
  have hEr_badge : Er.filter (DNode.hasClass "tabbar__badge") = [] := by
    cases hcr : rip with
    | true =>
        obtain ⟨w, hEw, hwt, hwi, hwl, hwb⟩ := hR1 hcr
        rw [hEw]
        simp [hwb]
    | false =>
        rw [hR2 hcr]
        rfl
  refine ⟨Er ++ (((cs ++ Ei) ++ El) ++ Eb), kR, ?_, ?_, ?_, ?_, ?_, ?_, ?_, ?_, ?_⟩
  · simp only [tabCompile, htp, hIeq, hLeq, hBeq, hReq]
  · intro hc
    obtain ⟨w, hEw, hwt, hwi, hwl, hwb⟩ := hI1 hc
    exact ⟨w, by simp [List.filter_append, hEr_icon, hfic, hEl_icon, hEb_icon, hEw, hwi]⟩
  · intro hc
    simp [List.filter_append, hEr_icon, hfic, hEl_icon, hEb_icon, hI2 hc]
  · intro hc
    obtain ⟨w, hEw, hwt, hwi, hwl, hwb⟩ := hL1 hc
    exact ⟨w, by simp [List.filter_append, hEr_label, hfla, hEi_label, hEb_label, hEw, hwl]⟩
  · intro hc
    simp [List.filter_append, hEr_label, hfla, hEi_label, hEb_label, hL2 hc]
  · intro hc
    obtain ⟨w, hEw, hwt, hwi, hwl, hwb⟩ := hB1 hc
    exact ⟨w, by simp [List.filter_append, hEr_badge, hfba, hEi_badge, hEl_badge, hEw, hwb]⟩
  · intro hc
    simp [List.filter_append, hEr_badge, hfba, hEi_badge, hEl_badge, hB2 hc]
  · intro hc
    obtain ⟨w, hEw, hwt, hwi, hwl, hwb⟩ := hR1 hc
    exact ⟨w, by simp [List.filter_append, hfri, hEi_rip, hEl_rip, hEb_rip, hEw, hwt]⟩
  · intro hc
    simp [List.filter_append, hfri, hEi_rip, hEl_rip, hEb_rip, hR2 hc]

theorem tabCompile_idem_plain (cs : List DNode) (icon activeIcon label badge : Option String)
    (rip iT lT bT rT : Bool) (k : Nat)
    (hids : ∀ n ∈ cs, ∀ j, n.idOf = some j → j < k)
    (hplain : ∀ n ∈ cs, plainTabChild n = true) :
    tabCompile (tabCompile ⟨cs, icon, activeIcon, label, badge, rip, iT, lT, bT, rT, none, k⟩)
      = tabCompile ⟨cs, icon, activeIcon, label, badge, rip, iT, lT, bT, rT, none, k⟩ := by
  obtain ⟨L, kf, heq, h1, h2, h3, h4, h5, h6, h7, h8⟩ :=
    tab_plain_run cs icon activeIcon label badge rip iT lT bT rT k hids hplain
  rw [heq]
  exact tab_normal_fixed k (k + 1) ["tabbar__button"] [] [] [("type", "radio")] L []
    icon activeIcon label badge rip iT lT bT rT kf rfl rfl h1 h2 h3 h4 h5 h6 h7 h8

/-- C2 (amended): a second `_compile` run is a no-op on every state the
first run can produce from duplicate-free markup.  For `ons-list-item` in
both modes — non-expandable with at most one `div.left` / `div.right` /
`div.center` among the children (wrapper divs and ripples allowed), and
expandable with at most one `div.top` and one `div.expandable-content` at
the top level and at most one candidate per inner role inside the top
wrapper — and for `ons-tab` whose children are plain user content (no
`.tabbar__button`, `input`, icon / label / badge wrapper or `ons-ripple`)
with arbitrary `icon` / `active-icon` / `label` / `badge` / `ripple`
properties, recompiling returns the state of the first run unchanged,
fresh-id counter included.  For general markup the claim fails: with three
`div.expandable-content` children the second run erases another wrapper
(see the counterexample). -/
theorem c2_recompile_noop :
    (∀ cs k, WfForest cs k →
        cs.countP (isDivClass "left") ≤ 1 →
        cs.countP (isDivClass "right") ≤ 1 →
        cs.countP (isDivClass "center") ≤ 1 →
        listItemCompile (listItemCompile ⟨false, cs, k⟩)
          = listItemCompile ⟨false, cs, k⟩) ∧
    (∀ cs k, WfForest cs k →
        cs.countP (isDivClass "top") ≤ 1 →
        cs.countP (isDivClass "expandable-content") ≤ 1 →
        (childListOf (liPrefix ⟨true, cs, k⟩).topId
          (liPrefix ⟨true, cs, k⟩).children).countP (isDivClass "left") ≤ 1 →
        (childListOf (liPrefix ⟨true, cs, k⟩).topId
          (liPrefix ⟨true, cs, k⟩).children).countP (isDivClass "right") ≤ 1 →
        (childListOf (liPrefix ⟨true, cs, k⟩).topId
          (liPrefix ⟨true, cs, k⟩).children).countP (isDivClass "center") ≤ 1 →
        listItemCompile (listItemCompile ⟨true, cs, k⟩)
          = listItemCompile ⟨true, cs, k⟩) ∧
    (∀ t : TabState, WfForest t.children t.nextId → t.autoButton = none →
        (∀ n ∈ t.children, plainTabChild n = true) →
        tabCompile (tabCompile t) = tabCompile t) := by
  refine ⟨?_, ?_, ?_⟩
  · intro cs k hwf hL hR hC
    exact listItemCompile_idem_flat cs k hwf hL hR hC
  · intro cs k hwf hT hE hL hR hC
    exact listItemCompile_idem_exp cs k hwf hT hE hL hR hC
  · intro t hwf hab hplain
    obtain ⟨cs, icon, activeIcon, label, badge, rip, iT, lT, bT, rT, ab, k⟩ := t
    cases hab
    have hids : ∀ n ∈ cs, ∀ j, n.idOf = some j → j < k := fun n hn j hj =>
      hwf.2 j ((ids_sublist_of_mem hn).mem (mem_ids_of_idOf hj))
    exact tabCompile_idem_plain cs icon activeIcon label badge rip iT lT bT rT k hids hplain

/-- C2 witness: the no-op theorem applied to a non-expandable list item
holding a left wrapper and a text node, to an expandable list item holding
a text node and an expandable-content wrapper with content, and to a tab
holding plain content with icon, label and ripple set. -/
theorem c2_recompile_noop_witness :
    listItemCompile (listItemCompile ⟨false,
        [DNode.elem 0 "DIV" ["left"] [] [], DNode.text "hi"], 1⟩)
      = listItemCompile ⟨false, [DNode.elem 0 "DIV" ["left"] [] [], DNode.text "hi"], 1⟩ ∧
    listItemCompile (listItemCompile ⟨true,
        [DNode.text "content", DNode.elem 0 "DIV" ["expandable-content"] []
          [DNode.elem 1 "SPAN" [] [] []]], 2⟩)
      = listItemCompile ⟨true, [DNode.text "content",
          DNode.elem 0 "DIV" ["expandable-content"] [] [DNode.elem 1 "SPAN" [] [] []]], 2⟩ ∧
    tabCompile (tabCompile ⟨[DNode.text "Tab", DNode.elem 0 "ONS-ICON" [] [] []],
        some "ion-home", none, some "Home", none, true,
        false, false, false, false, none, 1⟩)
      = tabCompile ⟨[DNode.text "Tab", DNode.elem 0 "ONS-ICON" [] [] []],
        some "ion-home", none, some "Home", none, true,
        false, false, false, false, none, 1⟩ :=
  ⟨c2_recompile_noop.1 [DNode.elem 0 "DIV" ["left"] [] [], DNode.text "hi"] 1
      (by unfold WfForest; decide) (by decide) (by decide) (by decide),
    c2_recompile_noop.2.1 [DNode.text "content",
        DNode.elem 0 "DIV" ["expandable-content"] [] [DNode.elem 1 "SPAN" [] [] []]] 2
      (by unfold WfForest; decide) (by decide) (by decide)
      (by decide) (by decide) (by decide),
    c2_recompile_noop.2.2 ⟨[DNode.text "Tab", DNode.elem 0 "ONS-ICON" [] [] []],
        some "ion-home", none, some "Home", none, true,
        false, false, false, false, none, 1⟩
      (by unfold WfForest; decide) rfl (by decide)⟩
